import Mathlib

/-!
# Verification of the BCH test harness (Documentation/bch)

Shallow embedding of the harness code of `tu_correct.c`, `tu_bench.c`,
`tu_tool.c`, `tu_gf.c` and `prim.c`.

Conventions of the embedding:
* `unsigned int` values are natural numbers below `2^32`; arithmetic that can
  wrap is written with an explicit `% 4294967296`.
* `int` values that the code keeps non-negative are natural numbers; where a
  negative value matters (`nerrors`, sizes) they are `Int`.
* a byte buffer `uint8_t *data` is a `List Nat` whose entries are below 256
  (`IsBytes`); an `unsigned int *vec` is a `List Nat`.
* the codec under test (`decode_bch`, `encode_bch`) lives in `lib/bch.c` and is
  a parameter of the functions that call it.
* a measured duration (`double`) is an exact rational; the stream of `lrand48()`
  values is a function `Nat → Nat`; C division and remainder on `int` are
  `Int.tdiv` and `Int.tmod`.
-/

namespace TuCorrect

/-! ## Definitions -/

/-- Bit linearizer `rev8` (tu_correct.c:57, tu_bench.c:59, identical text):
`return (x & ~7)|(7-(x & 7));` on `unsigned int`; `~7` is `0xfffffff8`. -/
def rev8 (x : Nat) : Nat :=
  ((x &&& 4294967288) ||| ((7 + 4294967296 - (x &&& 7)) % 4294967296)) % 4294967296

/-- A buffer of `uint8_t`: every entry is below 256. -/
def IsBytes (data : List Nat) : Prop := ∀ x ∈ data, x < 256

/-- One iteration of the loop of `corrupt_data`:
`data[bit/8] ^= 1 << (bit & 7);` with the store truncated to `uint8_t`.
The position is inside the buffer (below `2^31`), so the conversion of
`vec[i]` to `int bit` keeps its value. -/
def flip_bit (data : List Nat) (bit : Nat) : List Nat :=
  data.set (bit / 8) ((data.getD (bit / 8) 0 ^^^ (1 <<< (bit &&& 7))) % 256)

/-- Function `corrupt_data` (tu_correct.c:185, tu_bench.c:86):
`for (i = 0; i < vecsize; i++) { bit = vec[i]; data[bit/8] ^= 1 << (bit & 7); }`. -/
def corrupt_data (data : List Nat) (vec : List Nat) (vecsize : Int) : List Nat :=
  (vec.take vecsize.toNat).foldl flip_bit data

/-- Function `compare_vectors` (tu_correct.c:196, tu_bench.c:96). The result is
`true` when no assertion fails: `assert(vecsize == errsize)`, then for every
`i < vecsize` the inner loop must find a `j < vecsize` with
`errloc[j] == vec[i]` (`assert(ok)`). -/
def compare_vectors (vec : List Nat) (vecsize : Int) (errloc : List Nat) (errsize : Int) : Bool :=
  decide (vecsize = errsize) &&
    (List.range vecsize.toNat).all (fun i =>
      (List.range vecsize.toNat).any (fun j => errloc.getD j 0 == vec.getD i 0))

/-- Function `check_vector` of tu_correct.c:228. The codec call
`decode_bch(bch, data, len, read_ecc, NULL, NULL, errloc)` is the parameter
`decode`: from the codec state, the (read-only) buffer and the previous content
of `errloc` it gives the new codec state, the return value and the new
`errloc`. `compute_elp` only writes its own local polynomials. The result is
the buffer when the function is left (by return or by a failed assertion)
and whether every assertion held. -/
def check_vector {σ : Type} (decode : σ → List Nat → List Nat → σ × Int × List Nat)
    (bch : σ) (data : List Nat) (vec : List Nat) (vecsize : Int) (errloc0 : List Nat) :
    List Nat × Bool :=
  if vecsize = 0 then (data, true)
  else
    let d1 := corrupt_data data vec vecsize
    let r := decode bch d1 errloc0
    let d2 := corrupt_data d1 vec vecsize
    if r.2.1 < 0 then (d2, false)
    else (d2, compare_vectors vec vecsize r.2.2 r.2.1)

end TuCorrect

namespace TuBench

/-- The decode loop `for (i = 0; i < niter; i++) nerrors = decode_bch(...)`:
the state is the codec state, the last return value and `errloc`. -/
def decode_loop {σ : Type} (dec : σ → List Nat → σ × Int × List Nat) :
    Nat → σ × Int × List Nat → σ × Int × List Nat
  | 0, s => s
  | n + 1, s => decode_loop dec n (dec s.1 s.2.2)

/-- Function `check_vector` of tu_bench.c:126. `encode` is
`memset(ecc, 0, ..); encode_bch(bch, data, len, ecc)` and gives the local `ecc`,
`decode` is `decode_bch(bch, data, len, read_ecc, NULL, NULL, errloc)` and
`decode_ecc` is `decode_bch(bch, NULL, len, NULL, ecc, NULL, errloc)`; none of
them writes to `data`. `len` splits the buffer into data and `read_ecc`. The
measured time is not part of the model. The result is the buffer when the
function is left and whether the assertions of `compare_vectors` held. -/
def check_vector {σ : Type} (encode : σ → List Nat → List Nat)
    (decode : σ → List Nat → List Nat → σ × Int × List Nat)
    (decode_ecc : σ → List Nat → List Nat → σ × Int × List Nat)
    (bch : σ) (data : List Nat) (len : Nat) (vec : List Nat) (vecsize : Int)
    (encode_once : Bool) (niter : Int) (errloc0 : List Nat) : List Nat × Bool :=
  let d1 := TuCorrect.corrupt_data data vec vecsize
  let r : σ × Int × List Nat :=
    if encode_once then
      let ecc := List.zipWith (fun a b => a ^^^ b) (encode bch d1) (d1.drop len)
      if ecc.any (fun b => b != 0) then
        decode_loop (fun s e => decode_ecc s ecc e) niter.toNat (bch, 0, errloc0)
      else (bch, 0, errloc0)
    else
      decode_loop (fun s e => decode s d1 e) niter.toNat (bch, 0, errloc0)
  let d2 := TuCorrect.corrupt_data d1 vec vecsize
  (d2, TuCorrect.compare_vectors vec vecsize r.2.2 r.2.1)

end TuBench

namespace TuTool

/-- Bit linearizer `rev8` of tu_tool.c:77, on `int`:
`return (bit & ~7)|(7-(bit & 7));` where `~7` is `-8`. -/
def rev8 (bit : Int) : Int := Int.lor (Int.land bit (-8)) (7 - Int.land bit 7)

/-- Function `corrupt_data` of tu_tool.c:156:
`for (i = 0; i < ncorrupt; i++) data[bitflip[i]/8] ^= 1 << (bitflip[i] & 7);`.
The entries of `bitflip` are positions inside the buffer, hence non-negative
`int`s, on which `Int.toNat` keeps the value. -/
def corrupt_data (bitflip : List Int) (data : List Nat) (ncorrupt : Int) : List Nat :=
  (bitflip.take ncorrupt.toNat).foldl (fun d b => TuCorrect.flip_bit d b.toNat) data

/-- Function `generic_decode` of tu_tool.c:164, up to the second
`corrupt_data`. `bitflip` is the vector that `generate_error_vector` has left in
the global array; `decode` is the call of `decode_bch`, which gets the buffer
read-only and whether the cached ecc is used
(`cache_encode = cache_encode && !ncorrupt`). The result is the buffer, the
return value of `decode_bch` and `errloc`. -/
def generic_decode {σ : Type} (decode : σ → Bool → List Nat → List Nat → σ × Int × List Nat)
    (bch : σ) (data : List Nat) (errloc : List Nat) (bitflip : List Int) (ncorrupt : Int)
    (cache_encode : Bool) : List Nat × Int × List Nat :=
  let cache := cache_encode && decide (ncorrupt = 0)
  let d1 := if ncorrupt ≠ 0 then corrupt_data bitflip data ncorrupt else data
  let r := decode bch cache d1 errloc
  let d2 := if ncorrupt ≠ 0 then corrupt_data bitflip d1 ncorrupt else d1
  (d2, r.2.1, r.2.2)

end TuTool

namespace TuCorrect

/-- The scan of `generate_random_vector` for an earlier equal entry:
`for (j = 0; j < i; j++) if (vec[j] == vec[i]) { ok = 0; break; }`;
`true` when `ok` ends as 0. -/
def collides (vec : List Nat) (i : Nat) : Bool :=
  (List.range i).any (fun j => vec.getD j 0 == vec.getD i 0)

/-- The loops of `generate_random_vector` from index `i` on. The first argument
is the sequence of values that the next calls of `lrand48()` return; every
pass of the `do ... while (!ok)` body takes one of them:
`vec[i] = lrand48() % nbits; vec[i] = rev8(vec[i]);`, then the scan. The result
is `none` when the listed values are used up before the loops end, or when
`nbits` is 0 (division by zero); otherwise the final `vec` and the values
not used. -/
def generate_random_vector_from (nbits : Nat) (vecsize : Int) :
    List Nat → Nat → List Nat → Option (List Nat × List Nat)
  | [], i, vec => if vecsize ≤ i then some (vec, []) else none
  | r :: rest, i, vec =>
    if vecsize ≤ i then some (vec, r :: rest)
    else if nbits = 0 then none
    else
      let vec1 := vec.set i (rev8 (r % nbits))
      if collides vec1 i then generate_random_vector_from nbits vecsize rest i vec1
      else generate_random_vector_from nbits vecsize rest (i + 1) vec1

/-- Function `generate_random_vector` (tu_correct.c:163, tu_bench.c:64), with
`nbits = 8*len+bch->ecc_bits` and the values of `lrand48()` as arguments. -/
def generate_random_vector (nbits : Nat) (vec : List Nat) (vecsize : Int) (stream : List Nat) :
    Option (List Nat × List Nat) :=
  generate_random_vector_from nbits vecsize stream 0 vec

/-- The loop `for (i = 0; i < nerrors; i++) vec[i] = rev8(vec[i]);` of the leaf of
`bch_test_errors_full_k`. -/
def rev8_first (n : Nat) (vec : List Nat) : List Nat :=
  (vec.take n).map rev8 ++ vec.drop n

/-- The loop `for (i = j; i < bound; i++) { vec[k] = i; <recursive call> }` of
`bch_test_errors_full_k`, by the number of iterations left. `body` is the
recursive call; the result is the final `vec` and the vectors handed to
`check_vector`, in order. -/
def full_k_loop (body : List Nat → Option (List Nat × List (List Nat))) (k : Nat) :
    Nat → Nat → List Nat → Option (List Nat × List (List Nat))
  | 0, _, vec => some (vec, [])
  | n + 1, i, vec =>
    match body (vec.set k i) with
    | none => none
    | some (v1, o1) =>
      match full_k_loop body k n (i + 1) v1 with
      | none => none
      | some (v2, o2) => some (v2, o1 ++ o2)

/-- Function `bch_test_errors_full_k` (tu_correct.c:295) with
`nbits = 8*len+bch->ecc_bits`. The first argument bounds the recursion depth
(`none` when it is used up). The result is the final content of `vec` and the
list of the vectors `vec[0..nerrors)` handed to `check_vector`, in call order;
`check_vector` takes `vec` as `const` and leaves the buffer as it was.
`j = (k > 0)? vec[k-1]+1 : 0` and the bound `nbits-(nerrors-k-1)` are
`unsigned int` values. -/
def bch_test_errors_full_k (nbits nerrors : Nat) :
    Nat → Nat → List Nat → Option (List Nat × List (List Nat))
  | 0, k, vec =>
    if k = nerrors then
      let v1 := rev8_first nerrors vec
      some (rev8_first nerrors v1, [v1.take nerrors])
    else none
  | fuel + 1, k, vec =>
    if k = nerrors then
      let v1 := rev8_first nerrors vec
      some (rev8_first nerrors v1, [v1.take nerrors])
    else
      let j := if 0 < k then (vec.getD (k - 1) 0 + 1) % 4294967296 else 0
      let bound := (((nbits : Int) - ((nerrors : Int) - (k : Int) - 1)) % 4294967296).toNat
      full_k_loop (fun v => bch_test_errors_full_k nbits nerrors fuel (k + 1) v) k (bound - j) j vec

/-- The case count that `bch_test_errors_full` prints (tu_correct.c:337-347):
`iter = 1; den = 1; for (i = 0; i < nerrors; i++) { iter *= (8*len+bch->ecc_bits-i);
den *= (i+1ull); } iter /= den;` with `uint64_t iter, den` and the factor an
`unsigned int`. -/
def bch_test_errors_full_iter (nbits : Nat) (nerrors : Nat) : Nat :=
  let r := (List.range nerrors).foldl
    (fun (s : Nat × Nat) i =>
      ((s.1 * ((nbits + 4294967296 - i % 4294967296) % 4294967296)) % 18446744073709551616,
       (s.2 * (i + 1)) % 18446744073709551616)) (1, 1)
  r.1 / r.2

/-- The vectors that `bch_test_errors_bursts` (tu_correct.c:373) hands to
`check_vector`, in order, with `nbits = 8*len+bch->ecc_bits`:
`iter = 8*len+bch->ecc_bits-nerrors+1;` (an `unsigned int` value), then
`for (i = 0; i < (int)iter; i++) { for (j = 0; j < nerrors; j++) vec[j] = rev8(i+j);
check_vector(bch, data, len, vec, nerrors); }`. -/
def bch_test_errors_bursts (nbits : Nat) (nerrors : Nat) : List (List Nat) :=
  let iter := (nbits + 4294967296 - nerrors % 4294967296 + 1) % 4294967296
  let n : Int := if iter < 2147483648 then (iter : Int) else (iter : Int) - 4294967296
  (List.range n.toNat).map (fun i =>
    (List.range nerrors).map (fun j => rev8 ((i + j) % 4294967296)))

/-- Reference enumeration used to state what the exhaustive enumerator visits:
the strictly increasing `r`-tuples over `[lo, N)`, in lexicographic order. -/
def incTuples (N : Nat) : Nat → Nat → List (List Nat)
  | 0, _ => [[]]
  | r + 1, lo =>
    (List.range' lo (N - r - lo)).flatMap (fun i => (incTuples N r (i + 1)).map (fun t => i :: t))

end TuCorrect

namespace TuGf

/-- Table `prim_poly_tab` of tu_gf.c:114, the default primitive polynomials for
`m = 5 .. 15`; `main` sets `primpoly = prim_poly_tab[m-min_m]` with `min_m = 5`. -/
def prim_poly_tab : List Nat :=
  [0x25, 0x43, 0x83, 0x11d, 0x211, 0x409, 0x805, 0x1053, 0x201b, 0x402b, 0x8003]

/-- One iteration of the loop of `multiply_ak`:
`x <<= 1; if (x & (1 << m)) { x ^= primpoly; }` on `unsigned int x`. The globals
`primpoly` and `m` are arguments. -/
def multiply_ak_step (primpoly m x : Nat) : Nat :=
  let x1 := (x <<< 1) % 4294967296
  if x1 &&& (1 <<< m) ≠ 0 then x1 ^^^ primpoly else x1

/-- Function `multiply_ak` (tu_gf.c:38): `k` iterations of the step. -/
def multiply_ak (primpoly m : Nat) (x : Nat) : Nat → Nat
  | 0 => x
  | k + 1 => multiply_ak primpoly m (multiply_ak_step primpoly m x) k

/-- Function `multiply` (tu_gf.c:50):
`for (i = 0; i < m; i++) { if (x & (1 << i)) { r ^= multiply_ak(y, i); } } return r;`. -/
def multiply (primpoly m x y : Nat) : Nat :=
  (List.range m).foldl
    (fun r i => if x &&& (1 <<< i) ≠ 0 then r ^^^ multiply_ak primpoly m y i else r) 0

/-- Function `inverse` (tu_gf.c:63): `assert(x)`, then the brute-force search
`for (y = 1; y < (1u << m); y++) if (multiply(x, y) == 1) return y;` and
`assert(0)` when nothing is found. A failed assertion is `none`. -/
def inverse (primpoly m x : Nat) : Option Nat :=
  if x = 0 then none
  else (List.range' 1 ((1 <<< m) - 1)).find? (fun y => multiply primpoly m x y == 1)

/-- Walk along the orbit of `x` under the step of `multiply_ak`: the next `n`
values differ from 1 and the one after them is 1. -/
def order_check (primpoly m : Nat) : Nat → Nat → Bool
  | 0, x => multiply_ak_step primpoly m x == 1
  | n + 1, x =>
    multiply_ak_step primpoly m x != 1 &&
      order_check primpoly m n (multiply_ak_step primpoly m x)

/-- Field parameters in range: `1 ≤ m ≤ 31` and `primpoly` a polynomial of
degree `m` with constant term 1. -/
structure GoodPoly (p m : Nat) : Prop where
  hm1 : 1 ≤ m
  hm : m ≤ 31
  hlo : 2 ^ m ≤ p
  hhi : p < 2 ^ (m + 1)
  hodd : p % 2 = 1

/-- The polynomial is primitive: `alpha` (the element 2) has multiplicative
order `2^m - 1`. -/
structure Primitive (p m : Nat) : Prop where
  good : GoodPoly p m
  one : multiply_ak p m 1 (2 ^ m - 1) = 1
  ne_one : ∀ k, 1 ≤ k → k < 2 ^ m - 1 → multiply_ak p m 1 k ≠ 1

end TuGf

namespace TuCorrect

/-- The codeword length estimate of the drivers (tu_correct.c:438, 452, 461 and
tu_bench.c:295): `nbits = (1 << (m-1))+m*t;`, with `t` a non-negative `int`. -/
def main_nbits (m t : Nat) : Nat := (1 <<< (m - 1)) + m * t

/-- The guard of the drivers: `if (nbits < (1 << m))` in `main` of tu_correct.c
and `assert(nbits < (1 << m));` in `main` of tu_bench.c. -/
def main_guard (m t : Nat) : Bool := decide (main_nbits m t < 1 <<< m)

/-- The data length of the tests: `len = (1 << (m-1))/8;` (tu_correct.c:274, 335,
387 and tu_bench.c:234). -/
def test_len (m : Nat) : Nat := (1 <<< (m - 1)) / 8

/-- Constant `MAX_TESTS` of tu_correct.c:45. -/
def MAX_TESTS : Nat := 15000000000

/-- The cutoff of `bch_test_errors_full` (tu_correct.c:350):
`if (((m-1)*nerrors >= 64) || (iter > (uint64_t)MAX_TESTS))`, `true` when the run
is skipped. -/
def bch_test_errors_full_skips (m nerrors iter : Nat) : Bool :=
  decide ((m - 1) * nerrors ≥ 64) || decide (iter > MAX_TESTS)

end TuCorrect

namespace TuMem

/-- The three counters of tu_mem.c:32-34: `static int count, allocated, fault`,
as integers (the counters stay far from the limits of `int`). -/
structure MemState where
  count : Int
  allocated : Int
  fault : Int
deriving DecidableEq

/-- The test `fault && ((count % fault) == (fault-1))` of `my_malloc` and
`my_calloc`, on the state after `count++`; `%` of C truncates. -/
def injects_fault (s : MemState) : Bool :=
  decide (s.fault ≠ 0) && decide (Int.tmod s.count s.fault = s.fault - 1)

/-- Function `my_malloc` (tu_mem.c:36). `sys` is the pointer that the C library
`malloc(size)` gives (0 for `NULL`). The result is the new state and `none` for
the injected `return NULL;`, `some sys` for `return malloc(size);`. -/
def my_malloc (s : MemState) (_size : Nat) (sys : Nat) : MemState × Option Nat :=
  let s1 := { s with count := s.count + 1 }
  if injects_fault s1 then (s1, none)
  else ({ s1 with allocated := s1.allocated + 1 }, some sys)

/-- Function `my_calloc` (tu_mem.c:46), same body as `my_malloc` with
`calloc(nmemb, size)`. -/
def my_calloc (s : MemState) (_nmemb _size : Nat) (sys : Nat) : MemState × Option Nat :=
  let s1 := { s with count := s.count + 1 }
  if injects_fault s1 then (s1, none)
  else ({ s1 with allocated := s1.allocated + 1 }, some sys)

/-- Function `my_free` (tu_mem.c:56): `if (ptr) { allocated--; } free(ptr);`. -/
def my_free (s : MemState) (ptr : Nat) : MemState :=
  if ptr ≠ 0 then { s with allocated := s.allocated - 1 } else s

/-- A call of one of the three wrappers, with its arguments and, for the two
allocators, the pointer the C library would give. -/
inductive Call where
  | malloc (size sys : Nat)
  | calloc (nmemb size sys : Nat)
  | free (ptr : Nat)
deriving DecidableEq

/-- What a wrapper call did: it injected a failure, it performed the allocation
(with the pointer returned), or it was a `my_free` of the given pointer. -/
inductive Outcome where
  | injected
  | performed (ptr : Nat)
  | freed (ptr : Nat)
deriving DecidableEq

/-- The outcome of an allocator call from its result. -/
def outcome_of_alloc : Option Nat → Outcome
  | none => Outcome.injected
  | some p => Outcome.performed p

/-- One wrapper call on the counters. -/
def step (s : MemState) : Call → MemState × Outcome
  | Call.malloc size sys => ((my_malloc s size sys).1, outcome_of_alloc (my_malloc s size sys).2)
  | Call.calloc nmemb size sys =>
    ((my_calloc s nmemb size sys).1, outcome_of_alloc (my_calloc s nmemb size sys).2)
  | Call.free ptr => (my_free s ptr, Outcome.freed ptr)

/-- A sequence of wrapper calls: the final counters and the outcomes in order. -/
def run (s : MemState) : List Call → MemState × List Outcome
  | [] => (s, [])
  | c :: cs => ((run (step s c).1 cs).1, (step s c).2 :: (run (step s c).1 cs).2)

/-- The call is an allocator call. -/
def is_alloc : Call → Bool
  | Call.free _ => false
  | _ => true

/-- The call performed an allocation (no failure was injected). -/
def is_performed : Outcome → Bool
  | Outcome.performed _ => true
  | _ => false

/-- The call was a `my_free` of a non-null pointer. -/
def is_nonnull_free : Outcome → Bool
  | Outcome.freed p => p != 0
  | _ => false

/-- The clean loop of `main` (tu_mem.c:75-84):
`for (m = m1; m <= m2; m++) for (t = 4; t <= 16; t++) { fprintf(stderr,
"m=%d:t=%d: basic memory check", m, t); bch = init_bch(m, 4, 0); ... }` with
`m1 = 5, m2 = 15`. Every iteration is listed with the pair `(m, t)` it prints and
the three arguments it passes to `init_bch`. -/
def main_clean_loop : List ((Nat × Nat) × (Nat × Nat × Nat)) :=
  (List.range' 5 11).flatMap (fun m => (List.range' 4 13).map (fun t => ((m, t), (m, 4, 0))))

end TuMem

namespace TuGf

/-- Reference reading of a bit vector as a polynomial over GF(2): bit `i` of `x` is
the coefficient of `X^i`. -/
noncomputable def toPoly (x : Nat) : Polynomial (ZMod 2) :=
  ∑ i ∈ Finset.range (x + 1), if x.testBit i then (Polynomial.X : Polynomial (ZMod 2)) ^ i else 0

end TuGf

namespace TuCorrect

/-- Modelled from the spec: `struct gf_poly` of lib/bch.c (not in the sources), a
polynomial over GF(2^m) as "an ordered sequence of coefficients indexed `0..deg`
(little-endian in degree)". The list `c` holds `c[0..deg]`; what the C array has
beyond `c[deg]` is never read by `compute_elp`. -/
structure gf_poly where
  deg : Nat
  c : List Nat
deriving DecidableEq

/-- The field primitives of lib/bch.c (not in the sources) that `compute_elp` and
`gf_poly_mul` call, as parameters: `gf_mul(bch, a, b)`, `gf_div(bch, a, b)`,
`gf_inv(bch, a)` on `unsigned int` and `a_pow(bch, i)` on `int i`. -/
structure GfOps where
  gf_mul : Nat → Nat → Nat
  gf_div : Nat → Nat → Nat
  gf_inv : Nat → Nat
  a_pow : Int → Nat

/-- Conversion of an `unsigned int` to `int` (`bit = rev8(vec[i]);`). -/
def to_int (x : Nat) : Int := if x < 2147483648 then (x : Int) else (x : Int) - 4294967296

/-- Function `gf_poly_mul` (tu_correct.c:118):
`memset(res, 0, GF_POLY_SZ(a->deg + b->deg));` clears `c[0..a->deg+b->deg]`
(the macro is in lib/bch.c), then
`for (i = 0; i <= a->deg; i++) for (j = 0; j <= b->deg; j++)
res->c[i+j] ^= gf_mul(bch, a->c[i], b->c[j]);` and `res->deg = a->deg + b->deg;`. -/
def gf_poly_mul (ops : GfOps) (a b : gf_poly) : gf_poly :=
  let zero := List.replicate (a.deg + b.deg + 1) 0
  let c := (List.range (a.deg + 1)).foldl (fun c i =>
    (List.range (b.deg + 1)).foldl (fun c j =>
      c.set (i + j) (c.getD (i + j) 0 ^^^ ops.gf_mul (a.c.getD i 0) (b.c.getD j 0))) c) zero
  { deg := a.deg + b.deg, c := c }

/-- Modelled from the spec: `gf_poly_copy(dst, src)` of lib/bch.c (not in the
sources), the copy of the polynomial `src` into `dst`. -/
def gf_poly_copy (_dst src : gf_poly) : gf_poly := src

/-- The factor built in the loop of `compute_elp`:
`m->deg = 1; bit = rev8(vec[i]); bit = nbits-1-bit;
m->c[0] = gf_inv(bch, a_pow(bch, bit)); m->c[1] = 1;`. -/
def elp_factor (ops : GfOps) (nbits : Int) (v : Nat) : gf_poly :=
  { deg := 1, c := [ops.gf_inv (ops.a_pow (nbits - 1 - to_int (rev8 v))), 1] }

/-- The first loop of `compute_elp`: from `p->deg = 0; p->c[0] = 1;`, for
`i < vecsize`: `gf_poly_mul(bch, m, p, q); gf_poly_copy(p, q);`. -/
def elp_product (ops : GfOps) (nbits : Int) (vec : List Nat) (vecsize : Nat) : gf_poly :=
  (List.range vecsize).foldl
    (fun p i => gf_poly_copy p (gf_poly_mul ops (elp_factor ops nbits (vec.getD i 0)) p))
    { deg := 0, c := [1] }

/-- The second loop of `compute_elp`:
`for (i = p->deg; i >= 0; i--) p->c[i] = gf_div(bch, p->c[i], p->c[0]);`. -/
def elp_normalize (ops : GfOps) (p : gf_poly) : gf_poly :=
  ⟨p.deg, (List.range (p.deg + 1)).reverse.foldl
      (fun c i => c.set i (ops.gf_div (c.getD i 0) (c.getD 0 0))) p.c⟩

/-- Function `compute_elp` (tu_correct.c:134) with `nbits = 8*len+bch->ecc_bits`;
the result is the polynomial `p` when the function ends. -/
def compute_elp (ops : GfOps) (nbits : Int) (vec : List Nat) (vecsize : Nat) : gf_poly :=
  elp_normalize ops (elp_product ops nbits vec vecsize)

/-- The primitives are the field operations of GF(2^m): the `m`-bit values are the
elements of a field `F` through `toF`, with xor as addition, 1 as unit, `gf_mul`,
`gf_div`, `gf_inv` as product, quotient and inverse, and `a_pow i` as the power
`alpha^i` of a non-zero element. -/
structure GfField (m : Nat) (ops : GfOps) {F : Type} [Field F] (toF : Nat → F) (α : F) :
    Prop where
  hm : 1 ≤ m
  toF_xor : ∀ a, a < 2 ^ m → ∀ b, b < 2 ^ m → toF (a ^^^ b) = toF a + toF b
  toF_one : toF 1 = 1
  toF_inj : ∀ a, a < 2 ^ m → ∀ b, b < 2 ^ m → toF a = toF b → a = b
  mul_lt : ∀ a, a < 2 ^ m → ∀ b, b < 2 ^ m → ops.gf_mul a b < 2 ^ m
  toF_mul : ∀ a, a < 2 ^ m → ∀ b, b < 2 ^ m → toF (ops.gf_mul a b) = toF a * toF b
  div_lt : ∀ a, a < 2 ^ m → ∀ b, b < 2 ^ m → ops.gf_div a b < 2 ^ m
  toF_div : ∀ a, a < 2 ^ m → ∀ b, b < 2 ^ m → b ≠ 0 → toF (ops.gf_div a b) = toF a / toF b
  inv_lt : ∀ a, a < 2 ^ m → a ≠ 0 → ops.gf_inv a < 2 ^ m
  toF_inv : ∀ a, a < 2 ^ m → a ≠ 0 → toF (ops.gf_inv a) = (toF a)⁻¹
  pow_lt : ∀ i : Nat, ops.a_pow (i : Int) < 2 ^ m
  toF_pow : ∀ i : Nat, toF (ops.a_pow (i : Int)) = α ^ i
  alpha_ne : α ≠ 0

/-- Reference reading of a coefficient list as a polynomial over the field:
`c[0] + c[1] X + c[2] X^2 + ...`. -/
noncomputable def polyOf {F : Type} [Field F] (toF : Nat → F) : List Nat → Polynomial F
  | [] => 0
  | a :: t => Polynomial.C (toF a) + Polynomial.X * polyOf toF t

/-- The field element that `compute_elp` attaches to the position `v`:
`(alpha^(nbits-1-rev8(v)))^-1`. -/
def elp_root {F : Type} [Field F] (α : F) (nbits : Nat) (v : Nat) : F :=
  (α ^ (nbits - 1 - rev8 v))⁻¹

/-- Reference polynomial: the product of the factors `X + r_i` for the first `k`
positions of `vec`. -/
noncomputable def elp_reference {F : Type} [Field F] (α : F) (nbits : Nat) (vec : List Nat)
    (k : Nat) : Polynomial F :=
  ((List.range k).map
    (fun i => Polynomial.X + Polynomial.C (elp_root α nbits (vec.getD i 0)))).prod

/-- Every entry of the list is an `m`-bit value. -/
def AllLt (m : Nat) (c : List Nat) : Prop := ∀ x ∈ c, x < 2 ^ m

/-- The smallest instance of the primitives, GF(2) (`m = 1`): product, quotient and
inverse on the values 0 and 1, and `alpha = 1`. -/
def gf2_ops : GfOps := ⟨fun a b => a * b, fun a b => a * b, fun a => a, fun _ => 1⟩

end TuCorrect

namespace TuBench

/-- Arguments of `rev8` in the sample test case of `calibrate` (tu_bench.c:176-181):
`nbits = 8*len+bch->ecc_bits-1;` and, for `i < t`,
`i*nbits/((bch->t >= 2)? (bch->t-1) : 2)`, all on `unsigned int`. -/
def calibrate_pre (len ecc_bits t : Nat) : List Nat :=
  let nbits := (8 * len + ecc_bits + 4294967296 - 1) % 4294967296
  (List.range t).map (fun i => ((i * nbits) % 4294967296) / (if t ≥ 2 then t - 1 else 2))

/-- Sample test case of `calibrate`: `vec[i] = rev8(...)`; tu_bench.c has its own copy
of `rev8`, textually the one of tu_correct.c. -/
def calibrate_vec (len ecc_bits t : Nat) : List Nat :=
  (calibrate_pre len ecc_bits t).map TuCorrect.rev8

end TuBench

namespace TuTool

/-- The C expression `1 << k` on `int`, for `0 ≤ k < 31`. -/
def shl_one (k : Int) : Int := ((1 <<< k.toNat : Nat) : Int)

/-- Case `'r'` of `main` (tu_tool.c:325-338): the parameters derived from three
successive `lrand48()` draws `r1`, `r2`, `r3`, returned as `(m, t, ncorrupt, len)`:
`m = 7+(lrand48() % 9); tmax = ((1 << (m-1))-1)/m; t = 1+(lrand48() % tmax);`
`ncorrupt = 1+(lrand48() % t); len = ((1 << m)-1)/8 - (m*t+7)/8;`. -/
def random_params (r1 r2 r3 : Nat) : Int × Int × Int × Int :=
  let m : Int := 7 + Int.tmod r1 9
  let tmax : Int := Int.tdiv (shl_one (m - 1) - 1) m
  let t : Int := 1 + Int.tmod r2 tmax
  let ncorrupt : Int := 1 + Int.tmod r3 t
  let len : Int := Int.tdiv (shl_one m - 1) 8 - Int.tdiv (m * t + 7) 8
  (m, t, ncorrupt, len)

/-- Constant `MAX_ERRORS` of tu_tool.c:73. -/
def MAX_ERRORS : Int := 2048

/-- Configuration assertions of `main` (tu_tool.c:351-356), after the default
`if (len == 0) len = 1 << (m-4);`: true when the three `assert`s pass. -/
def main_asserts (m t len : Int) : Bool :=
  let len1 := if len = 0 then shl_one (m - 4) else len
  decide ((m ≥ 5 ∧ m ≤ 15) ∧ (t > 0 ∧ t ≤ MAX_ERRORS) ∧
    (len1 > 0 ∧ 8 * len1 + m * t ≤ shl_one m - 1))

end TuTool

namespace TuBench

/-- Constant `MIN_ITER_US` of tu_bench.c:40. -/
def MIN_ITER_US : Int := 10000

/-- Iteration count computed by `calibrate` (tu_bench.c:175, 184-189) from the measured
cost `d` of the 100 calibration iterations, read as an exact rational:
`*niter = 0; if (d) *niter = (int)floor(MIN_ITER_US*100.0/d);`
`if (!*niter || (*niter > 100000)) *niter = 1;`.
The conversion `(int)` of a value outside the range of `int` is undefined: `none`. -/
def calibrate_niter (d : ℚ) : Option Int :=
  let f : Int := if d ≠ 0 then ⌊((MIN_ITER_US * 100 : Int) : ℚ) / d⌋ else 0
  if f < -2147483648 ∨ 2147483647 < f then none
  else some (if f = 0 ∨ f > 100000 then 1 else f)

end TuBench

namespace TuCorrect

/-- Result of the `strcmp` chain on `argv[1]` in `main` (tu_correct.c:434-457). -/
inductive Mode where
  | full : Mode
  | rand : Mode
  | burst : Mode
  | other : Mode
deriving DecidableEq

/-- One call issued by `main`: `bch_test_errors_full(m, t, k)`,
`bch_test_errors_random(m, t, niter)` or `bch_test_errors_bursts(m, t, k)`. -/
inductive TestCall where
  | errors_full : Nat → Nat → Nat → TestCall
  | errors_random : Nat → Nat → Nat → TestCall
  | errors_bursts : Nat → Nat → Nat → TestCall
deriving DecidableEq

/-- Constant `RAND_ITER` of tu_correct.c:43. -/
def RAND_ITER : Nat := 1000000

/-- List of the integers of `for (x = a; x <= b; x++)`. -/
def loop_range (a b : Nat) : List Nat := List.range' a (b + 1 - a)

/-- Function `main` of tu_correct.c:418-471, as the list of test calls it issues.
`argc` counts `argv[0]`; `mode` is the outcome of the comparisons of `argv[1]`, and
`tmax`, `a3`, `a4` are `atoi(argv[2])`, `atoi(argv[3])`, `atoi(argv[4])` (the last two
are read only under the tests on `argc` below):
`m1 = 7, m2 = 15, niter = RAND_ITER; if (argc < 3) exit(1);`
`if (argc == 4) m1 = m2 = atoi(argv[3]);` and, in mode `rand`,
`if (argc == 5) niter = atoi(argv[4]);`. -/
def main_calls (argc : Nat) (mode : Mode) (tmax a3 a4 : Nat) : List TestCall :=
  if argc < 3 then []
  else
    let m1 := if argc = 4 then a3 else 7
    let m2 := if argc = 4 then a3 else 15
    match mode with
    | Mode.full =>
      (loop_range m1 m2).flatMap (fun m =>
        (loop_range 2 tmax).flatMap (fun t =>
          if main_guard m t then (loop_range 2 t).map (fun k => TestCall.errors_full m t k)
          else []))
    | Mode.rand =>
      let niter := if argc = 5 then a4 else RAND_ITER
      (loop_range m1 m2).flatMap (fun m =>
        if main_guard m tmax then [TestCall.errors_random m tmax niter] else [])
    | Mode.burst =>
      (loop_range m1 m2).flatMap (fun m =>
        (loop_range 2 tmax).flatMap (fun t =>
          if main_guard m t then (loop_range 2 t).map (fun k => TestCall.errors_bursts m t k)
          else []))
    | Mode.other => []

/-- Field order of a test call. -/
def TestCall.order : TestCall → Nat
  | TestCall.errors_full m _ _ => m
  | TestCall.errors_random m _ _ => m
  | TestCall.errors_bursts m _ _ => m

end TuCorrect

namespace Prim

/-- Macro `M` of prim.c:22. -/
def M : Nat := 13

/-- Macro `N` of prim.c:23: `((1U << M)-1)`. -/
def N : Nat := (1 <<< M) - 1

/-- Loop of `is_primitive` (prim.c:30-39) with `n` iterations left, loop counter `i`
and `unsigned int x`:
`if (i && (x == 1)) return 0; x <<= 1; if (x & k) x ^= poly;` and, after the loop,
`return (x == 1);`. -/
def is_primitive_loop (poly k : Nat) : Nat → Nat → Nat → Nat
  | 0, _, x => if x = 1 then 1 else 0
  | n + 1, i, x =>
    if i ≠ 0 ∧ x = 1 then 0
    else
      let x1 := (x <<< 1) % 4294967296
      is_primitive_loop poly k n (i + 1) (if x1 &&& k ≠ 0 then x1 ^^^ poly else x1)

/-- Function `is_primitive` (prim.c:25): `x = 1`, `k = 1 << M`, and the loop
`for (i = 0; i < N; i++)`. -/
def is_primitive (poly : Nat) : Nat := is_primitive_loop poly (1 <<< M) N 0 1

/-- Compiler builtin `__builtin_popcount`: the number of one bits of a 32-bit value. -/
def popcount (x : Nat) : Nat :=
  ((List.range 32).map (fun j => if x.testBit j then 1 else 0)).sum

/-- Pre-filter of `main` (prim.c:50): `if ((__builtin_popcount(i) & 1) || !(i & 1)) continue;`
for a loop counter `0 ≤ i < (1 << M)`; `true` when the candidate is skipped. -/
def main_skips (i : Nat) : Bool := (popcount i &&& 1 != 0) || (i &&& 1 == 0)

/-- Candidate tested by `main` (prim.c:53): `is_primitive(i|(1 << M))`. -/
def candidate (i : Nat) : Nat := i ||| (1 <<< M)

end Prim

namespace TuTool

/-- One round of draws of `generate_error_vector` (tu_tool.c:93-95):
`bit[i] = lrand48() % len` for `i < size`. The values returned by `lrand48()` after
`srand48(seed)` are the stream `rand`, read from index `pos` on. -/
def draw_round (rand : Nat → Nat) (len : Int) (size pos : Nat) : List Int :=
  (List.range size).map (fun i => Int.tmod (rand (pos + i)) len)

/-- Library call `qsort(bit, size, sizeof(int), compar)` with `compar` the difference
of the two ints: the array sorted in non-decreasing order. -/
def qsort (bit : List Int) : List Int := bit.insertionSort (· ≤ ·)

/-- Repair scan of `generate_error_vector` (tu_tool.c:98-110) with `n` iterations left
and loop counter `i`; returns the array and the flag `done`:
`if (bit[i] == bit[i+1]) {`
`if ((i > 0) && (bit[i-1]+1 < bit[i])) { bit[i]--; continue; }`
`if ((i+1 < size-1) && (bit[i+1]+1 < bit[i+2])) { bit[i+1]++; continue; }`
`done = 0; break; }`. -/
def repair_scan (size : Nat) : Nat → Nat → List Int → List Int × Bool
  | 0, _, bit => (bit, true)
  | n + 1, i, bit =>
    if bit.getD i 0 = bit.getD (i + 1) 0 then
      if 0 < i ∧ bit.getD (i - 1) 0 + 1 < bit.getD i 0 then
        repair_scan size n (i + 1) (bit.set i (bit.getD i 0 - 1))
      else if i + 1 < size - 1 ∧ bit.getD (i + 1) 0 + 1 < bit.getD (i + 2) 0 then
        repair_scan size n (i + 1) (bit.set (i + 1) (bit.getD (i + 1) 0 + 1))
      else (bit, false)
    else repair_scan size n (i + 1) bit

/-- Loop `while (!done)` of `generate_error_vector` (tu_tool.c:92-111), bounded by
`fuel` rounds: draw, sort, scan `for (i = 0; i < size-1; i++)`; `none` when the fuel
runs out. The result is the array just before the final `rev8` pass. -/
def generate_loop (rand : Nat → Nat) (len : Int) (size : Nat) : Nat → Nat → Option (List Int)
  | 0, _ => none
  | fuel + 1, pos =>
    let r := repair_scan size (size - 1) 0 (qsort (draw_round rand len size pos))
    if r.2 then some r.1 else generate_loop rand len size fuel (pos + size)

/-- Function `generate_error_vector` (tu_tool.c:82): the loop, then
`bit[i] = rev8(bit[i])` for `i < size`. -/
def generate_error_vector (rand : Nat → Nat) (len : Int) (size fuel : Nat) :
    Option (List Int) :=
  (generate_loop rand len size fuel 0).map (fun bit => bit.map rev8)

/-- State of the repair scan before iteration `i`: the array has `size` entries in
`[0, len)`, neighbours below `i` increase strictly, neighbours from `i` on do not
decrease. -/
def ScanInv (size : Nat) (len : Int) (i : Nat) (bit : List Int) : Prop :=
  bit.length = size ∧
  (∀ j, j < size → 0 ≤ bit.getD j 0 ∧ bit.getD j 0 < len) ∧
  (∀ j, j + 1 ≤ i → j + 1 < size → bit.getD j 0 < bit.getD (j + 1) 0) ∧
  (∀ j, i ≤ j → j + 1 < size → bit.getD j 0 ≤ bit.getD (j + 1) 0)

end TuTool

namespace TuCorrect

/-- The four elements of GF(4) = GF(2)[X]/(X^2+X+1), named by their bit vectors:
`e0 = 0`, `e1 = 1`, `e2 = X`, `e3 = X + 1`. -/
inductive F4 where
  | e0 : F4
  | e1 : F4
  | e2 : F4
  | e3 : F4
deriving DecidableEq

/-- Bit vector of an element of GF(4). -/
def F4.bits : F4 → Nat
  | F4.e0 => 0
  | F4.e1 => 1
  | F4.e2 => 2
  | F4.e3 => 3

/-- Element of GF(4) with the given 2-bit vector. -/
def F4.of_bits (n : Nat) : F4 :=
  if n % 4 = 0 then F4.e0 else if n % 4 = 1 then F4.e1 else if n % 4 = 2 then F4.e2 else F4.e3

/-- Sum in GF(4): xor of the bit vectors. -/
def F4.add : F4 → F4 → F4
  | F4.e0, F4.e0 => F4.e0
  | F4.e0, F4.e1 => F4.e1
  | F4.e0, F4.e2 => F4.e2
  | F4.e0, F4.e3 => F4.e3
  | F4.e1, F4.e0 => F4.e1
  | F4.e1, F4.e1 => F4.e0
  | F4.e1, F4.e2 => F4.e3
  | F4.e1, F4.e3 => F4.e2
  | F4.e2, F4.e0 => F4.e2
  | F4.e2, F4.e1 => F4.e3
  | F4.e2, F4.e2 => F4.e0
  | F4.e2, F4.e3 => F4.e1
  | F4.e3, F4.e0 => F4.e3
  | F4.e3, F4.e1 => F4.e2
  | F4.e3, F4.e2 => F4.e1
  | F4.e3, F4.e3 => F4.e0

/-- Product in GF(4): product of the polynomials modulo `X^2+X+1`. -/
def F4.mul : F4 → F4 → F4
  | F4.e0, F4.e0 => F4.e0
  | F4.e0, F4.e1 => F4.e0
  | F4.e0, F4.e2 => F4.e0
  | F4.e0, F4.e3 => F4.e0
  | F4.e1, F4.e0 => F4.e0
  | F4.e1, F4.e1 => F4.e1
  | F4.e1, F4.e2 => F4.e2
  | F4.e1, F4.e3 => F4.e3
  | F4.e2, F4.e0 => F4.e0
  | F4.e2, F4.e1 => F4.e2
  | F4.e2, F4.e2 => F4.e3
  | F4.e2, F4.e3 => F4.e1
  | F4.e3, F4.e0 => F4.e0
  | F4.e3, F4.e1 => F4.e3
  | F4.e3, F4.e2 => F4.e1
  | F4.e3, F4.e3 => F4.e2

/-- Inverse in GF(4), with the inverse of 0 set to 0. -/
def F4.inv : F4 → F4
  | F4.e0 => F4.e0
  | F4.e1 => F4.e1
  | F4.e2 => F4.e3
  | F4.e3 => F4.e2

instance F4.instZero : Zero F4 := ⟨F4.e0⟩

instance F4.instOne : One F4 := ⟨F4.e1⟩

instance F4.instAdd : Add F4 := ⟨F4.add⟩

instance F4.instMul : Mul F4 := ⟨F4.mul⟩

instance F4.instNeg : Neg F4 := ⟨fun x => x⟩

instance F4.instInv : Inv F4 := ⟨F4.inv⟩

instance F4.instAddCommGroup : AddCommGroup F4 where
  add_assoc := by intro a b c; cases a <;> cases b <;> cases c <;> decide
  zero_add := by intro a; cases a <;> decide
  add_zero := by intro a; cases a <;> decide
  add_comm := by intro a b; cases a <;> cases b <;> decide
  neg_add_cancel := by intro a; cases a <;> decide
  nsmul := nsmulRec
  zsmul := zsmulRec

instance F4.instCommMonoid : CommMonoid F4 where
  mul_assoc := by intro a b c; cases a <;> cases b <;> cases c <;> decide
  one_mul := by intro a; cases a <;> decide
  mul_one := by intro a; cases a <;> decide
  mul_comm := by intro a b; cases a <;> cases b <;> decide

instance F4.instCommRing : CommRing F4 :=
  { F4.instAddCommGroup, F4.instCommMonoid with
    left_distrib := by intro a b c; cases a <;> cases b <;> cases c <;> decide
    right_distrib := by intro a b c; cases a <;> cases b <;> cases c <;> decide
    zero_mul := by intro a; cases a <;> decide
    mul_zero := by intro a; cases a <;> decide }

instance F4.instField : Field F4 :=
  { F4.instCommRing with
    inv := F4.inv
    exists_pair_ne := ⟨F4.e0, F4.e1, by decide⟩
    mul_inv_cancel := by intro a ha; cases a <;> first | decide | exact absurd rfl ha
    inv_zero := by decide
    nnqsmul := _
    nnqsmul_def := fun _ _ => rfl
    qsmul := _
    qsmul_def := fun _ _ => rfl }

/-- Instance of the primitives of lib/bch.c for GF(4) (`m = 2`, primitive polynomial
`X^2+X+1`, `alpha = X`): `gf_mul` is the oracle product of tu_gf.c, `gf_inv` swaps 2
and 3, `gf_div a b = gf_mul a (gf_inv b)` and `a_pow i` is `alpha^(i mod 3)`. -/
def gf4_ops : GfOps where
  gf_mul := fun a b => TuGf.multiply 7 2 a b
  gf_div := fun a b => TuGf.multiply 7 2 a (if b = 2 then 3 else if b = 3 then 2 else b)
  gf_inv := fun a => if a = 2 then 3 else if a = 3 then 2 else a
  a_pow := fun i => TuGf.multiply_ak 7 2 1 (i.toNat % 3)

end TuCorrect

namespace TuMem

/-- The allocator call succeeded: it returned a non-null pointer. -/
def is_successful : Outcome → Bool
  | Outcome.performed p => p != 0
  | _ => false

/-- No failure was injected, `allocated++` was done, and the C library itself
returned `NULL`. -/
def is_null_performed : Outcome → Bool
  | Outcome.performed p => p == 0
  | _ => false

/-- The C library does not fail in this call: an allocator call is given a non-null
pointer by `malloc` / `calloc`. -/
def libc_succeeds : Call → Bool
  | Call.malloc _ sys => sys != 0
  | Call.calloc _ _ sys => sys != 0
  | Call.free _ => true

end TuMem

/-! ## The bit linearizer -/

namespace TuCorrect

theorem and_seven (x : Nat) : x &&& 7 = x % 8 := Nat.and_pow_two_sub_one_eq_mod x 3

theorem and_not_seven (x : Nat) (hx : x < 4294967296) : x &&& 4294967288 = 8 * (x / 8) := by
  apply Nat.eq_of_testBit_eq
  intro i
  have h1 : (4294967288 : Nat) = 2 ^ 3 * (2 ^ 29 - 1) := by norm_num
  have h2 : 8 * (x / 8) = 2 ^ 3 * (x / 2 ^ 3) := by norm_num
  rw [Nat.testBit_and, h1, h2, Nat.testBit_mul_pow_two, Nat.testBit_mul_pow_two,
    Nat.testBit_two_pow_sub_one, ← Nat.shiftRight_eq_div_pow, Nat.testBit_shiftRight]
  by_cases h3 : 3 ≤ i
  · have h6 : 3 + (i - 3) = i := by omega
    by_cases h4 : i - 3 < 29
    · simp [h3, h4, h6]
    · have h5 : x.testBit i = false := by
        apply Nat.testBit_lt_two_pow
        calc x < 2 ^ 32 := by simpa using hx
          _ ≤ 2 ^ i := Nat.pow_le_pow_right (by norm_num) (by omega)
      simp [h3, h4, h5, h6]
  · simp [h3]

/-- Arithmetic form of `rev8`: the byte index is kept, the bit index `r` becomes `7 - r`. -/
theorem rev8_eq (x : Nat) (hx : x < 4294967296) : rev8 x = 8 * (x / 8) + (7 - x % 8) := by
  unfold rev8
  rw [and_seven, and_not_seven x hx]
  have h7 : (7 + 4294967296 - x % 8) % 4294967296 = 7 - x % 8 := by omega
  rw [h7]
  have h := Nat.mul_add_lt_is_or (i := 3) (b := 7 - x % 8) (by norm_num; omega) (x / 8)
  norm_num at h
  rw [← h]
  omega

theorem rev8_lt (x : Nat) (hx : x < 4294967296) : rev8 x < 4294967296 := by
  rw [rev8_eq x hx]; omega

theorem rev8_rev8 (x : Nat) (hx : x < 4294967296) : rev8 (rev8 x) = x := by
  rw [rev8_eq _ (rev8_lt x hx), rev8_eq x hx]; omega

end TuCorrect

namespace TuTool

theorem ldiff_seven (n : Nat) : Nat.ldiff n 7 = 8 * (n / 8) := by
  apply Nat.eq_of_testBit_eq
  intro i
  have h2 : 8 * (n / 8) = 2 ^ 3 * (n / 2 ^ 3) := by norm_num
  have h7 : (7 : Nat) = 2 ^ 3 - 1 := by norm_num
  rw [Nat.testBit_ldiff, h2, Nat.testBit_mul_pow_two, ← Nat.shiftRight_eq_div_pow,
    Nat.testBit_shiftRight, h7, Nat.testBit_two_pow_sub_one]
  by_cases h3 : 3 ≤ i
  · have h4 : 3 + (i - 3) = i := by omega
    have h5 : ¬ i < 3 := by omega
    simp [h3, h4, h5]
  · have h5 : i < 3 := by omega
    simp [h3, h5]

/-- Arithmetic form of the `int` linearizer on a non-negative argument. -/
theorem rev8_ofNat (n : Nat) : rev8 (n : Int) = ((8 * (n / 8) + (7 - n % 8) : Nat) : Int) := by
  unfold rev8
  have h1 : Int.land (n : Int) (-8) = ((8 * (n / 8) : Nat) : Int) := by
    show Int.land (Int.ofNat n) (Int.negSucc 7) = _
    simp only [Int.land]
    rw [ldiff_seven]
  have h2 : Int.land (n : Int) 7 = ((n % 8 : Nat) : Int) := by
    show Int.land (Int.ofNat n) (Int.ofNat 7) = _
    simp only [Int.land]
    rw [TuCorrect.and_seven]
  rw [h1, h2]
  have h3 : (7 : Int) - ((n % 8 : Nat) : Int) = ((7 - n % 8 : Nat) : Int) := by omega
  rw [h3]
  show Int.lor (Int.ofNat _) (Int.ofNat _) = _
  simp only [Int.lor]
  have h := Nat.mul_add_lt_is_or (i := 3) (b := 7 - n % 8) (by norm_num; omega) (n / 8)
  norm_num at h
  rw [← h]

theorem rev8_rev8_ofNat (n : Nat) : rev8 (rev8 (n : Int)) = (n : Int) := by
  rw [rev8_ofNat, rev8_ofNat]
  congr 1
  omega

end TuTool

/-- Claim C1: the bit linearizer is its own inverse. For every 32-bit unsigned
`x`, `rev8 (rev8 x) = x` (tu_correct.c, tu_bench.c), and for every non-negative
`int` `bit`, the `int` version of tu_tool.c satisfies `rev8 (rev8 bit) = bit`. -/
theorem rev8_self_inverse :
    (∀ x : Nat, x < 4294967296 → TuCorrect.rev8 (TuCorrect.rev8 x) = x) ∧
    (∀ bit : Int, 0 ≤ bit → TuTool.rev8 (TuTool.rev8 bit) = bit) := by
  refine ⟨TuCorrect.rev8_rev8, ?_⟩
  intro bit hb
  obtain ⟨n, rfl⟩ := Int.eq_ofNat_of_zero_le hb
  exact TuTool.rev8_rev8_ofNat n

theorem rev8_self_inverse_witness :
    TuCorrect.rev8 (TuCorrect.rev8 77) = 77 ∧ TuTool.rev8 (TuTool.rev8 77) = 77 :=
  ⟨rev8_self_inverse.1 77 (by decide), rev8_self_inverse.2 77 (by decide)⟩

/-- Claim C2: `rev8` reverses the order inside a byte and keeps it across bytes.
For addresses `a < b`: if `a/8 = b/8` then `rev8 a > rev8 b`, if `a/8 < b/8`
then `rev8 a < rev8 b`, and `rev8` keeps the byte index of both. -/
theorem rev8_order (a b : Nat) (ha : a < 4294967296) (hb : b < 4294967296) (hab : a < b) :
    (a / 8 = b / 8 → TuCorrect.rev8 a > TuCorrect.rev8 b) ∧
    (a / 8 < b / 8 → TuCorrect.rev8 a < TuCorrect.rev8 b) ∧
    TuCorrect.rev8 a / 8 = a / 8 ∧ TuCorrect.rev8 b / 8 = b / 8 := by
  rw [TuCorrect.rev8_eq a ha, TuCorrect.rev8_eq b hb]
  omega

theorem rev8_order_witness :
    (9 / 8 = 12 / 8 → TuCorrect.rev8 9 > TuCorrect.rev8 12) ∧
    (9 / 8 < 12 / 8 → TuCorrect.rev8 9 < TuCorrect.rev8 12) ∧
    TuCorrect.rev8 9 / 8 = 9 / 8 ∧ TuCorrect.rev8 12 / 8 = 12 / 8 :=
  rev8_order 9 12 (by decide) (by decide) (by decide)

/-! ## Corrupting and restoring the buffer -/

namespace TuCorrect

theorem mask_lt (bit : Nat) : 1 <<< (bit &&& 7) < 256 := by
  have h : bit &&& 7 < 8 := by
    rw [and_seven]; omega
  rw [Nat.one_shiftLeft]
  calc 2 ^ (bit &&& 7) < 2 ^ 8 := Nat.pow_lt_pow_right (by norm_num) h
    _ = 256 := by norm_num

theorem xor_mask_lt (x bit : Nat) (hx : x < 256) : x ^^^ (1 <<< (bit &&& 7)) < 256 :=
  Nat.xor_lt_two_pow (n := 8) hx (mask_lt bit)

theorem flip_bit_length (data : List Nat) (bit : Nat) :
    (flip_bit data bit).length = data.length := by
  simp [flip_bit]

/-- Byte `i` after one flip: only byte `bit / 8` changes, by the mask `1 << (bit & 7)`. -/
theorem flip_bit_getD (data : List Nat) (bit i : Nat) (hi : i < data.length) (hb : IsBytes data) :
    (flip_bit data bit).getD i 0 =
      if bit / 8 = i then data.getD i 0 ^^^ (1 <<< (bit &&& 7)) else data.getD i 0 := by
  unfold flip_bit
  have hx : data.getD i 0 < 256 := by
    rw [List.getD_eq_getElem _ _ hi]
    exact hb _ (List.getElem_mem hi)
  by_cases h : bit / 8 = i
  · subst h
    simp [List.getD_eq_getElem?_getD, List.getElem?_set, hi]
    have h2 := xor_mask_lt _ bit hx
    simp [List.getD_eq_getElem?_getD, hi] at h2
    omega
  · simp [List.getD_eq_getElem?_getD, List.getElem?_set, h, hi]

theorem flip_bit_isBytes (data : List Nat) (bit : Nat) (hb : IsBytes data) :
    IsBytes (flip_bit data bit) := by
  intro x hx
  unfold flip_bit at hx
  rcases List.mem_or_eq_of_mem_set hx with h | h
  · exact hb x h
  · rw [h]; exact Nat.mod_lt _ (by norm_num)

theorem list_ext_getD (a b : List Nat) (hl : a.length = b.length)
    (h : ∀ i, i < a.length → a.getD i 0 = b.getD i 0) : a = b := by
  apply List.ext_getElem hl
  intro i h1 h2
  have h3 := h i h1
  rw [List.getD_eq_getElem _ _ h1, List.getD_eq_getElem _ _ h2] at h3
  exact h3

theorem flip_bit_comm (data : List Nat) (a b : Nat) (hb : IsBytes data) :
    flip_bit (flip_bit data a) b = flip_bit (flip_bit data b) a := by
  apply list_ext_getD
  · simp [flip_bit_length]
  · intro i hi
    simp only [flip_bit_length] at hi
    rw [flip_bit_getD _ _ _ (by simpa [flip_bit_length] using hi) (flip_bit_isBytes _ _ hb),
      flip_bit_getD _ _ _ hi hb,
      flip_bit_getD _ _ _ (by simpa [flip_bit_length] using hi) (flip_bit_isBytes _ _ hb),
      flip_bit_getD _ _ _ hi hb]
    by_cases h1 : a / 8 = i <;> by_cases h2 : b / 8 = i <;> simp [h1, h2]
    rw [Nat.xor_assoc, Nat.xor_assoc, Nat.xor_comm (1 <<< (a &&& 7))]

theorem flip_bit_twice (data : List Nat) (a : Nat) (hb : IsBytes data) :
    flip_bit (flip_bit data a) a = data := by
  apply list_ext_getD
  · simp [flip_bit_length]
  · intro i hi
    simp only [flip_bit_length] at hi
    rw [flip_bit_getD _ _ _ (by simpa [flip_bit_length] using hi) (flip_bit_isBytes _ _ hb),
      flip_bit_getD _ _ _ hi hb]
    by_cases h1 : a / 8 = i <;> simp [h1]
    rw [Nat.xor_assoc, Nat.xor_self, Nat.xor_zero]

theorem foldl_flip_comm (vs : List Nat) (data : List Nat) (a : Nat) (hb : IsBytes data) :
    flip_bit (vs.foldl flip_bit data) a = vs.foldl flip_bit (flip_bit data a) := by
  induction vs generalizing data with
  | nil => rfl
  | cons v vs ih =>
    simp only [List.foldl_cons]
    rw [ih _ (flip_bit_isBytes _ _ hb), flip_bit_comm _ _ _ hb]

/-- Flipping the bits of a list twice restores the buffer. -/
theorem foldl_flip_twice (vs : List Nat) (data : List Nat) (hb : IsBytes data) :
    vs.foldl flip_bit (vs.foldl flip_bit data) = data := by
  induction vs generalizing data with
  | nil => rfl
  | cons v vs ih =>
    simp only [List.foldl_cons]
    rw [foldl_flip_comm _ _ _ (flip_bit_isBytes _ _ hb), flip_bit_twice _ _ hb, ih _ hb]

theorem corrupt_data_twice (data vec : List Nat) (vecsize : Int) (hb : IsBytes data) :
    corrupt_data (corrupt_data data vec vecsize) vec vecsize = data :=
  foldl_flip_twice _ data hb

end TuCorrect

namespace TuTool

theorem corrupt_data_eq (bitflip : List Int) (data : List Nat) (ncorrupt : Int) :
    corrupt_data bitflip data ncorrupt =
      ((bitflip.take ncorrupt.toNat).map Int.toNat).foldl TuCorrect.flip_bit data := by
  unfold corrupt_data
  rw [List.foldl_map]

theorem tool_corrupt_data_twice (bitflip : List Int) (data : List Nat) (ncorrupt : Int)
    (hb : TuCorrect.IsBytes data) :
    corrupt_data bitflip (corrupt_data bitflip data ncorrupt) ncorrupt = data := by
  rw [corrupt_data_eq, corrupt_data_eq]
  exact TuCorrect.foldl_flip_twice _ data hb

end TuTool

/-- Claim C3: `corrupt_data` is an involution on the buffer. For every byte
buffer and every position list `vec` whose positions are inside the buffer
(duplicates allowed), applying `corrupt_data` with `vec` twice gives back the
original buffer; the same holds for the variant of tu_tool.c. -/
theorem corrupt_data_involution (data vec : List Nat) (vecsize : Int) (bitflip : List Int)
    (hb : TuCorrect.IsBytes data) (hsize : vecsize.toNat ≤ vec.length)
    (hin : ∀ v ∈ vec, v / 8 < data.length)
    (hsize2 : vecsize.toNat ≤ bitflip.length)
    (hin2 : ∀ b ∈ bitflip, 0 ≤ b ∧ b / 8 < data.length) :
    TuCorrect.corrupt_data (TuCorrect.corrupt_data data vec vecsize) vec vecsize = data ∧
    TuTool.corrupt_data bitflip (TuTool.corrupt_data bitflip data vecsize) vecsize = data :=
  ⟨TuCorrect.corrupt_data_twice data vec vecsize hb,
    TuTool.tool_corrupt_data_twice bitflip data vecsize hb⟩

theorem corrupt_data_involution_witness :
    TuCorrect.corrupt_data (TuCorrect.corrupt_data [165, 15, 255] [3, 9, 3, 23] 4)
        [3, 9, 3, 23] 4 = [165, 15, 255] ∧
    TuTool.corrupt_data [0, 17, 17, 5] (TuTool.corrupt_data [0, 17, 17, 5] [165, 15, 255] 4) 4
        = [165, 15, 255] :=
  corrupt_data_involution [165, 15, 255] [3, 9, 3, 23] 4 [0, 17, 17, 5]
    (by unfold TuCorrect.IsBytes; decide) (by decide) (by decide) (by decide) (by decide)

/-! ## Comparing the injected and the reported positions -/

namespace TuCorrect

theorem compare_vectors_iff (vec errloc : List Nat) (n : Nat) :
    compare_vectors vec n errloc n = true ↔
      ∀ i, i < n → ∃ j, j < n ∧ errloc.getD j 0 = vec.getD i 0 := by
  simp [compare_vectors]

theorem mem_take_of_getD (l : List Nat) (n j : Nat) (hn : n ≤ l.length) (hj : j < n) :
    l.getD j 0 ∈ l.take n := by
  have h1 : j < l.length := by omega
  rw [List.getD_eq_getElem _ _ h1]
  rw [List.mem_take_iff_getElem]
  exact ⟨j, by omega, rfl⟩

theorem getD_of_mem_take (l : List Nat) (n x : Nat) (hx : x ∈ l.take n) :
    ∃ j, j < n ∧ l.getD j 0 = x := by
  rw [List.mem_take_iff_getElem] at hx
  obtain ⟨j, hj, rfl⟩ := hx
  refine ⟨j, by omega, ?_⟩
  rw [List.getD_eq_getElem _ _ (by omega)]

end TuCorrect

/-- Claim C4: for an injected vector `vec` of `vecsize` pairwise distinct
positions and a reported list `errloc` with `errsize` entries, `compare_vectors`
passes (no assertion fails) if and only if `errsize = vecsize` and the first
`errsize` entries of `errloc` are a permutation of the injected positions. -/
theorem compare_vectors_iff_perm (vec errloc : List Nat) (vecsize errsize : Nat)
    (hv : vecsize ≤ vec.length) (hnd : (vec.take vecsize).Nodup)
    (hsize : errsize ≤ errloc.length) :
    TuCorrect.compare_vectors vec vecsize errloc errsize = true ↔
      errsize = vecsize ∧ List.Perm (errloc.take errsize) (vec.take vecsize) := by
  constructor
  · intro h
    have he : vecsize = errsize := by
      simp [TuCorrect.compare_vectors] at h
      exact h.1
    subst he
    refine ⟨rfl, ?_⟩
    rw [TuCorrect.compare_vectors_iff] at h
    have hsub : vec.take vecsize ⊆ errloc.take vecsize := by
      intro x hx
      obtain ⟨i, hi, rfl⟩ := TuCorrect.getD_of_mem_take vec _ _ hx
      obtain ⟨j, hj, hje⟩ := h i hi
      rw [← hje]
      exact TuCorrect.mem_take_of_getD errloc _ j hsize hj
    have hsp := List.subperm_of_subset hnd hsub
    exact (hsp.perm_of_length_le (by simp; omega)).symm
  · rintro ⟨he, hp⟩
    subst he
    rw [TuCorrect.compare_vectors_iff]
    intro i hi
    have hm : vec.getD i 0 ∈ errloc.take errsize :=
      hp.symm.subset (TuCorrect.mem_take_of_getD vec _ i hv hi)
    exact TuCorrect.getD_of_mem_take errloc _ _ hm

theorem compare_vectors_iff_perm_witness :
    TuCorrect.compare_vectors [5, 9, 2, 7] (3 : Nat) [2, 5, 9, 0] (3 : Nat) = true ↔
      3 = 3 ∧ List.Perm (([2, 5, 9, 0] : List Nat).take 3) (([5, 9, 2, 7] : List Nat).take 3) :=
  compare_vectors_iff_perm [5, 9, 2, 7] [2, 5, 9, 0] 3 3 (by decide) (by decide) (by decide)

/-! ## The differential trial restores the buffer -/

/-- Claim C5: a differential trial leaves the data buffer unchanged. For every
byte buffer, every in-range error vector and every behaviour of the decoder
(any return value, negative ones included, any codec state and `errloc`),
the buffer left by `check_vector` of tu_correct.c, by `check_vector` of
tu_bench.c and by `generic_decode` of tu_tool.c equals the buffer before the
call; the decoder gets the buffer read-only. -/
theorem trial_restores_buffer {σ : Type}
    (encode : σ → List Nat → List Nat)
    (decode decode_ecc : σ → List Nat → List Nat → σ × Int × List Nat)
    (decode_tool : σ → Bool → List Nat → List Nat → σ × Int × List Nat)
    (bch : σ) (data : List Nat) (len : Nat) (vec : List Nat) (vecsize : Int)
    (encode_once cache_encode : Bool) (niter : Int) (errloc0 : List Nat) (bitflip : List Int)
    (hb : TuCorrect.IsBytes data)
    (hin : ∀ v ∈ vec, v / 8 < data.length)
    (hin2 : ∀ b ∈ bitflip, 0 ≤ b ∧ b / 8 < data.length) :
    (TuCorrect.check_vector decode bch data vec vecsize errloc0).1 = data ∧
    (TuBench.check_vector encode decode decode_ecc bch data len vec vecsize encode_once niter
      errloc0).1 = data ∧
    (TuTool.generic_decode decode_tool bch data errloc0 bitflip vecsize cache_encode).1 = data := by
  refine ⟨?_, ?_, ?_⟩
  · unfold TuCorrect.check_vector
    by_cases h0 : vecsize = 0
    · simp [h0]
    · simp only [h0, if_false]
      split <;> exact TuCorrect.corrupt_data_twice data vec vecsize hb
  · unfold TuBench.check_vector
    exact TuCorrect.corrupt_data_twice data vec vecsize hb
  · unfold TuTool.generic_decode
    by_cases h0 : vecsize = 0
    · simp [h0]
    · simp only [ne_eq, h0, not_false_eq_true, if_true]
      exact TuTool.tool_corrupt_data_twice bitflip data vecsize hb

theorem trial_restores_buffer_witness :
    (TuCorrect.check_vector (fun (s : Unit) (_ e : List Nat) => (s, (-1 : Int), e)) ()
      [165, 15, 255] [3, 9, 23] 3 [0, 0, 0]).1 = [165, 15, 255] ∧
    (TuBench.check_vector (fun (_ : Unit) (d : List Nat) => d.drop 2)
      (fun (s : Unit) (_ e : List Nat) => (s, (-1 : Int), e))
      (fun (s : Unit) (_ e : List Nat) => (s, (2 : Int), e)) ()
      [165, 15, 255] 2 [3, 9, 23] 3 true 5 [0, 0, 0]).1 = [165, 15, 255] ∧
    (TuTool.generic_decode (fun (s : Unit) (_ : Bool) (_ e : List Nat) => (s, (-1 : Int), e)) ()
      [165, 15, 255] [0, 0, 0] [0, 17, 5] 3 false).1 = [165, 15, 255] :=
  trial_restores_buffer (fun (_ : Unit) (d : List Nat) => d.drop 2)
    (fun (s : Unit) (_ e : List Nat) => (s, (-1 : Int), e))
    (fun (s : Unit) (_ e : List Nat) => (s, (2 : Int), e))
    (fun (s : Unit) (_ : Bool) (_ e : List Nat) => (s, (-1 : Int), e)) ()
    [165, 15, 255] 2 [3, 9, 23] 3 true false 5 [0, 0, 0] [0, 17, 5]
    (by unfold TuCorrect.IsBytes; decide) (by decide) (by decide)

/-! ## The burst enumerator -/

namespace TuCorrect

theorem map_rev8_rev8 (l : List Nat) (h : ∀ x ∈ l, x < 4294967296) :
    (l.map rev8).map rev8 = l := by
  rw [List.map_map]
  conv_rhs => rw [← List.map_id l]
  apply List.map_congr_left
  intro x hx
  exact rev8_rev8 x (h x hx)

theorem bursts_length (nbits nerrors : Nat) (hN : nbits < 2147483647) (hk : nerrors ≤ nbits) :
    (bch_test_errors_bursts nbits nerrors).length = nbits - nerrors + 1 := by
  unfold bch_test_errors_bursts
  have h1 : (nbits + 4294967296 - nerrors % 4294967296 + 1) % 4294967296 = nbits - nerrors + 1 := by
    omega
  simp only [h1, List.length_map, List.length_range]
  have h2 : nbits - nerrors + 1 < 2147483648 := by omega
  simp only [h2, if_true]
  omega

theorem bursts_getD (nbits nerrors i : Nat) (hN : nbits < 2147483647) (hk : nerrors ≤ nbits)
    (hi : i ≤ nbits - nerrors) :
    (bch_test_errors_bursts nbits nerrors).getD i [] =
      (List.range nerrors).map (fun j => rev8 (i + j)) := by
  have hl := bursts_length nbits nerrors hN hk
  rw [List.getD_eq_getElem _ _ (by omega)]
  unfold bch_test_errors_bursts
  simp only [List.getElem_map, List.getElem_range]
  apply List.map_congr_left
  intro j hj
  have hj2 : j < nerrors := List.mem_range.mp hj
  have h3 : (i + j) % 4294967296 = i + j := by omega
  rw [h3]

end TuCorrect

/-- Claim C9: for a burst length `k ≤ N`, `bch_test_errors_bursts` checks exactly
`N - k + 1` vectors; the `i`-th one (`i = 0 .. N-k`) is
`(rev8 i, rev8 (i+1), ..., rev8 (i+k-1))`, its entries are pairwise distinct, and
their `rev8` pre-images are exactly the contiguous window `[i, i+k)`, which
lies inside `[0, N)`. `N` is in the range of `int`, as the loop counter is. -/
theorem bursts_enumerate_windows (nbits nerrors : Nat) (hN : nbits < 2147483647)
    (hk : nerrors ≤ nbits) :
    (TuCorrect.bch_test_errors_bursts nbits nerrors).length = nbits - nerrors + 1 ∧
    ∀ i, i ≤ nbits - nerrors →
      (TuCorrect.bch_test_errors_bursts nbits nerrors).getD i [] =
        (List.range nerrors).map (fun j => TuCorrect.rev8 (i + j)) ∧
      ((TuCorrect.bch_test_errors_bursts nbits nerrors).getD i []).Nodup ∧
      ((TuCorrect.bch_test_errors_bursts nbits nerrors).getD i []).map TuCorrect.rev8 =
        List.range' i nerrors ∧
      ∀ x ∈ List.range' i nerrors, x < nbits := by
  refine ⟨TuCorrect.bursts_length nbits nerrors hN hk, ?_⟩
  intro i hi
  have hg := TuCorrect.bursts_getD nbits nerrors i hN hk hi
  have hm : ((TuCorrect.bch_test_errors_bursts nbits nerrors).getD i []).map TuCorrect.rev8 =
      List.range' i nerrors := by
    rw [hg, List.range'_eq_map_range, List.map_map]
    apply List.map_congr_left
    intro j hj
    have hj2 : j < nerrors := List.mem_range.mp hj
    exact TuCorrect.rev8_rev8 (i + j) (by omega)
  refine ⟨hg, ?_, hm, ?_⟩
  · apply List.Nodup.of_map TuCorrect.rev8
    rw [hm]
    exact List.nodup_range' i nerrors
  · intro x hx
    rw [List.mem_range'_1] at hx
    omega

theorem bursts_enumerate_windows_witness :
    (TuCorrect.bch_test_errors_bursts 78 3).length = 78 - 3 + 1 ∧
    ∀ i, i ≤ 78 - 3 →
      (TuCorrect.bch_test_errors_bursts 78 3).getD i [] =
        (List.range 3).map (fun j => TuCorrect.rev8 (i + j)) ∧
      ((TuCorrect.bch_test_errors_bursts 78 3).getD i []).Nodup ∧
      ((TuCorrect.bch_test_errors_bursts 78 3).getD i []).map TuCorrect.rev8 =
        List.range' i 3 ∧
      ∀ x ∈ List.range' i 3, x < 78 :=
  bursts_enumerate_windows 78 3 (by decide) (by decide)

/-! ## The random sampler -/

namespace TuCorrect

theorem take_set_self (vec : List Nat) (i v : Nat) : (vec.set i v).take i = vec.take i := by
  induction vec generalizing i with
  | nil => simp
  | cons a t ih =>
    cases i with
    | zero => simp
    | succ i => simp [List.set, ih]

theorem take_succ_set (vec : List Nat) (i v : Nat) (hi : i < vec.length) :
    (vec.set i v).take (i + 1) = vec.take i ++ [v] := by
  rw [List.take_succ, take_set_self, List.getElem?_set_self hi]
  rfl

theorem getD_set_lt (vec : List Nat) (i j v : Nat) (hj : j < i) :
    (vec.set i v).getD j 0 = vec.getD j 0 := by
  have h : i ≠ j := by omega
  simp [List.getD_eq_getElem?_getD, List.getElem?_set, h]

theorem getD_set_self (vec : List Nat) (i v : Nat) (hi : i < vec.length) :
    (vec.set i v).getD i 0 = v := by
  simp [List.getD_eq_getElem?_getD, List.getElem?_set, hi]

theorem not_mem_of_not_collides (vec : List Nat) (i v : Nat) (hi : i < vec.length)
    (h : collides (vec.set i v) i = false) : v ∉ vec.take i := by
  intro hm
  rw [List.mem_take_iff_getElem] at hm
  obtain ⟨j, hj, hje⟩ := hm
  have hj1 : j < i := by omega
  have hj2 : j < vec.length := by omega
  simp only [collides, List.any_eq_false, List.mem_range, beq_iff_eq] at h
  apply h j hj1
  rw [getD_set_lt _ _ _ _ hj1, getD_set_self _ _ _ hi, List.getD_eq_getElem _ _ hj2]
  exact hje

theorem gen_from_inv (nbits : Nat) (vecsize : Int) (P : Nat → Prop)
    (hP : ∀ r, 0 < nbits → P (rev8 (r % nbits))) :
    ∀ (stream : List Nat) (i : Nat) (vec vec1 rest : List Nat),
      generate_random_vector_from nbits vecsize stream i vec = some (vec1, rest) →
      vecsize.toNat ≤ vec.length → i ≤ vecsize.toNat →
      (vec.take i).Nodup → (∀ x ∈ vec.take i, P x) →
      (vec1.take vecsize.toNat).Nodup ∧ ∀ x ∈ vec1.take vecsize.toNat, P x := by
  intro stream
  induction stream with
  | nil =>
    intro i vec vec1 rest h hlen hi hnd hp
    simp only [generate_random_vector_from] at h
    split at h
    · simp only [Option.some.injEq, Prod.mk.injEq] at h
      obtain ⟨rfl, _⟩ := h
      have : vecsize.toNat = i := by omega
      rw [this]
      exact ⟨hnd, hp⟩
    · exact absurd h (by simp)
  | cons r rs ih =>
    intro i vec vec1 rest h hlen hi hnd hp
    simp only [generate_random_vector_from] at h
    split at h
    · simp only [Option.some.injEq, Prod.mk.injEq] at h
      obtain ⟨rfl, _⟩ := h
      have : vecsize.toNat = i := by omega
      rw [this]
      exact ⟨hnd, hp⟩
    · rename_i hlt
      have hi2 : i < vecsize.toNat := by omega
      have hi3 : i < vec.length := by omega
      split at h
      · exact absurd h (by simp)
      · rename_i hnz
        split at h
        · apply ih _ _ _ _ h (by simpa using hlen) hi
          · rw [take_set_self]; exact hnd
          · rw [take_set_self]; exact hp
        · rename_i hc
          have hc2 : collides (vec.set i (rev8 (r % nbits))) i = false := by simpa using hc
          apply ih _ _ _ _ h (by simpa using hlen) (by omega)
          · rw [take_succ_set _ _ _ hi3]
            rw [List.nodup_append]
            refine ⟨hnd, List.nodup_singleton _, ?_⟩
            intro a ha hb
            simp at hb
            rw [hb] at ha
            exact not_mem_of_not_collides vec i _ hi3 hc2 ha
          · rw [take_succ_set _ _ _ hi3]
            intro x hx
            rcases List.mem_append.mp hx with hx | hx
            · exact hp x hx
            · simp at hx
              rw [hx]
              exact hP r (by omega)

end TuCorrect

/-! ## The exhaustive enumerator -/

namespace TuCorrect

theorem rev8_first_take (n : Nat) (vec : List Nat) (h : n ≤ vec.length) :
    (rev8_first n vec).take n = (vec.take n).map rev8 := by
  unfold rev8_first
  rw [List.take_append_of_le_length (by simp [h])]
  rw [List.take_of_length_le (by simp)]

theorem rev8_first_twice (n : Nat) (vec : List Nat) (h : n ≤ vec.length)
    (hx : ∀ x ∈ vec.take n, x < 4294967296) :
    rev8_first n (rev8_first n vec) = vec := by
  have h1 := rev8_first_take n vec h
  have h2 : (rev8_first n vec).drop n = vec.drop n := by
    unfold rev8_first
    rw [List.drop_append_of_le_length (by simp [h])]
    rw [List.drop_of_length_le (by simp)]
    simp
  have h3 : rev8_first n (rev8_first n vec) =
      ((rev8_first n vec).take n).map rev8 ++ (rev8_first n vec).drop n := rfl
  rw [h3, h1, h2, map_rev8_rev8 _ hx, List.take_append_drop]

theorem leaf_spec (n : Nat) (vec : List Nat) (h : n ≤ vec.length)
    (hx : ∀ x ∈ vec.take n, x < 4294967296) :
    ([(rev8_first n vec).take n] : List (List Nat)).map (List.map rev8) = [vec.take n] := by
  rw [rev8_first_take n vec h]
  simp only [List.map_cons, List.map_nil]
  rw [map_rev8_rev8 _ hx]

theorem full_k_loop_spec (N r k nerrors : Nat) (pre : List Nat)
    (body : List Nat → Option (List Nat × List (List Nat)))
    (hk : k < nerrors)
    (hbody : ∀ (v : List Nat) (i : Nat), i + r < N → v.take (k + 1) = pre ++ [i] →
      nerrors ≤ v.length →
      ∃ v1 o, body v = some (v1, o) ∧ v1.length = v.length ∧ v1.take (k + 1) = v.take (k + 1) ∧
        o.map (List.map rev8) = (incTuples N r (i + 1)).map (fun t => (pre ++ [i]) ++ t)) :
    ∀ (n i : Nat) (vec : List Nat), i + n + r ≤ N → vec.take k = pre → nerrors ≤ vec.length →
      ∃ v1 o, full_k_loop body k n i vec = some (v1, o) ∧ v1.length = vec.length ∧
        v1.take k = pre ∧
        o.map (List.map rev8) =
          (List.range' i n).flatMap (fun a => (incTuples N r (a + 1)).map (fun t => pre ++ a :: t)) := by
  intro n
  induction n with
  | zero =>
    intro i vec _ hpre _
    exact ⟨vec, [], rfl, rfl, hpre, by simp⟩
  | succ n ih =>
    intro i vec hi hpre hlen
    have hset : (vec.set k i).take (k + 1) = pre ++ [i] := by
      rw [take_succ_set _ _ _ (by omega), hpre]
    obtain ⟨v1, o1, hb, hl1, ht1, ho1⟩ := hbody (vec.set k i) i (by omega) hset (by simpa using hlen)
    have hl1b : v1.length = vec.length := by simpa using hl1
    have hpre1 : v1.take k = pre := by
      have h1 : v1.take k = (v1.take (k + 1)).take k := by
        rw [List.take_take]; simp
      rw [h1, ht1, hset]
      have hpl : pre.length = k := by
        rw [← hpre]; simp; omega
      rw [List.take_append_of_le_length (by omega), List.take_of_length_le (by omega)]
    obtain ⟨v2, o2, hb2, hl2, ht2, ho2⟩ := ih (i + 1) v1 (by omega) hpre1 (by omega)
    refine ⟨v2, o1 ++ o2, ?_, by omega, ht2, ?_⟩
    · simp only [full_k_loop, hb, hb2]
    · rw [List.map_append, ho1, ho2, List.range'_succ, List.flatMap_cons]
      simp

theorem full_k_spec (nbits nerrors : Nat) (hN : nbits < 4294967296) (hk : nerrors ≤ nbits) :
    ∀ (r fuel k j : Nat) (vec : List Nat), k + r = nerrors → r ≤ fuel → nerrors ≤ vec.length →
      (∀ x ∈ vec.take k, x < 4294967296) →
      (if 0 < k then (vec.getD (k - 1) 0 + 1) % 4294967296 else 0) = j → j + r ≤ nbits →
      ∃ v1 o, bch_test_errors_full_k nbits nerrors fuel k vec = some (v1, o) ∧
        v1.length = vec.length ∧ v1.take k = vec.take k ∧
        o.map (List.map rev8) = (incTuples nbits r j).map (fun t => vec.take k ++ t) := by
  intro r
  induction r with
  | zero =>
    intro fuel k j vec hkr _ hlen hx _ _
    have hkn : k = nerrors := by omega
    subst hkn
    refine ⟨rev8_first k (rev8_first k vec), [(rev8_first k vec).take k], ?_, ?_, ?_, ?_⟩
    · cases fuel <;> simp [bch_test_errors_full_k]
    · rw [rev8_first_twice k vec hlen hx]
    · rw [rev8_first_twice k vec hlen hx]
    · rw [leaf_spec k vec hlen hx]
      simp [incTuples]
  | succ r ih =>
    intro fuel k j vec hkr hfuel hlen hx hj hjr
    obtain ⟨f, rfl⟩ : ∃ f, fuel = f + 1 := ⟨fuel - 1, by omega⟩
    have hkn : ¬ k = nerrors := by omega
    have hbound : (((nbits : Int) - ((nerrors : Int) - (k : Int) - 1)) % 4294967296).toNat
        = nbits - r := by omega
    have hpl : (vec.take k).length = k := by simp; omega
    have hbody : ∀ (v : List Nat) (i : Nat), i + r < nbits → v.take (k + 1) = vec.take k ++ [i] →
        nerrors ≤ v.length →
        ∃ v1 o, bch_test_errors_full_k nbits nerrors f (k + 1) v = some (v1, o) ∧
          v1.length = v.length ∧ v1.take (k + 1) = v.take (k + 1) ∧
          o.map (List.map rev8) =
            (incTuples nbits r (i + 1)).map (fun t => (vec.take k ++ [i]) ++ t) := by
      intro v i hi hv hvl
      have hvk : v.getD k 0 = i := by
        have h1 : (v.take (k + 1)).getD k 0 = i := by
          rw [hv]
          simp [List.getD_eq_getElem?_getD, List.getElem?_append_right, hpl]
        rw [← h1]
        simp [List.getD_eq_getElem?_getD, List.getElem?_take]
      have h2 := ih f (k + 1) (i + 1) v (by omega) (by omega) hvl
        (by
          rw [hv]
          intro x hx2
          rcases List.mem_append.mp hx2 with h3 | h3
          · exact hx x h3
          · simp at h3; omega)
        (by rw [if_pos (Nat.succ_pos k), Nat.add_sub_cancel, hvk]; omega) (by omega)
      rw [hv] at h2
      rw [hv]
      exact h2
    have hloop := full_k_loop_spec nbits r k nerrors (vec.take k)
      (fun v => bch_test_errors_full_k nbits nerrors f (k + 1) v) (by omega) hbody
      (nbits - r - j) j vec (by omega) rfl hlen
    obtain ⟨v1, o, h1, h2, h3, h4⟩ := hloop
    refine ⟨v1, o, ?_, h2, h3, ?_⟩
    · simp only [bch_test_errors_full_k, hkn, if_false, hbound, hj]
      exact h1
    · rw [h4]
      simp only [incTuples, List.map_flatMap, List.map_map]
      rfl

theorem sorted_bound (l : List Nat) : ∀ (lo N : Nat), l.Sorted (· < ·) →
    (∀ x ∈ l, lo ≤ x ∧ x < N) → lo + l.length ≤ N ∨ l = [] := by
  induction l with
  | nil => intro lo N _ _; right; rfl
  | cons a t ih =>
    intro lo N hs hx
    left
    have ha := hx a (List.mem_cons_self a t)
    rw [List.sorted_cons] at hs
    have h2 := ih (a + 1) N hs.2 (fun x hxt => ⟨hs.1 x hxt, (hx x (List.mem_cons_of_mem a hxt)).2⟩)
    rcases h2 with h2 | h2
    · simp; omega
    · subst h2; simp; omega

theorem mem_incTuples (N : Nat) : ∀ (r lo : Nat) (l : List Nat),
    l ∈ incTuples N r lo ↔ l.length = r ∧ l.Sorted (· < ·) ∧ ∀ x ∈ l, lo ≤ x ∧ x < N := by
  intro r
  induction r with
  | zero =>
    intro lo l
    simp only [incTuples, List.mem_singleton]
    constructor
    · rintro rfl; simp
    · rintro ⟨h, _, _⟩; exact List.length_eq_zero.mp h
  | succ r ih =>
    intro lo l
    simp only [incTuples, List.mem_flatMap, List.mem_map, List.mem_range'_1]
    constructor
    · rintro ⟨i, ⟨hi1, hi2⟩, t, ht, rfl⟩
      obtain ⟨h1, h2, h3⟩ := (ih (i + 1) t).mp ht
      refine ⟨by simp [h1], ?_, ?_⟩
      · rw [List.sorted_cons]
        exact ⟨fun b hb => (h3 b hb).1, h2⟩
      · intro x hx
        rcases List.mem_cons.mp hx with rfl | hx
        · omega
        · have := h3 x hx; omega
    · rintro ⟨h1, h2, h3⟩
      match l, h1, h2, h3 with
      | i :: t, h1, h2, h3 =>
        rw [List.sorted_cons] at h2
        have hi := h3 i (List.mem_cons_self i t)
        have hlen : t.length = r := by simpa using h1
        have ht3 : ∀ x ∈ t, i + 1 ≤ x ∧ x < N :=
          fun x hx => ⟨h2.1 x hx, (h3 x (List.mem_cons_of_mem i hx)).2⟩
        have hb := sorted_bound t (i + 1) N h2.2 ht3
        have hir : i + r < N := by
          rcases hb with hb | hb
          · omega
          · subst hb; simp at hlen; omega
        exact ⟨i, ⟨hi.1, by omega⟩, t, (ih (i + 1) t).mpr ⟨hlen, h2.2, ht3⟩, rfl⟩

theorem incTuples_lex (N : Nat) : ∀ (r lo : Nat),
    (incTuples N r lo).Pairwise (List.Lex (· < ·)) := by
  intro r
  induction r with
  | zero => intro lo; simp [incTuples]
  | succ r ih =>
    intro lo
    simp only [incTuples]
    rw [List.pairwise_flatMap]
    constructor
    · intro i _
      rw [List.pairwise_map]
      exact (ih (i + 1)).imp (fun h => List.Lex.cons h)
    · apply (List.pairwise_lt_range' lo (N - r - lo)).imp
      intro a b hab x hx y hy
      simp only [List.mem_map] at hx hy
      obtain ⟨_, _, rfl⟩ := hx
      obtain ⟨_, _, rfl⟩ := hy
      exact List.Lex.rel hab

theorem lex_irrefl (l : List Nat) : ¬ List.Lex (· < ·) l l := by
  intro h
  exact asymm h h

theorem incTuples_nodup (N r lo : Nat) : (incTuples N r lo).Nodup := by
  unfold List.Nodup
  apply (incTuples_lex N r lo).imp
  intro a b h hab
  subst hab
  exact lex_irrefl a h

theorem sublist_range_iff (N : Nat) (l : List Nat) :
    List.Sublist l (List.range N) ↔ l.Sorted (· < ·) ∧ ∀ x ∈ l, x < N := by
  constructor
  · intro h
    exact ⟨(List.sorted_lt_range N).sublist h, fun x hx => List.mem_range.mp (h.subset hx)⟩
  · rintro ⟨h1, h2⟩
    apply List.sublist_of_subperm_of_sorted _ h1 (List.sorted_lt_range N)
    exact List.subperm_of_subset h1.nodup (fun x hx => List.mem_range.mpr (h2 x hx))

theorem incTuples_length (N r : Nat) : (incTuples N r 0).length = Nat.choose N r := by
  have hp : List.Perm (incTuples N r 0) (List.sublistsLen r (List.range N)) := by
    rw [List.perm_ext_iff_of_nodup (incTuples_nodup N r 0)
      (List.nodup_sublistsLen r (List.nodup_range N))]
    intro l
    rw [mem_incTuples, List.mem_sublistsLen, sublist_range_iff]
    constructor
    · rintro ⟨h1, h2, h3⟩
      exact ⟨⟨h2, fun x hx => (h3 x hx).2⟩, h1⟩
    · rintro ⟨⟨h2, h3⟩, h1⟩
      exact ⟨h1, h2, fun x hx => ⟨Nat.zero_le _, h3 x hx⟩⟩
  rw [hp.length_eq, List.length_sublistsLen, List.length_range]

end TuCorrect

/-- Claim C8 fails as stated: with `N = 78` (m = 7, t = 2: 64 data bits and 14
ecc bits) and a first draw of 72, `generate_random_vector` returns with
`vec[0] = rev8 72 = 79`, which is not in `[0, 78)`. -/
theorem random_vector_leaves_interval :
    TuCorrect.generate_random_vector 78 [0, 0] 1 [72] = some ([79, 0], []) ∧
    ¬ (∀ x ∈ ([79, 0] : List Nat).take 1, x < 78) := by
  decide

/-- Claim C8, amended: whenever `generate_random_vector` returns, with
`N = 8*len + ecc_bits` and `vecsize ≤ t`, the `vecsize` positions it has written
to `vec` are pairwise distinct, and every one of them is the `rev8` image of a
value of `[0, N)`: its own `rev8` image lies in `[0, N)`, the position lies below
`N` rounded up to a multiple of 8, and below `N` when `N` is a multiple of 8. -/
theorem random_vector_distinct (nbits : Nat) (vec : List Nat) (vecsize : Int)
    (stream vec1 rest : List Nat) (hN : nbits < 2147483648)
    (hsize : vecsize.toNat ≤ vec.length)
    (hret : TuCorrect.generate_random_vector nbits vec vecsize stream = some (vec1, rest)) :
    (vec1.take vecsize.toNat).Nodup ∧
    ∀ x ∈ vec1.take vecsize.toNat,
      TuCorrect.rev8 x < nbits ∧ x < 8 * ((nbits + 7) / 8) ∧ (nbits % 8 = 0 → x < nbits) := by
  apply TuCorrect.gen_from_inv nbits vecsize
    (fun x => TuCorrect.rev8 x < nbits ∧ x < 8 * ((nbits + 7) / 8) ∧ (nbits % 8 = 0 → x < nbits))
    ?_ stream 0 vec vec1 rest hret hsize (Nat.zero_le _) (by simp) (by simp)
  intro r hpos
  have h1 : r % nbits < nbits := Nat.mod_lt _ hpos
  have h2 : r % nbits < 4294967296 := by omega
  refine ⟨?_, ?_, ?_⟩
  · rw [TuCorrect.rev8_rev8 _ h2]; exact h1
  · rw [TuCorrect.rev8_eq _ h2]; omega
  · rw [TuCorrect.rev8_eq _ h2]; omega

theorem random_vector_distinct_witness :
    (([79, 2, 6] : List Nat).take (3 : Int).toNat).Nodup ∧
    ∀ x ∈ ([79, 2, 6] : List Nat).take (3 : Int).toNat,
      TuCorrect.rev8 x < 78 ∧ x < 8 * ((78 + 7) / 8) ∧ (78 % 8 = 0 → x < 78) :=
  random_vector_distinct 78 [0, 0, 0] 3 [72, 5, 72, 83, 1] [79, 2, 6] [] (by decide) (by decide)
    (by decide)

/-- Claim C6: for `N = 8*len + ecc_bits` and `k ≤ N`, `bch_test_errors_full_k`
started at depth 0 returns, and the vectors it hands to `check_vector`, after
undoing `rev8` on each entry, are exactly the strictly increasing `k`-tuples
over `[0, N)`: a list is visited if and only if it is such a tuple, the visits
are in strictly increasing lexicographic order, and none is visited twice. -/
theorem full_k_enumerates_combinations (nbits nerrors fuel : Nat) (vec : List Nat)
    (hN : nbits < 4294967296) (hk : nerrors ≤ nbits) (hvec : nerrors ≤ vec.length)
    (hfuel : nerrors ≤ fuel) :
    ∃ v1 out, TuCorrect.bch_test_errors_full_k nbits nerrors fuel 0 vec = some (v1, out) ∧
      (∀ l, l ∈ out.map (List.map TuCorrect.rev8) ↔
        l.length = nerrors ∧ l.Sorted (· < ·) ∧ ∀ x ∈ l, x < nbits) ∧
      (out.map (List.map TuCorrect.rev8)).Pairwise (List.Lex (· < ·)) ∧
      (out.map (List.map TuCorrect.rev8)).Nodup := by
  obtain ⟨v1, out, h1, _, _, h4⟩ := TuCorrect.full_k_spec nbits nerrors hN hk nerrors fuel 0 0 vec
    (by omega) hfuel hvec (by simp) (by simp) (by omega)
  have h5 : out.map (List.map TuCorrect.rev8) = TuCorrect.incTuples nbits nerrors 0 := by
    rw [h4]; simp
  refine ⟨v1, out, h1, ?_, ?_, ?_⟩
  · intro l
    rw [h5, TuCorrect.mem_incTuples]
    constructor
    · rintro ⟨a, b, c⟩
      exact ⟨a, b, fun x hx => (c x hx).2⟩
    · rintro ⟨a, b, c⟩
      exact ⟨a, b, fun x hx => ⟨Nat.zero_le _, c x hx⟩⟩
  · rw [h5]; exact TuCorrect.incTuples_lex nbits nerrors 0
  · rw [h5]; exact TuCorrect.incTuples_nodup nbits nerrors 0

theorem full_k_enumerates_combinations_witness :
    ∃ v1 out, TuCorrect.bch_test_errors_full_k 5 2 2 0 [99, 99, 99] = some (v1, out) ∧
      (∀ l, l ∈ out.map (List.map TuCorrect.rev8) ↔
        l.length = 2 ∧ l.Sorted (· < ·) ∧ ∀ x ∈ l, x < 5) ∧
      (out.map (List.map TuCorrect.rev8)).Pairwise (List.Lex (· < ·)) ∧
      (out.map (List.map TuCorrect.rev8)).Nodup :=
  full_k_enumerates_combinations 5 2 2 [99, 99, 99] (by decide) (by decide) (by decide)
    (by decide)

/-! ## The announced case count -/

namespace TuCorrect

theorem factorial_le_descFactorial (N k : Nat) (hk : k ≤ N) :
    k.factorial ≤ N.descFactorial k := by
  rw [Nat.descFactorial_eq_factorial_mul_choose]
  exact Nat.le_mul_of_pos_right _ (Nat.choose_pos hk)

theorem descFactorial_le_succ (N k : Nat) (hk : k < N) :
    N.descFactorial k ≤ N.descFactorial (k + 1) := by
  rw [Nat.descFactorial_succ]
  exact Nat.le_mul_of_pos_left _ (by omega)

/-- Without wrap-around the loop of `bch_test_errors_full` computes the falling
product `N (N-1) ... (N-k+1)` and `k!`. -/
theorem full_iter_loop (N : Nat) (hN : N < 4294967296) : ∀ k : Nat, k ≤ N →
    N.descFactorial k < 18446744073709551616 →
    (List.range k).foldl
      (fun (s : Nat × Nat) i =>
        ((s.1 * ((N + 4294967296 - i % 4294967296) % 4294967296)) % 18446744073709551616,
         (s.2 * (i + 1)) % 18446744073709551616)) (1, 1) = (N.descFactorial k, k.factorial) := by
  intro k
  induction k with
  | zero => intro _ _; rfl
  | succ k ih =>
    intro hk hlt
    have h1 := descFactorial_le_succ N k (by omega)
    have h2 := factorial_le_descFactorial N (k + 1) hk
    rw [List.range_succ, List.foldl_append, ih (by omega) (by omega)]
    simp only [List.foldl_cons, List.foldl_nil]
    have h3 : (N + 4294967296 - k % 4294967296) % 4294967296 = N - k := by omega
    rw [h3, Nat.mul_comm (N.descFactorial k), ← Nat.descFactorial_succ,
      Nat.mul_comm k.factorial, ← Nat.factorial_succ]
    rw [Nat.mod_eq_of_lt hlt, Nat.mod_eq_of_lt (by omega)]

theorem full_iter_eq_choose (N k : Nat) (hN : N < 4294967296) (hk : k ≤ N)
    (hlt : N.descFactorial k < 18446744073709551616) :
    bch_test_errors_full_iter N k = N.choose k := by
  unfold bch_test_errors_full_iter
  rw [full_iter_loop N hN k hk hlt, Nat.choose_eq_descFactorial_div_factorial]

end TuCorrect

/-- Claim C7 fails as stated for the announced count: with `N = 16459` (m = 15,
t = 5) and `k = 5` the 64-bit product wraps and `bch_test_errors_full` announces
67413949593706707 cases, which is not `C(16459, 5)`. -/
theorem announced_count_wraps :
    TuCorrect.bch_test_errors_full_iter 16459 5 = 67413949593706707 ∧
    TuCorrect.bch_test_errors_full_iter 16459 5 ≠ Nat.choose 16459 5 := by
  have h : Nat.choose 16459 5 = 10059400322853047166 := by
    rw [Nat.choose_eq_descFactorial_div_factorial]
    decide
  rw [h]
  decide

/-- Claim C7, amended: for every `N` and `k ≤ N` the enumerator
`bch_test_errors_full_k`, started at depth 0, returns and hands exactly
`C(N, k)` vectors to `check_vector`; the case count that `bch_test_errors_full`
announces equals `C(N, k)` whenever the product `N (N-1) ... (N-k+1)` is below
`2^64`. -/
theorem full_k_count_choose (nbits nerrors fuel : Nat) (vec : List Nat)
    (hN : nbits < 4294967296) (hk : nerrors ≤ nbits) (hvec : nerrors ≤ vec.length)
    (hfuel : nerrors ≤ fuel) :
    (∃ v1 out, TuCorrect.bch_test_errors_full_k nbits nerrors fuel 0 vec = some (v1, out) ∧
      out.length = Nat.choose nbits nerrors) ∧
    (nbits.descFactorial nerrors < 18446744073709551616 →
      TuCorrect.bch_test_errors_full_iter nbits nerrors = Nat.choose nbits nerrors) := by
  refine ⟨?_, TuCorrect.full_iter_eq_choose nbits nerrors hN hk⟩
  obtain ⟨v1, out, h1, _, _, h4⟩ := TuCorrect.full_k_spec nbits nerrors hN hk nerrors fuel 0 0 vec
    (by omega) hfuel hvec (by simp) (by simp) (by omega)
  refine ⟨v1, out, h1, ?_⟩
  have h5 : (out.map (List.map TuCorrect.rev8)).length =
      (TuCorrect.incTuples nbits nerrors 0).length := by
    rw [h4]; simp
  rw [List.length_map] at h5
  rw [h5, TuCorrect.incTuples_length]

theorem full_k_count_choose_witness :
    (∃ v1 out, TuCorrect.bch_test_errors_full_k 78 2 2 0 [0, 0] = some (v1, out) ∧
      out.length = Nat.choose 78 2) ∧
    (Nat.descFactorial 78 2 < 18446744073709551616 →
      TuCorrect.bch_test_errors_full_iter 78 2 = Nat.choose 78 2) :=
  full_k_count_choose 78 2 2 [0, 0] (by decide) (by decide) (by decide) (by decide)

/-! ## The field oracle -/

namespace TuGf

theorem and_shift_ne_zero (x m : Nat) : (x &&& (1 <<< m) ≠ 0) ↔ x.testBit m = true := by
  rw [Nat.one_shiftLeft]
  constructor
  · intro h
    by_contra hb
    apply h
    apply Nat.eq_of_testBit_eq
    intro j
    rw [Nat.testBit_and, Nat.testBit_two_pow, Nat.zero_testBit]
    by_cases hj : m = j
    · subst hj; simp at hb; simp [hb]
    · simp [hj]
  · intro h h0
    have h1 : (x &&& 2 ^ m).testBit m = true := by
      rw [Nat.testBit_and, Nat.testBit_two_pow_self, h]; rfl
    rw [h0] at h1
    simp at h1

theorem step_testBit (p m x j : Nat) (hm1 : 1 ≤ m) (hx : x < 2147483648) :
    (multiply_ak_step p m x).testBit j =
      xor (decide (1 ≤ j) && x.testBit (j - 1)) (x.testBit (m - 1) && p.testBit j) := by
  unfold multiply_ak_step
  have h1 : (x <<< 1) % 4294967296 = x <<< 1 := by
    rw [Nat.shiftLeft_eq]; omega
  simp only [h1]
  have h2 : ∀ i, (x <<< 1).testBit i = (decide (1 ≤ i) && x.testBit (i - 1)) := by
    intro i
    rw [Nat.testBit_shiftLeft]
  have h3 : (x <<< 1).testBit m = x.testBit (m - 1) := by
    rw [h2]; simp [hm1]
  by_cases hb : x.testBit (m - 1) = true
  · have hc : (x <<< 1) &&& (1 <<< m) ≠ 0 := (and_shift_ne_zero _ _).mpr (by rw [h3]; exact hb)
    rw [if_pos hc, Nat.testBit_xor, h2, hb]
    simp
  · have hc : ¬ ((x <<< 1) &&& (1 <<< m) ≠ 0) := by
      rw [and_shift_ne_zero, h3]; exact hb
    rw [if_neg hc, h2]
    simp at hb
    simp [hb]

theorem pow_le_31 (m : Nat) (hm : m ≤ 31) : 2 ^ m ≤ 2147483648 := by
  calc 2 ^ m ≤ 2 ^ 31 := Nat.pow_le_pow_right (by norm_num) hm
    _ = 2147483648 := by norm_num

theorem GoodPoly.testBit_m {p m : Nat} (h : GoodPoly p m) : p.testBit m = true := by
  have h1 : p = 2 ^ m + (p - 2 ^ m) := by have := h.hlo; omega
  rw [h1, Nat.testBit_two_pow_add_eq]
  have h2 : p - 2 ^ m < 2 ^ m := by
    have := h.hhi
    rw [Nat.pow_succ] at this
    omega
  rw [Nat.testBit_lt_two_pow h2]; rfl

theorem GoodPoly.testBit_gt {p m j : Nat} (h : GoodPoly p m) (hj : m < j) :
    p.testBit j = false := by
  apply Nat.testBit_lt_two_pow
  exact Nat.lt_of_lt_of_le h.hhi (Nat.pow_le_pow_right (by norm_num) hj)

theorem GoodPoly.testBit_zero {p m : Nat} (h : GoodPoly p m) : p.testBit 0 = true := by
  rw [Nat.testBit_zero]; simp [h.hodd]

theorem testBit_ge (x m j : Nat) (hx : x < 2 ^ m) (hj : m ≤ j) : x.testBit j = false := by
  apply Nat.testBit_lt_two_pow
  exact Nat.lt_of_lt_of_le hx (Nat.pow_le_pow_right (by norm_num) hj)

theorem step_lt {p m : Nat} (h : GoodPoly p m) (x : Nat) (hx : x < 2 ^ m) :
    multiply_ak_step p m x < 2 ^ m := by
  apply Nat.lt_pow_two_of_testBit
  intro j hj
  have hx2 : x < 2147483648 := Nat.lt_of_lt_of_le hx (pow_le_31 m h.hm)
  rw [step_testBit p m x j h.hm1 hx2]
  have hm1 := h.hm1
  rcases Nat.eq_or_lt_of_le hj with hj | hj
  · subst hj
    rw [h.testBit_m]
    cases x.testBit (m - 1) <;> simp [hm1]
  · rw [h.testBit_gt hj, testBit_ge x m (j - 1) hx (by omega)]
    simp

theorem step_xor {p m : Nat} (h : GoodPoly p m) (a b : Nat) (ha : a < 2 ^ m) (hb : b < 2 ^ m) :
    multiply_ak_step p m (a ^^^ b) = multiply_ak_step p m a ^^^ multiply_ak_step p m b := by
  have h31 := pow_le_31 m h.hm
  apply Nat.eq_of_testBit_eq
  intro j
  rw [Nat.testBit_xor, step_testBit p m a j h.hm1 (by omega), step_testBit p m b j h.hm1 (by omega),
    step_testBit p m (a ^^^ b) j h.hm1
      (Nat.lt_of_lt_of_le (Nat.xor_lt_two_pow ha hb) h31),
    Nat.testBit_xor, Nat.testBit_xor]
  cases decide (1 ≤ j) <;> cases a.testBit (j - 1) <;> cases b.testBit (j - 1) <;>
    cases a.testBit (m - 1) <;> cases b.testBit (m - 1) <;> cases p.testBit j <;> rfl

theorem step_inj {p m : Nat} (h : GoodPoly p m) (a b : Nat) (ha : a < 2 ^ m) (hb : b < 2 ^ m)
    (hab : multiply_ak_step p m a = multiply_ak_step p m b) : a = b := by
  have h31 := pow_le_31 m h.hm
  have hbit : ∀ j, (multiply_ak_step p m a).testBit j = (multiply_ak_step p m b).testBit j := by
    intro j; rw [hab]
  have h0 := hbit 0
  rw [step_testBit p m a 0 h.hm1 (by omega), step_testBit p m b 0 h.hm1 (by omega),
    h.testBit_zero] at h0
  simp at h0
  apply Nat.eq_of_testBit_eq
  intro j
  have hj := hbit (j + 1)
  rw [step_testBit p m a (j + 1) h.hm1 (by omega), step_testBit p m b (j + 1) h.hm1 (by omega),
    h0] at hj
  simp only [Nat.add_sub_cancel] at hj
  revert hj
  cases a.testBit j <;> cases b.testBit j <;> cases b.testBit (m - 1) <;>
    cases p.testBit (j + 1) <;> simp

theorem step_zero (p m : Nat) : multiply_ak_step p m 0 = 0 := by
  simp [multiply_ak_step]


theorem ak_succ (p m x k : Nat) :
    multiply_ak p m x (k + 1) = multiply_ak p m (multiply_ak_step p m x) k := rfl

theorem ak_add (p m : Nat) : ∀ (a b x : Nat),
    multiply_ak p m x (a + b) = multiply_ak p m (multiply_ak p m x a) b := by
  intro a
  induction a with
  | zero => intro b x; simp [multiply_ak]
  | succ a ih =>
    intro b x
    have h1 : a + 1 + b = (a + b) + 1 := by omega
    rw [h1, ak_succ, ih, ak_succ]

theorem ak_lt {p m : Nat} (h : GoodPoly p m) : ∀ (k x : Nat), x < 2 ^ m →
    multiply_ak p m x k < 2 ^ m := by
  intro k
  induction k with
  | zero => intro x hx; exact hx
  | succ k ih => intro x hx; rw [ak_succ]; exact ih _ (step_lt h x hx)

theorem ak_xor {p m : Nat} (h : GoodPoly p m) : ∀ (k a b : Nat), a < 2 ^ m → b < 2 ^ m →
    multiply_ak p m (a ^^^ b) k = multiply_ak p m a k ^^^ multiply_ak p m b k := by
  intro k
  induction k with
  | zero => intro a b _ _; rfl
  | succ k ih =>
    intro a b ha hb
    rw [ak_succ, ak_succ, ak_succ, step_xor h a b ha hb, ih _ _ (step_lt h a ha) (step_lt h b hb)]

theorem ak_inj {p m : Nat} (h : GoodPoly p m) : ∀ (k a b : Nat), a < 2 ^ m → b < 2 ^ m →
    multiply_ak p m a k = multiply_ak p m b k → a = b := by
  intro k
  induction k with
  | zero => intro a b _ _ hab; exact hab
  | succ k ih =>
    intro a b ha hb hab
    rw [ak_succ, ak_succ] at hab
    exact step_inj h a b ha hb (ih _ _ (step_lt h a ha) (step_lt h b hb) hab)

theorem ak_zero (p m : Nat) : ∀ k, multiply_ak p m 0 k = 0 := by
  intro k
  induction k with
  | zero => rfl
  | succ k ih => rw [ak_succ, step_zero, ih]

theorem step_two_pow {p m : Nat} (h : GoodPoly p m) (i : Nat) (hi : i + 1 < m) :
    multiply_ak_step p m (2 ^ i) = 2 ^ (i + 1) := by
  have h31 := pow_le_31 m h.hm
  have hlt : 2 ^ i < 2 ^ m := Nat.pow_lt_pow_right (by norm_num) (by omega)
  apply Nat.eq_of_testBit_eq
  intro j
  rw [step_testBit p m (2 ^ i) j h.hm1 (by omega), Nat.testBit_two_pow, Nat.testBit_two_pow,
    Nat.testBit_two_pow]
  have h1 : ¬ (i = m - 1) := by omega
  by_cases h2 : i + 1 = j
  · have h3 : 1 ≤ j := by omega
    have h4 : i = j - 1 := by omega
    have h5 : ¬ (j - 1 = m - 1) := by omega
    simp [h2, h3, h4, h5]
  · by_cases h3 : 1 ≤ j
    · have h4 : ¬ (i = j - 1) := by omega
      simp [h1, h2, h3, h4]
    · simp [h1, h2, h3]

theorem ak_one {p m : Nat} (h : GoodPoly p m) : ∀ i, i < m → multiply_ak p m 1 i = 2 ^ i := by
  intro i
  induction i with
  | zero => intro _; rfl
  | succ i ih =>
    intro hi
    rw [ak_add p m i 1 1, ih (by omega)]
    exact step_two_pow h i hi

/-- A linear map commutes with the conditional xor-accumulation of `multiply`. -/
theorem foldl_linear (m : Nat) (g : Nat → Nat) (c : Nat → Bool) (f : Nat → Nat)
    (hg : ∀ a b, a < 2 ^ m → b < 2 ^ m → g (a ^^^ b) = g a ^^^ g b)
    (hf : ∀ i, f i < 2 ^ m) :
    ∀ (l : List Nat) (r : Nat), r < 2 ^ m →
      g (l.foldl (fun r i => if c i then r ^^^ f i else r) r) =
        l.foldl (fun r i => if c i then r ^^^ g (f i) else r) (g r) := by
  intro l
  induction l with
  | nil => intro r _; rfl
  | cons i l ih =>
    intro r hr
    simp only [List.foldl_cons]
    by_cases hc : c i = true
    · simp only [hc, if_true]
      rw [ih _ (Nat.xor_lt_two_pow hr (hf i)), hg _ _ hr (hf i)]
    · simp only [hc]
      exact ih r hr

theorem foldl_bits (x : Nat) : ∀ n : Nat,
    (List.range n).foldl (fun r i => if x.testBit i then r ^^^ 2 ^ i else r) 0 = x % 2 ^ n := by
  intro n
  induction n with
  | zero => simp [Nat.mod_one]
  | succ n ih =>
    rw [List.range_succ, List.foldl_append, ih]
    simp only [List.foldl_cons, List.foldl_nil]
    apply Nat.eq_of_testBit_eq
    intro j
    by_cases hb : x.testBit n = true
    · simp only [hb, if_true]
      rw [Nat.testBit_xor, Nat.testBit_mod_two_pow, Nat.testBit_mod_two_pow, Nat.testBit_two_pow]
      by_cases h1 : j < n
      · have h2 : j < n + 1 := by omega
        have h3 : ¬ (n = j) := by omega
        simp [h1, h2, h3]
      · by_cases h4 : n = j
        · subst h4; simp [hb]
        · have h5 : ¬ (j < n + 1) := by omega
          simp [h1, h4, h5]
    · have hb2 : x.testBit n = false := by simpa using hb
      simp only [hb2, Bool.false_eq_true, if_false]
      rw [Nat.testBit_mod_two_pow, Nat.testBit_mod_two_pow]
      by_cases h1 : j < n
      · have h2 : j < n + 1 := by omega
        simp [h1, h2]
      · by_cases h4 : n = j
        · subst h4
          simp [hb2]
        · have h5 : ¬ (j < n + 1) := by omega
          simp [h1, h5]

theorem multiply_eq_fold (p m x y : Nat) :
    multiply p m x y =
      (List.range m).foldl
        (fun r i => if x.testBit i then r ^^^ multiply_ak p m y i else r) 0 := by
  unfold multiply
  apply List.foldl_ext
  intro r i _
  by_cases hb : x.testBit i = true
  · rw [if_pos ((and_shift_ne_zero x i).mpr hb), if_pos hb]
  · rw [if_neg (fun hc => hb ((and_shift_ne_zero x i).mp hc)), if_neg hb]

/-- Multiplying by a power of `alpha`: `multiply x (alpha^b)` shifts `x` by `b` steps. -/
theorem multiply_ak_one {p m : Nat} (h : GoodPoly p m) (x b : Nat) (hx : x < 2 ^ m) :
    multiply p m x (multiply_ak p m 1 b) = multiply_ak p m x b := by
  rw [multiply_eq_fold]
  have hA : (List.range m).foldl
      (fun r i => if x.testBit i then r ^^^ multiply_ak p m (multiply_ak p m 1 b) i else r) 0 =
      (List.range m).foldl
      (fun r i => if x.testBit i then r ^^^ multiply_ak p m (2 ^ i % 2 ^ m) b else r)
        (multiply_ak p m 0 b) := by
    rw [ak_zero]
    apply List.foldl_ext
    intro r i hi
    have hi2 : i < m := List.mem_range.mp hi
    have hlt : 2 ^ i < 2 ^ m := Nat.pow_lt_pow_right (by norm_num) hi2
    rw [← ak_add, Nat.add_comm, ak_add, ak_one h i hi2, Nat.mod_eq_of_lt hlt]
  have hB := foldl_linear m (fun a => multiply_ak p m a b) (fun i => x.testBit i)
    (fun i => 2 ^ i % 2 ^ m) (fun a c ha hc => ak_xor h b a c ha hc)
    (fun i => Nat.mod_lt _ (Nat.two_pow_pos m)) (List.range m) 0 (Nat.two_pow_pos m)
  have hC : (List.range m).foldl
      (fun r i => if x.testBit i then r ^^^ 2 ^ i % 2 ^ m else r) 0 = x := by
    have h1 : (List.range m).foldl
        (fun r i => if x.testBit i then r ^^^ 2 ^ i % 2 ^ m else r) 0 =
        (List.range m).foldl (fun r i => if x.testBit i then r ^^^ 2 ^ i else r) 0 := by
      apply List.foldl_ext
      intro r i hi
      have hi2 : i < m := List.mem_range.mp hi
      have hlt : 2 ^ i < 2 ^ m := Nat.pow_lt_pow_right (by norm_num) hi2
      rw [Nat.mod_eq_of_lt hlt]
    rw [h1, foldl_bits, Nat.mod_eq_of_lt hx]
  rw [hA]
  simp only [hC] at hB
  exact hB.symm


theorem order_check_spec (p m : Nat) : ∀ (c x : Nat), order_check p m c x = true →
    (∀ k, 1 ≤ k → k ≤ c → multiply_ak p m x k ≠ 1) ∧ multiply_ak p m x (c + 1) = 1 := by
  intro c
  induction c with
  | zero =>
    intro x h
    simp only [order_check, beq_iff_eq] at h
    exact ⟨fun k h1 h2 => by omega, h⟩
  | succ c ih =>
    intro x h
    simp only [order_check, Bool.and_eq_true, bne_iff_ne, ne_eq] at h
    obtain ⟨h1, h2⟩ := ih _ h.2
    refine ⟨?_, ?_⟩
    · intro k hk1 hk2
      obtain ⟨k1, rfl⟩ : ∃ k1, k = k1 + 1 := ⟨k - 1, by omega⟩
      rw [ak_succ]
      by_cases hk : k1 = 0
      · subst hk; exact h.1
      · exact h1 k1 (by omega) (by omega)
    · rw [ak_succ]; exact h2

theorem primitive_of_check (p m : Nat) (h : GoodPoly p m)
    (hc : order_check p m (2 ^ m - 2) 1 = true) : Primitive p m := by
  obtain ⟨h1, h2⟩ := order_check_spec p m _ 1 hc
  have hm : 2 ^ 1 ≤ 2 ^ m := Nat.pow_le_pow_right (by norm_num) h.hm1
  have h3 : 2 ^ m - 2 + 1 = 2 ^ m - 1 := by omega
  rw [h3] at h2
  exact ⟨h, h2, fun k hk1 hk2 => h1 k hk1 (by omega)⟩

theorem one_lt_pow {p m : Nat} (h : GoodPoly p m) : 1 < 2 ^ m := by
  have hm : 2 ^ 1 ≤ 2 ^ m := Nat.pow_le_pow_right (by norm_num) h.hm1
  omega

theorem orbit_ne_zero {p m : Nat} (h : GoodPoly p m) (k : Nat) : multiply_ak p m 1 k ≠ 0 := by
  intro h0
  have h1 : multiply_ak p m 1 k = multiply_ak p m 0 k := by rw [h0, ak_zero]
  have h2 := ak_inj h k 1 0 (one_lt_pow h) (Nat.two_pow_pos m) h1
  omega

theorem orbit_injOn {p m : Nat} (h : Primitive p m) (a b : Nat) (ha : a < 2 ^ m - 1)
    (hb : b < 2 ^ m - 1) (hab : multiply_ak p m 1 a = multiply_ak p m 1 b) : a = b := by
  have key : ∀ a b : Nat, a < b → b < 2 ^ m - 1 →
      multiply_ak p m 1 a = multiply_ak p m 1 b → False := by
    intro a b hlt hb hab
    have h1 : multiply_ak p m 1 b = multiply_ak p m (multiply_ak p m 1 (b - a)) a := by
      rw [← ak_add]; congr 1; omega
    rw [h1] at hab
    have h2 := ak_inj h.good a 1 _ (one_lt_pow h.good) (ak_lt h.good _ 1 (one_lt_pow h.good)) hab
    exact h.ne_one (b - a) (by omega) (by omega) h2.symm
  rcases Nat.lt_trichotomy a b with hlt | heq | hgt
  · exact (key a b hlt hb hab).elim
  · exact heq
  · exact (key b a hgt ha hab.symm).elim

theorem orbit_surj {p m : Nat} (h : Primitive p m) (x : Nat) (hx1 : 1 ≤ x) (hx2 : x < 2 ^ m) :
    ∃ a, a < 2 ^ m - 1 ∧ multiply_ak p m 1 a = x := by
  have hsub : (Finset.range (2 ^ m - 1)).image (fun a => multiply_ak p m 1 a) ⊆
      Finset.Ico 1 (2 ^ m) := by
    intro y hy
    rw [Finset.mem_image] at hy
    obtain ⟨a, _, rfl⟩ := hy
    rw [Finset.mem_Ico]
    have h1 := orbit_ne_zero h.good a
    exact ⟨by omega, ak_lt h.good a 1 (one_lt_pow h.good)⟩
  have hcard : ((Finset.range (2 ^ m - 1)).image (fun a => multiply_ak p m 1 a)).card =
      2 ^ m - 1 := by
    rw [Finset.card_image_of_injOn, Finset.card_range]
    intro a ha b hb hab
    exact orbit_injOn h a b (Finset.mem_range.mp ha) (Finset.mem_range.mp hb) hab
  have heq := Finset.eq_of_subset_of_card_le hsub (by rw [hcard, Nat.card_Ico])
  have hx : x ∈ Finset.Ico 1 (2 ^ m) := Finset.mem_Ico.mpr ⟨hx1, hx2⟩
  rw [← heq, Finset.mem_image] at hx
  obtain ⟨a, ha, rfl⟩ := hx
  exact ⟨a, Finset.mem_range.mp ha, rfl⟩

theorem exists_inverse {p m : Nat} (h : Primitive p m) (x : Nat) (hx1 : 1 ≤ x) (hx2 : x < 2 ^ m) :
    ∃ y, 1 ≤ y ∧ y < 2 ^ m ∧ multiply p m x y = 1 := by
  obtain ⟨a, ha, rfl⟩ := orbit_surj h x hx1 hx2
  refine ⟨multiply_ak p m 1 (2 ^ m - 1 - a), ?_, ak_lt h.good _ 1 (one_lt_pow h.good), ?_⟩
  · have := orbit_ne_zero h.good (2 ^ m - 1 - a); omega
  · rw [multiply_ak_one h.good _ _ hx2, ← ak_add]
    have h1 : a + (2 ^ m - 1 - a) = 2 ^ m - 1 := by omega
    rw [h1, h.one]

theorem inverse_spec {p m : Nat} (h : Primitive p m) (x : Nat) (hx1 : 1 ≤ x) (hx2 : x < 2 ^ m) :
    ∃ y, inverse p m x = some y ∧ 1 ≤ y ∧ y < 2 ^ m ∧ multiply p m x y = 1 := by
  have hx0 : ¬ x = 0 := by omega
  have h2 := one_lt_pow h.good
  unfold inverse
  rw [if_neg hx0, Nat.one_shiftLeft]
  cases hf : (List.range' 1 (2 ^ m - 1)).find? (fun y => multiply p m x y == 1) with
  | none =>
    exfalso
    rw [List.find?_eq_none] at hf
    obtain ⟨y, hy1, hy2, hy3⟩ := exists_inverse h x hx1 hx2
    have hmem : y ∈ List.range' 1 (2 ^ m - 1) := by
      rw [List.mem_range'_1]; omega
    have := hf y hmem
    simp [hy3] at this
  | some y =>
    have hp := List.find?_some hf
    have hmem := List.mem_of_find?_eq_some hf
    rw [List.mem_range'_1] at hmem
    simp only [beq_iff_eq] at hp
    exact ⟨y, rfl, by omega, by omega, hp⟩

theorem check_5 : order_check 0x25 5 (2 ^ 5 - 2) 1 = true := by decide!

theorem check_6 : order_check 0x43 6 (2 ^ 6 - 2) 1 = true := by decide!

theorem check_7 : order_check 0x83 7 (2 ^ 7 - 2) 1 = true := by decide!

theorem check_8 : order_check 0x11d 8 (2 ^ 8 - 2) 1 = true := by decide!

theorem check_9 : order_check 0x211 9 (2 ^ 9 - 2) 1 = true := by decide!

theorem check_10 : order_check 0x409 10 (2 ^ 10 - 2) 1 = true := by decide!

theorem check_11 : order_check 0x805 11 (2 ^ 11 - 2) 1 = true := by decide!

theorem check_12 : order_check 0x1053 12 (2 ^ 12 - 2) 1 = true := by decide!

theorem check_13 : order_check 0x201b 13 (2 ^ 13 - 2) 1 = true := by decide!

theorem check_14 : order_check 0x402b 14 (2 ^ 14 - 2) 1 = true := by decide!

theorem check_15 : order_check 0x8003 15 (2 ^ 15 - 2) 1 = true := by decide!

/-- Every entry of `prim_poly_tab` is primitive for its `m`. -/
theorem table_primitive (m : Nat) (h5 : 5 ≤ m) (h15 : m ≤ 15) :
    Primitive (prim_poly_tab.getD (m - 5) 0) m := by
  interval_cases m
  · exact primitive_of_check _ _ ⟨by decide, by decide, by decide, by decide, by decide⟩ check_5
  · exact primitive_of_check _ _ ⟨by decide, by decide, by decide, by decide, by decide⟩ check_6
  · exact primitive_of_check _ _ ⟨by decide, by decide, by decide, by decide, by decide⟩ check_7
  · exact primitive_of_check _ _ ⟨by decide, by decide, by decide, by decide, by decide⟩ check_8
  · exact primitive_of_check _ _ ⟨by decide, by decide, by decide, by decide, by decide⟩ check_9
  · exact primitive_of_check _ _ ⟨by decide, by decide, by decide, by decide, by decide⟩ check_10
  · exact primitive_of_check _ _ ⟨by decide, by decide, by decide, by decide, by decide⟩ check_11
  · exact primitive_of_check _ _ ⟨by decide, by decide, by decide, by decide, by decide⟩ check_12
  · exact primitive_of_check _ _ ⟨by decide, by decide, by decide, by decide, by decide⟩ check_13
  · exact primitive_of_check _ _ ⟨by decide, by decide, by decide, by decide, by decide⟩ check_14
  · exact primitive_of_check _ _ ⟨by decide, by decide, by decide, by decide, by decide⟩ check_15

end TuGf

/-- Claim C10: for every `m` in `5 .. 15` with `primpoly = prim_poly_tab[m-5]` and
every `x` with `0 < x < 2^m`, the brute-force `inverse x` of the oracle finds a
value (it does not reach `assert(0)`), and this value `y` satisfies
`1 ≤ y < 2^m` and `multiply x y = 1`. -/
theorem oracle_inverse_correct (m x : Nat) (h5 : 5 ≤ m) (h15 : m ≤ 15) (hx0 : 0 < x)
    (hx : x < 2 ^ m) :
    ∃ y, TuGf.inverse (TuGf.prim_poly_tab.getD (m - 5) 0) m x = some y ∧ 1 ≤ y ∧ y < 2 ^ m ∧
      TuGf.multiply (TuGf.prim_poly_tab.getD (m - 5) 0) m x y = 1 :=
  TuGf.inverse_spec (TuGf.table_primitive m h5 h15) x hx0 hx

theorem oracle_inverse_correct_witness :
    ∃ y, TuGf.inverse (TuGf.prim_poly_tab.getD (5 - 5) 0) 5 7 = some y ∧ 1 ≤ y ∧ y < 2 ^ 5 ∧
      TuGf.multiply (TuGf.prim_poly_tab.getD (5 - 5) 0) 5 7 y = 1 :=
  oracle_inverse_correct 5 7 (by decide) (by decide) (by decide) (by decide)

/-! ## The allocation wrappers of tu_mem.c -/

namespace TuMem

theorem my_malloc_eq_calloc (s : MemState) (nmemb size sys : Nat) :
    my_calloc s nmemb size sys = my_malloc s size sys := rfl

theorem my_malloc_cases (s : MemState) (size sys : Nat) :
    (my_malloc s size sys = ({ s with count := s.count + 1 }, none)) ∨
    (my_malloc s size sys =
      ({ s with count := s.count + 1, allocated := s.allocated + 1 }, some sys)) := by
  by_cases hc : injects_fault { s with count := s.count + 1 } = true
  · left; simp [my_malloc, hc]
  · right; simp [my_malloc, hc]

theorem my_malloc_fault (s : MemState) (size sys : Nat) :
    (my_malloc s size sys).1.fault = s.fault := by
  rcases my_malloc_cases s size sys with h | h <;> rw [h]

theorem my_malloc_count (s : MemState) (size sys : Nat) :
    (my_malloc s size sys).1.count = s.count + 1 := by
  rcases my_malloc_cases s size sys with h | h <;> rw [h]

theorem my_malloc_none (s : MemState) (size sys : Nat) (h : (my_malloc s size sys).2 = none) :
    (my_malloc s size sys).1.allocated = s.allocated := by
  rcases my_malloc_cases s size sys with h1 | h1
  · rw [h1]
  · rw [h1] at h; simp at h

theorem my_malloc_some (s : MemState) (size sys p : Nat) (h : (my_malloc s size sys).2 = some p) :
    (my_malloc s size sys).1.allocated = s.allocated + 1 ∧ p = sys := by
  rcases my_malloc_cases s size sys with h1 | h1
  · rw [h1] at h; simp at h
  · rw [h1] at h ⊢
    simp at h
    exact ⟨rfl, h.symm⟩

theorem my_malloc_no_fault (s : MemState) (size sys : Nat) (h : s.fault = 0) :
    (my_malloc s size sys).2 = some sys := by
  simp [my_malloc, injects_fault, h]

theorem step_fault (s : MemState) (c : Call) : (step s c).1.fault = s.fault := by
  cases c with
  | malloc size sys => exact my_malloc_fault s size sys
  | calloc nmemb size sys => exact my_malloc_fault s size sys
  | free ptr => simp only [step, my_free]; split <;> rfl

theorem step_count (s : MemState) (c : Call) :
    (step s c).1.count = s.count + (if is_alloc c then 1 else 0) := by
  cases c with
  | malloc size sys => simpa [is_alloc] using my_malloc_count s size sys
  | calloc nmemb size sys => simpa [is_alloc] using my_malloc_count s size sys
  | free ptr => simp only [step, my_free, is_alloc]; split <;> simp

theorem run_fault (cs : List Call) : ∀ s : MemState, (run s cs).1.fault = s.fault := by
  induction cs with
  | nil => intro s; rfl
  | cons c cs ih => intro s; simp only [run]; rw [ih, step_fault]

theorem run_count (cs : List Call) : ∀ s : MemState,
    (run s cs).1.count = s.count + (cs.countP is_alloc : Nat) := by
  induction cs with
  | nil => intro s; simp [run]
  | cons c cs ih =>
    intro s
    simp only [run]
    rw [ih, step_count, List.countP_cons]
    split <;> simp <;> omega

theorem alloc_allocated (s : MemState) (size sys : Nat) :
    (my_malloc s size sys).1.allocated =
      s.allocated + (if is_performed (outcome_of_alloc (my_malloc s size sys).2) then 1 else 0)
      - (if is_nonnull_free (outcome_of_alloc (my_malloc s size sys).2) then 1 else 0) := by
  rcases my_malloc_cases s size sys with h | h <;> rw [h] <;>
    simp [outcome_of_alloc, is_performed, is_nonnull_free]

theorem step_allocated (s : MemState) (c : Call) :
    (step s c).1.allocated = s.allocated + (if is_performed (step s c).2 then 1 else 0)
      - (if is_nonnull_free (step s c).2 then 1 else 0) := by
  cases c with
  | malloc size sys => exact alloc_allocated s size sys
  | calloc nmemb size sys => exact alloc_allocated s size sys
  | free ptr =>
    simp only [step, my_free, is_performed, is_nonnull_free]
    by_cases hp : ptr = 0
    · simp [hp]
    · simp [hp]

theorem run_allocated (cs : List Call) : ∀ s : MemState,
    (run s cs).1.allocated = s.allocated + ((run s cs).2.countP is_performed : Nat)
      - ((run s cs).2.countP is_nonnull_free : Nat) := by
  induction cs with
  | nil => intro s; simp [run]
  | cons c cs ih =>
    intro s
    simp only [run]
    rw [ih, step_allocated, List.countP_cons, List.countP_cons]
    split <;> split <;> simp <;> omega

theorem injects_iff (s : MemState) (n p : Nat) (hp : 1 ≤ p) (hc : s.count + 1 = n)
    (hf : s.fault = p) (size sys : Nat) :
    (my_malloc s size sys).2 = none ↔ n % p = p - 1 := by
  have h1 : Int.tmod (n : Int) (p : Int) = ((n % p : Nat) : Int) := by
    rw [Int.tmod_eq_emod (by omega) (by omega)]
    simp
  have h2 : ((n % p : Nat) : Int) = (p : Int) - 1 ↔ n % p = p - 1 := by omega
  have h3 : ¬ ((p : Int) = 0) := by omega
  have h6 : injects_fault { s with count := s.count + 1 } = true ↔ n % p = p - 1 := by
    simp only [injects_fault, hc, hf, h1, Bool.and_eq_true, decide_eq_true_eq]
    rw [h2]
    exact ⟨fun h => h.2, fun h => ⟨h3, h⟩⟩
  by_cases h4 : n % p = p - 1
  · have h7 := h6.mpr h4
    simp [my_malloc, h7, h4]
  · have h7 : ¬ (injects_fault { s with count := s.count + 1 } = true) := fun h => h4 (h6.mp h)
    simp [my_malloc, h7, h4]

end TuMem

/-- Claim C14 fails as stated: with `fault = 2` in force from the first call, the
first call (`n = 1`, not a multiple of 2) has a failure injected, and the second
call (`n = 2`, a multiple of 2) performs the allocation. -/
theorem fault_hits_first_call :
    (TuMem.my_malloc ⟨0, 0, 2⟩ 8 1000).2 = none ∧ ¬ (2 ∣ 1) ∧
    (TuMem.my_malloc (TuMem.my_malloc ⟨0, 0, 2⟩ 8 1000).1 8 1000).2 = some 1000 ∧ 2 ∣ 2 := by
  decide

/-- Claim C14, amended: with a fault period `p ≥ 1` in force from the first
allocation call (counter starting at 0), one call in every `p` fails: the `n`-th
call (`n = 1, 2, 3, ...`) to `my_malloc` or `my_calloc` returns the injected
failure exactly when `n mod p = p - 1`, and performs the allocation otherwise. -/
theorem fault_period (p : Nat) (hp : 1 ≤ p) (prior : List TuMem.Call) (nmemb size sys : Nat) :
    ((TuMem.my_malloc (TuMem.run ⟨0, 0, p⟩ prior).1 size sys).2 = none ↔
      (prior.countP TuMem.is_alloc + 1) % p = p - 1) ∧
    ((TuMem.my_calloc (TuMem.run ⟨0, 0, p⟩ prior).1 nmemb size sys).2 = none ↔
      (prior.countP TuMem.is_alloc + 1) % p = p - 1) ∧
    ((prior.countP TuMem.is_alloc + 1) % p ≠ p - 1 →
      (TuMem.my_malloc (TuMem.run ⟨0, 0, p⟩ prior).1 size sys).2 = some sys ∧
      (TuMem.my_calloc (TuMem.run ⟨0, 0, p⟩ prior).1 nmemb size sys).2 = some sys) := by
  have hc : (TuMem.run ⟨0, 0, p⟩ prior).1.count + 1 = ((prior.countP TuMem.is_alloc + 1 : Nat) : Int) := by
    rw [TuMem.run_count]; simp
  have hf : (TuMem.run ⟨0, 0, p⟩ prior).1.fault = (p : Int) := by
    rw [TuMem.run_fault]
  have h1 := TuMem.injects_iff _ _ p hp hc hf size sys
  refine ⟨h1, ?_, ?_⟩
  · rw [TuMem.my_malloc_eq_calloc]; exact h1
  · intro hne
    have h2 : (TuMem.my_malloc (TuMem.run ⟨0, 0, p⟩ prior).1 size sys).2 = some sys := by
      rcases TuMem.my_malloc_cases (TuMem.run ⟨0, 0, p⟩ prior).1 size sys with h | h
      · exact absurd (h1.mp (by rw [h])) hne
      · rw [h]
    exact ⟨h2, by rw [TuMem.my_malloc_eq_calloc]; exact h2⟩

theorem fault_period_witness :
    ((TuMem.my_malloc (TuMem.run ⟨0, 0, (3 : Nat)⟩
        [TuMem.Call.malloc 8 1000, TuMem.Call.free 1000]).1 8 1001).2 = none ↔
      ([TuMem.Call.malloc 8 1000, TuMem.Call.free 1000].countP TuMem.is_alloc + 1) % 3 = 3 - 1) ∧
    ((TuMem.my_calloc (TuMem.run ⟨0, 0, (3 : Nat)⟩
        [TuMem.Call.malloc 8 1000, TuMem.Call.free 1000]).1 1 8 1001).2 = none ↔
      ([TuMem.Call.malloc 8 1000, TuMem.Call.free 1000].countP TuMem.is_alloc + 1) % 3 = 3 - 1) ∧
    (([TuMem.Call.malloc 8 1000, TuMem.Call.free 1000].countP TuMem.is_alloc + 1) % 3 ≠ 3 - 1 →
      (TuMem.my_malloc (TuMem.run ⟨0, 0, (3 : Nat)⟩
        [TuMem.Call.malloc 8 1000, TuMem.Call.free 1000]).1 8 1001).2 = some 1001 ∧
      (TuMem.my_calloc (TuMem.run ⟨0, 0, (3 : Nat)⟩
        [TuMem.Call.malloc 8 1000, TuMem.Call.free 1000]).1 1 8 1001).2 = some 1001) :=
  fault_period 3 (by decide) [TuMem.Call.malloc 8 1000, TuMem.Call.free 1000] 1 8 1001

/-- Claim C15: for every state `(count, allocated, fault)` of the wrappers, a call
to `my_malloc` or `my_calloc` that injects a failure leaves `allocated` unchanged
and increases `count` by one; a call that does not inject a failure increases
both `count` and `allocated` by exactly one (and returns what the C library
gives); with `fault = 0` no call injects a failure. -/
theorem alloc_wrapper_effect (s : TuMem.MemState) (nmemb size sys : Nat) :
    ((TuMem.my_malloc s size sys).2 = none →
      (TuMem.my_malloc s size sys).1.allocated = s.allocated ∧
      (TuMem.my_malloc s size sys).1.count = s.count + 1) ∧
    ((TuMem.my_malloc s size sys).2 ≠ none →
      (TuMem.my_malloc s size sys).2 = some sys ∧
      (TuMem.my_malloc s size sys).1.allocated = s.allocated + 1 ∧
      (TuMem.my_malloc s size sys).1.count = s.count + 1) ∧
    ((TuMem.my_calloc s nmemb size sys).2 = none →
      (TuMem.my_calloc s nmemb size sys).1.allocated = s.allocated ∧
      (TuMem.my_calloc s nmemb size sys).1.count = s.count + 1) ∧
    ((TuMem.my_calloc s nmemb size sys).2 ≠ none →
      (TuMem.my_calloc s nmemb size sys).2 = some sys ∧
      (TuMem.my_calloc s nmemb size sys).1.allocated = s.allocated + 1 ∧
      (TuMem.my_calloc s nmemb size sys).1.count = s.count + 1) ∧
    (s.fault = 0 → (TuMem.my_malloc s size sys).2 = some sys ∧
      (TuMem.my_calloc s nmemb size sys).2 = some sys) ∧
    (TuMem.my_malloc s size sys).1.fault = s.fault ∧
    (TuMem.my_calloc s nmemb size sys).1.fault = s.fault := by
  rw [TuMem.my_malloc_eq_calloc]
  have h1 : (TuMem.my_malloc s size sys).2 = none →
      (TuMem.my_malloc s size sys).1.allocated = s.allocated ∧
      (TuMem.my_malloc s size sys).1.count = s.count + 1 :=
    fun h => ⟨TuMem.my_malloc_none s size sys h, TuMem.my_malloc_count s size sys⟩
  have h2 : (TuMem.my_malloc s size sys).2 ≠ none →
      (TuMem.my_malloc s size sys).2 = some sys ∧
      (TuMem.my_malloc s size sys).1.allocated = s.allocated + 1 ∧
      (TuMem.my_malloc s size sys).1.count = s.count + 1 := by
    intro h
    rcases TuMem.my_malloc_cases s size sys with h3 | h3
    · rw [h3] at h; exact absurd rfl h
    · rw [h3]; exact ⟨rfl, rfl, rfl⟩
  exact ⟨h1, h2, h1, h2,
    fun h => ⟨TuMem.my_malloc_no_fault s size sys h, TuMem.my_malloc_no_fault s size sys h⟩,
    TuMem.my_malloc_fault s size sys, TuMem.my_malloc_fault s size sys⟩

namespace TuMem

theorem countP_performed_split (l : List Outcome) :
    l.countP is_performed = l.countP is_successful + l.countP is_null_performed := by
  induction l with
  | nil => rfl
  | cons o l ih =>
    rw [List.countP_cons, List.countP_cons, List.countP_cons, ih]
    cases o with
    | injected => simp [is_performed, is_successful, is_null_performed]
    | performed p =>
      by_cases hp : p = 0
      · simp [is_performed, is_successful, is_null_performed, hp]; omega
      · simp [is_performed, is_successful, is_null_performed, hp]; omega
    | freed p => simp [is_performed, is_successful, is_null_performed]

theorem step_null_performed (s : MemState) (c : Call) (h : libc_succeeds c = true) :
    is_null_performed (step s c).2 = false := by
  cases c with
  | malloc size sys =>
    simp only [libc_succeeds, bne_iff_ne, ne_eq] at h
    rcases my_malloc_cases s size sys with h1 | h1 <;>
      simp [step, h1, outcome_of_alloc, is_null_performed, h]
  | calloc nmemb size sys =>
    simp only [libc_succeeds, bne_iff_ne, ne_eq] at h
    rcases my_malloc_cases s size sys with h1 | h1 <;>
      simp [step, my_malloc_eq_calloc, h1, outcome_of_alloc, is_null_performed, h]
  | free ptr => simp [step, is_null_performed]

theorem run_null_performed (cs : List Call) : ∀ s : MemState,
    (∀ c ∈ cs, libc_succeeds c = true) → (run s cs).2.countP is_null_performed = 0 := by
  induction cs with
  | nil => intro s _; rfl
  | cons c cs ih =>
    intro s h
    simp only [run]
    rw [List.countP_cons, ih _ (fun c hc => h c (List.mem_cons_of_mem _ hc)),
      step_null_performed s c (h c (List.mem_cons_self _ _))]
    simp

end TuMem

/-- Claim C16 fails as stated: the wrappers do `allocated++` before they call the C
library, so an allocation that the library itself refuses is counted. From the state
`(0, 0, 0)`, `my_malloc(8)` with `malloc` returning `NULL` followed by `my_free(NULL)`
leaves `allocated = 1`, with no successful allocation and no non-null free. -/
theorem null_allocation_counted :
    (TuMem.run ⟨0, 0, 0⟩ [TuMem.Call.malloc 8 0, TuMem.Call.free 0]).1.allocated = 1 ∧
    (TuMem.run ⟨0, 0, 0⟩ [TuMem.Call.malloc 8 0, TuMem.Call.free 0]).2 =
      [TuMem.Outcome.performed 0, TuMem.Outcome.freed 0] ∧
    (TuMem.run ⟨0, 0, 0⟩ [TuMem.Call.malloc 8 0, TuMem.Call.free 0]).2.countP
      TuMem.is_successful = 0 ∧
    (TuMem.run ⟨0, 0, 0⟩ [TuMem.Call.malloc 8 0, TuMem.Call.free 0]).2.countP
      TuMem.is_nonnull_free = 0 := by
  decide

/-- Claim C16, amended: `my_free` of a null pointer leaves `allocated` and `count`
unchanged, `my_free` of a non-null pointer decrements `allocated` by exactly one (and
keeps `count`); so after any sequence of wrapper calls `allocated` is its initial value
plus the number of successful allocations plus the number of allocator calls in which
no failure was injected and the C library returned `NULL`, minus the number of non-null
frees. When the C library never returns `NULL`, `allocated` is its initial value plus
the number of successful allocations minus the number of non-null frees. -/
theorem free_wrapper_effect (s : TuMem.MemState) (ptr : Nat) (calls : List TuMem.Call) :
    TuMem.my_free s 0 = s ∧
    (ptr ≠ 0 → (TuMem.my_free s ptr).allocated = s.allocated - 1 ∧
      (TuMem.my_free s ptr).count = s.count ∧ (TuMem.my_free s ptr).fault = s.fault) ∧
    (TuMem.run s calls).1.allocated =
      s.allocated + ((TuMem.run s calls).2.countP TuMem.is_successful : Nat)
        + ((TuMem.run s calls).2.countP TuMem.is_null_performed : Nat)
        - ((TuMem.run s calls).2.countP TuMem.is_nonnull_free : Nat) ∧
    ((∀ c ∈ calls, TuMem.libc_succeeds c = true) →
      (TuMem.run s calls).1.allocated =
        s.allocated + ((TuMem.run s calls).2.countP TuMem.is_successful : Nat)
          - ((TuMem.run s calls).2.countP TuMem.is_nonnull_free : Nat)) := by
  have hrun := TuMem.run_allocated calls s
  have hsplit := TuMem.countP_performed_split (TuMem.run s calls).2
  refine ⟨by simp [TuMem.my_free], ?_, ?_, ?_⟩
  · intro h
    simp [TuMem.my_free, h]
  · rw [hrun, hsplit]; push_cast; ring
  · intro hl
    have hz := TuMem.run_null_performed calls s hl
    rw [hrun, hsplit, hz]; simp

theorem free_wrapper_effect_witness :
    TuMem.my_free ⟨3, 2, 2⟩ 0 = ⟨3, 2, 2⟩ ∧
    ((TuMem.my_free ⟨3, 2, 2⟩ 1000).allocated = 2 - 1 ∧
      (TuMem.my_free ⟨3, 2, 2⟩ 1000).count = 3 ∧ (TuMem.my_free ⟨3, 2, 2⟩ 1000).fault = 2) ∧
    (TuMem.run ⟨3, 2, 2⟩ [TuMem.Call.malloc 8 1000, TuMem.Call.calloc 2 4 2000,
        TuMem.Call.free 0, TuMem.Call.free 1000]).1.allocated =
      2 + ((TuMem.run ⟨3, 2, 2⟩ [TuMem.Call.malloc 8 1000, TuMem.Call.calloc 2 4 2000,
          TuMem.Call.free 0, TuMem.Call.free 1000]).2.countP TuMem.is_successful : Nat)
        - ((TuMem.run ⟨3, 2, 2⟩ [TuMem.Call.malloc 8 1000, TuMem.Call.calloc 2 4 2000,
          TuMem.Call.free 0, TuMem.Call.free 1000]).2.countP TuMem.is_nonnull_free : Nat) ∧
    (TuMem.run ⟨3, 2, 2⟩ [TuMem.Call.malloc 8 1000, TuMem.Call.calloc 2 4 2000,
        TuMem.Call.free 0, TuMem.Call.free 1000]).2 =
      [TuMem.Outcome.performed 1000, TuMem.Outcome.injected, TuMem.Outcome.freed 0,
        TuMem.Outcome.freed 1000] :=
  ⟨(free_wrapper_effect ⟨3, 2, 2⟩ 1000 [TuMem.Call.malloc 8 1000,
      TuMem.Call.calloc 2 4 2000, TuMem.Call.free 0, TuMem.Call.free 1000]).1,
    (free_wrapper_effect ⟨3, 2, 2⟩ 1000 [TuMem.Call.malloc 8 1000,
      TuMem.Call.calloc 2 4 2000, TuMem.Call.free 0, TuMem.Call.free 1000]).2.1 (by decide),
    (free_wrapper_effect ⟨3, 2, 2⟩ 1000 [TuMem.Call.malloc 8 1000,
      TuMem.Call.calloc 2 4 2000, TuMem.Call.free 0, TuMem.Call.free 1000]).2.2.2 (by decide),
    by decide⟩

theorem alloc_wrapper_effect_witness :
    ((TuMem.my_malloc ⟨0, 0, 2⟩ 8 1000).2 = none →
      (TuMem.my_malloc ⟨0, 0, 2⟩ 8 1000).1.allocated = 0 ∧
      (TuMem.my_malloc ⟨0, 0, 2⟩ 8 1000).1.count = 0 + 1) ∧
    ((TuMem.my_malloc ⟨1, 0, 2⟩ 8 1000).2 ≠ none →
      (TuMem.my_malloc ⟨1, 0, 2⟩ 8 1000).2 = some 1000 ∧
      (TuMem.my_malloc ⟨1, 0, 2⟩ 8 1000).1.allocated = 0 + 1 ∧
      (TuMem.my_malloc ⟨1, 0, 2⟩ 8 1000).1.count = 1 + 1) :=
  ⟨(alloc_wrapper_effect ⟨0, 0, 2⟩ 1 8 1000).1, (alloc_wrapper_effect ⟨1, 0, 2⟩ 1 8 1000).2.1⟩

/-! ## The guard of the drivers -/

/-- Claim C17 fails as stated: `m = 5`, `t = 3` passes the guard of the drivers
(`16 + 15 = 31 < 32`) and the codeword length `N = 8*len + m*t` is
`31 = 2^5 - 1`, which is not below `2^5 - 1`; likewise `m = 7`, `t = 9` gives
`N = 127 = 2^7 - 1`. -/
theorem guard_admits_full_length :
    TuCorrect.main_guard 5 3 = true ∧ 8 * TuCorrect.test_len 5 + 5 * 3 = 2 ^ 5 - 1 ∧
    ¬ (8 * TuCorrect.test_len 5 + 5 * 3 < 2 ^ 5 - 1) ∧
    TuCorrect.main_guard 7 9 = true ∧ 8 * TuCorrect.test_len 7 + 7 * 9 = 2 ^ 7 - 1 ∧
    ¬ (8 * TuCorrect.test_len 7 + 7 * 9 < 2 ^ 7 - 1) := by
  decide

/-- Claim C17, amended: for every `(m, t)` with `5 ≤ m ≤ 15` that the drivers of
tu_correct and tu_bench let through their guard (`2^(m-1) + m*t < 2^m`), the
codeword bit length `N = 8*len + m*t` with `len = 2^(m-1)/8` satisfies
`2^(m-1) ≤ N ≤ 2^m - 1`. -/
theorem guard_bounds_length (m t : Nat) (h5 : 5 ≤ m) (h15 : m ≤ 15)
    (hg : TuCorrect.main_guard m t = true) :
    2 ^ (m - 1) ≤ 8 * TuCorrect.test_len m + m * t ∧
    8 * TuCorrect.test_len m + m * t ≤ 2 ^ m - 1 := by
  simp only [TuCorrect.main_guard, TuCorrect.main_nbits, decide_eq_true_eq] at hg
  unfold TuCorrect.test_len
  interval_cases m <;> simp at hg ⊢ <;> omega

theorem guard_bounds_length_witness :
    2 ^ (7 - 1) ≤ 8 * TuCorrect.test_len 7 + 7 * 2 ∧
    8 * TuCorrect.test_len 7 + 7 * 2 ≤ 2 ^ 7 - 1 :=
  guard_bounds_length 7 2 (by decide) (by decide) (by decide)

/-! ## The clean loop of tu_mem.c -/

/-- Claim C18 against the code: in the iteration that prints `m=5:t=5` the codec is
initialised by `init_bch(5, 4, 0)`; every iteration passes the capability 4, so
no call of the clean loop has the capability 5. -/
theorem clean_loop_passes_four :
    ((5, 5), (5, 4, 0)) ∈ TuMem.main_clean_loop ∧
    (∀ e ∈ TuMem.main_clean_loop, e.2 = (e.1.1, 4, 0)) ∧
    (∀ e ∈ TuMem.main_clean_loop, e.2 ≠ (5, 5, 0)) := by
  decide!

/-! ## The cutoff of the exhaustive test -/

/-- Claim C19 against the code: for `m = 10`, `t = 7`, `nerrors = 7` the guard of
the driver holds (`N = 582 < 1024`), `(m-1)*nerrors = 63 < 64`, and yet the
product `582 * 581 * ... * 576` is at least `2^64`: the 64-bit `iter` wraps and the
computed count 668071459043250 is not `C(582, 7) = 4328139727636416`. The first
part of the cutoff does not fire (with `iter = 0` the run is not skipped). -/
theorem cutoff_misses_wrap :
    TuCorrect.main_guard 10 7 = true ∧ TuCorrect.main_nbits 10 7 = 582 ∧
    8 * TuCorrect.test_len 10 + 10 * 7 = 582 ∧ (10 - 1) * 7 < 64 ∧
    18446744073709551616 ≤ Nat.descFactorial 582 7 ∧
    TuCorrect.bch_test_errors_full_iter 582 7 = 668071459043250 ∧
    Nat.choose 582 7 = 4328139727636416 ∧
    TuCorrect.bch_test_errors_full_skips 10 7 0 = false := by
  have h : Nat.choose 582 7 = 4328139727636416 := by
    rw [Nat.choose_eq_descFactorial_div_factorial]
    decide
  rw [h]
  decide

/-! ## What a passing comparison says without distinctness -/

namespace TuCorrect

theorem compare_pass_size (vec errloc : List Nat) (vecsize errsize : Nat)
    (h : compare_vectors vec vecsize errloc errsize = true) : vecsize = errsize := by
  simp [compare_vectors] at h
  exact h.1

theorem compare_pass_subset (vec errloc : List Nat) (n : Nat) (hsize : n ≤ errloc.length)
    (h : compare_vectors vec n errloc n = true) : vec.take n ⊆ errloc.take n := by
  rw [compare_vectors_iff] at h
  intro x hx
  obtain ⟨i, hi, rfl⟩ := getD_of_mem_take vec _ _ hx
  obtain ⟨j, hj, hje⟩ := h i hi
  rw [← hje]
  exact mem_take_of_getD errloc _ j hsize hj

end TuCorrect

/-- Claim C20 fails as stated: for the injected list `(1, 1)` and the reported
list `(1, 2)` the comparison passes, and the reported position 2 is not an
injected position. -/
theorem compare_passes_on_duplicates :
    TuCorrect.compare_vectors [1, 1] 2 [1, 2] 2 = true ∧
    2 ∈ ([1, 2] : List Nat).take 2 ∧ 2 ∉ ([1, 1] : List Nat).take 2 := by
  decide

/-- Claim C20, amended: for every injected list `vec` and reported list `errloc`,
whenever `compare_vectors` passes, `errsize = vecsize` and every injected position
occurs among the reported positions; if the injected positions are pairwise
distinct, also every reported position `errloc[j]`, `j < errsize`, is one of the
injected positions. -/
theorem compare_pass_sets (vec errloc : List Nat) (vecsize errsize : Nat)
    (hv : vecsize ≤ vec.length) (hsize : errsize ≤ errloc.length)
    (h : TuCorrect.compare_vectors vec vecsize errloc errsize = true) :
    errsize = vecsize ∧ (∀ x ∈ vec.take vecsize, x ∈ errloc.take errsize) ∧
    ((vec.take vecsize).Nodup → ∀ y ∈ errloc.take errsize, y ∈ vec.take vecsize) := by
  have he := TuCorrect.compare_pass_size vec errloc vecsize errsize h
  subst he
  have hsub := TuCorrect.compare_pass_subset vec errloc vecsize hsize h
  refine ⟨rfl, fun x hx => hsub hx, ?_⟩
  intro hnd y hy
  have hsp := List.subperm_of_subset hnd hsub
  have hp := hsp.perm_of_length_le (by simp; omega)
  exact hp.symm.subset hy

theorem compare_pass_sets_witness :
    3 = 3 ∧ (∀ x ∈ ([5, 9, 2, 7] : List Nat).take 3, x ∈ ([2, 5, 9, 0] : List Nat).take 3) ∧
    ((([5, 9, 2, 7] : List Nat).take 3).Nodup →
      ∀ y ∈ ([2, 5, 9, 0] : List Nat).take 3, y ∈ ([5, 9, 2, 7] : List Nat).take 3) :=
  compare_pass_sets [5, 9, 2, 7] [2, 5, 9, 0] 3 3 (by decide) (by decide) (by decide)

/-! ## The oracle multiplication as a polynomial product -/

namespace TuGf

theorem toPoly_coeff (x j : Nat) :
    (toPoly x).coeff j = if x.testBit j then 1 else 0 := by
  unfold toPoly
  rw [Polynomial.finset_sum_coeff]
  by_cases hb : x.testBit j = true
  · have hj : j ∈ Finset.range (x + 1) := by
      rw [Finset.mem_range]
      have h1 := Nat.testBit_implies_ge hb
      have h2 := Nat.lt_two_pow j
      omega
    rw [Finset.sum_eq_single j]
    · simp [hb]
    · intro i _ hij
      by_cases hi : x.testBit i = true
      · simp [hi, Polynomial.coeff_X_pow, hij.symm]
      · simp [hi]
    · intro h; exact absurd hj h
  · simp only [hb]
    apply Finset.sum_eq_zero
    intro i _
    by_cases hi : x.testBit i = true
    · have hij : j ≠ i := fun h => hb (h ▸ hi)
      simp [hi, Polynomial.coeff_X_pow, hij]
    · simp [hi]

theorem toPoly_xor (a b : Nat) : toPoly (a ^^^ b) = toPoly a + toPoly b := by
  ext j
  rw [Polynomial.coeff_add, toPoly_coeff, toPoly_coeff, toPoly_coeff, Nat.testBit_xor]
  cases a.testBit j <;> cases b.testBit j <;> simp <;> decide

theorem toPoly_zero : toPoly 0 = 0 := by
  ext j
  rw [toPoly_coeff]; simp

theorem toPoly_two_pow (i : Nat) : toPoly (2 ^ i) = Polynomial.X ^ i := by
  ext j
  rw [toPoly_coeff, Nat.testBit_two_pow, Polynomial.coeff_X_pow]
  by_cases h : i = j
  · simp [h]
  · have h2 : ¬ (j = i) := fun h3 => h h3.symm
    simp [h, h2]

theorem toPoly_inj (a b : Nat) (h : toPoly a = toPoly b) : a = b := by
  apply Nat.eq_of_testBit_eq
  intro j
  have h1 : (toPoly a).coeff j = (toPoly b).coeff j := by rw [h]
  rw [toPoly_coeff, toPoly_coeff] at h1
  revert h1
  cases a.testBit j <;> cases b.testBit j <;> simp

theorem toPoly_degree_lt (a m : Nat) (ha : a < 2 ^ m) : (toPoly a).degree < m := by
  rw [Polynomial.degree_lt_iff_coeff_zero]
  intro j hj
  rw [toPoly_coeff, testBit_ge a m j ha hj]
  simp

theorem testBit_top (p m : Nat) (hlo : 2 ^ m ≤ p) (hhi : p < 2 ^ (m + 1)) :
    p.testBit m = true := by
  have h1 : p = 2 ^ m + (p - 2 ^ m) := by omega
  rw [h1, Nat.testBit_two_pow_add_eq]
  have h2 : p - 2 ^ m < 2 ^ m := by
    rw [Nat.pow_succ] at hhi
    omega
  rw [Nat.testBit_lt_two_pow h2]; rfl

theorem toPoly_monic (p m : Nat) (hlo : 2 ^ m ≤ p) (hhi : p < 2 ^ (m + 1)) :
    (toPoly p).Monic ∧ (toPoly p).natDegree = m := by
  have hle : (toPoly p).natDegree ≤ m := by
    rw [Polynomial.natDegree_le_iff_coeff_eq_zero]
    intro j hj
    rw [toPoly_coeff, testBit_ge p (m + 1) j hhi hj]
    simp
  have hc : (toPoly p).coeff m = 1 := by
    rw [toPoly_coeff, testBit_top p m hlo hhi]; simp
  refine ⟨Polynomial.monic_of_natDegree_le_of_coeff_eq_one m hle hc, ?_⟩
  apply le_antisymm hle
  apply Polynomial.le_natDegree_of_ne_zero
  rw [hc]; exact one_ne_zero

theorem step_lt_deg (p m x : Nat) (hm1 : 1 ≤ m) (hm : m ≤ 31) (hlo : 2 ^ m ≤ p)
    (hhi : p < 2 ^ (m + 1)) (hx : x < 2 ^ m) : multiply_ak_step p m x < 2 ^ m := by
  apply Nat.lt_pow_two_of_testBit
  intro j hj
  have hx2 : x < 2147483648 := Nat.lt_of_lt_of_le hx (pow_le_31 m hm)
  rw [step_testBit p m x j hm1 hx2]
  rcases Nat.eq_or_lt_of_le hj with hj | hj
  · subst hj
    rw [testBit_top p m hlo hhi]
    cases x.testBit (m - 1) <;> simp [hm1]
  · rw [testBit_ge p (m + 1) j hhi hj, testBit_ge x m (j - 1) hx (by omega)]
    simp

theorem ak_lt_deg (p m : Nat) (hm1 : 1 ≤ m) (hm : m ≤ 31) (hlo : 2 ^ m ≤ p)
    (hhi : p < 2 ^ (m + 1)) : ∀ (k x : Nat), x < 2 ^ m → multiply_ak p m x k < 2 ^ m := by
  intro k
  induction k with
  | zero => intro x hx; exact hx
  | succ k ih => intro x hx; rw [ak_succ]; exact ih _ (step_lt_deg p m x hm1 hm hlo hhi hx)

theorem toPoly_step (p m x : Nat) (hm1 : 1 ≤ m) (hx : x < 2147483648) :
    toPoly (multiply_ak_step p m x) =
      Polynomial.X * toPoly x + (if x.testBit (m - 1) then toPoly p else 0) := by
  ext j
  rw [Polynomial.coeff_add, toPoly_coeff, step_testBit p m x j hm1 hx]
  have hX : (Polynomial.X * toPoly x).coeff j =
      if decide (1 ≤ j) && x.testBit (j - 1) then 1 else 0 := by
    cases j with
    | zero => simp
    | succ j => rw [Polynomial.coeff_X_mul, toPoly_coeff]; simp
  rw [hX]
  by_cases hb : x.testBit (m - 1) = true
  · simp only [hb, if_true, Bool.true_and, toPoly_coeff]
    cases (decide (1 ≤ j) && x.testBit (j - 1)) <;> cases p.testBit j <;> simp <;> decide
  · have hb2 : x.testBit (m - 1) = false := by simpa using hb
    simp [hb2]

theorem toPoly_ak_dvd (p m : Nat) (hm1 : 1 ≤ m) (hm : m ≤ 31) (hlo : 2 ^ m ≤ p)
    (hhi : p < 2 ^ (m + 1)) : ∀ (k x : Nat), x < 2 ^ m →
    toPoly p ∣ toPoly (multiply_ak p m x k) - Polynomial.X ^ k * toPoly x := by
  intro k
  induction k with
  | zero => intro x _; simp [multiply_ak]
  | succ k ih =>
    intro x hx
    have hx2 : x < 2147483648 := Nat.lt_of_lt_of_le hx (pow_le_31 m hm)
    rw [ak_succ]
    have h1 := ih _ (step_lt_deg p m x hm1 hm hlo hhi hx)
    have h2 : toPoly p ∣ Polynomial.X ^ k * toPoly (multiply_ak_step p m x)
        - Polynomial.X ^ (k + 1) * toPoly x := by
      rw [toPoly_step p m x hm1 hx2]
      by_cases hb : x.testBit (m - 1) = true
      · simp only [hb, if_true]
        refine ⟨Polynomial.X ^ k, ?_⟩
        ring
      · simp only [hb]
        refine ⟨0, ?_⟩
        simp
        ring
    have h3 := dvd_add h1 h2
    have h4 : toPoly (multiply_ak p m (multiply_ak_step p m x) k)
        - Polynomial.X ^ k * toPoly (multiply_ak_step p m x)
        + (Polynomial.X ^ k * toPoly (multiply_ak_step p m x)
        - Polynomial.X ^ (k + 1) * toPoly x) =
        toPoly (multiply_ak p m (multiply_ak_step p m x) k)
        - Polynomial.X ^ (k + 1) * toPoly x := by ring
    rw [h4] at h3
    exact h3


theorem mod_two_pow_succ_xor (x n : Nat) :
    x % 2 ^ (n + 1) = if x.testBit n then x % 2 ^ n ^^^ 2 ^ n else x % 2 ^ n := by
  have h1 := foldl_bits x (n + 1)
  rw [List.range_succ, List.foldl_append, foldl_bits x n] at h1
  simp only [List.foldl_cons, List.foldl_nil] at h1
  exact h1.symm

/-- The accumulation of `multiply` over the first `n` bits of `x`: it stays below
`2^m` and is congruent modulo `primpoly` to `(x mod 2^n) * y`. -/
theorem multiply_fold_inv (p m x y : Nat) (hm1 : 1 ≤ m) (hm : m ≤ 31) (hlo : 2 ^ m ≤ p)
    (hhi : p < 2 ^ (m + 1)) (hy : y < 2 ^ m) : ∀ n : Nat,
    (List.range n).foldl
        (fun r i => if x.testBit i then r ^^^ multiply_ak p m y i else r) 0 < 2 ^ m ∧
    toPoly p ∣ toPoly ((List.range n).foldl
        (fun r i => if x.testBit i then r ^^^ multiply_ak p m y i else r) 0)
      - toPoly (x % 2 ^ n) * toPoly y := by
  intro n
  induction n with
  | zero =>
    simp only [List.range_zero, List.foldl_nil, pow_zero, Nat.mod_one]
    refine ⟨Nat.two_pow_pos m, ?_⟩
    rw [toPoly_zero]; simp
  | succ n ih =>
    obtain ⟨ih1, ih2⟩ := ih
    rw [List.range_succ, List.foldl_append]
    simp only [List.foldl_cons, List.foldl_nil]
    rw [mod_two_pow_succ_xor]
    by_cases hb : x.testBit n = true
    · simp only [hb, if_true]
      have hak := ak_lt_deg p m hm1 hm hlo hhi n y hy
      refine ⟨Nat.xor_lt_two_pow ih1 hak, ?_⟩
      rw [toPoly_xor, toPoly_xor, toPoly_two_pow]
      have h3 := dvd_add ih2 (toPoly_ak_dvd p m hm1 hm hlo hhi n y hy)
      have h4 : ∀ (A B C D : Polynomial (ZMod 2)),
          A - C * D + (B - Polynomial.X ^ n * D) = A + B - (C + Polynomial.X ^ n) * D := by
        intro A B C D; ring
      rw [h4] at h3
      exact h3
    · simp only [hb]
      exact ⟨ih1, ih2⟩

theorem modByMonic_eq_of_dvd (P A r : Polynomial (ZMod 2)) (hP : P.Monic) (h : P ∣ r - A)
    (hd : r.degree < P.degree) : A %ₘ P = r := by
  have h1 : r %ₘ P = A %ₘ P := Polynomial.modByMonic_eq_of_dvd_sub hP h
  rw [← h1]
  exact (Polynomial.modByMonic_eq_self_iff hP).2 hd

theorem multiply_spec (p m x y : Nat) (hm : m ≤ 31) (hlo : 2 ^ m ≤ p)
    (hhi : p < 2 ^ (m + 1)) (hx : x < 2 ^ m) (hy : y < 2 ^ m) :
    multiply p m x y < 2 ^ m ∧
    toPoly (multiply p m x y) = (toPoly x * toPoly y) %ₘ toPoly p := by
  obtain ⟨hmon, hdeg⟩ := toPoly_monic p m hlo hhi
  by_cases hm0 : m = 0
  · subst hm0
    have hx0 : x = 0 := by omega
    subst hx0
    simp [multiply, toPoly_zero]
  · have hm1 : 1 ≤ m := by omega
    rw [multiply_eq_fold]
    obtain ⟨h1, h2⟩ := multiply_fold_inv p m x y hm1 hm hlo hhi hy m
    rw [Nat.mod_eq_of_lt hx] at h2
    refine ⟨h1, ?_⟩
    symm
    apply modByMonic_eq_of_dvd _ _ _ hmon h2
    rw [Polynomial.degree_eq_natDegree hmon.ne_zero, hdeg]
    exact toPoly_degree_lt _ m h1

theorem multiply_comm_deg (p m x y : Nat) (hm : m ≤ 31) (hlo : 2 ^ m ≤ p)
    (hhi : p < 2 ^ (m + 1)) (hx : x < 2 ^ m) (hy : y < 2 ^ m) :
    multiply p m x y = multiply p m y x := by
  apply toPoly_inj
  rw [(multiply_spec p m x y hm hlo hhi hx hy).2, (multiply_spec p m y x hm hlo hhi hy hx).2,
    mul_comm]

end TuGf

/-- Claim C11: the shift-and-reduce `multiply` of the oracle is multiplication in
GF(2)[X]/(primpoly). For every `m` (within the 32 bits of `unsigned int`), every
`primpoly` with `2^m ≤ primpoly < 2^(m+1)` and all `x, y < 2^m`, the bit vector
`multiply x y` read as a polynomial over GF(2) (bit `i` is the coefficient of
`X^i`) is the product of the polynomials of `x` and `y` reduced modulo the
polynomial of `primpoly`; the result is below `2^m` and
`multiply x y = multiply y x`. -/
theorem oracle_multiply_is_poly_product (p m x y : Nat) (hm : m ≤ 31) (hlo : 2 ^ m ≤ p)
    (hhi : p < 2 ^ (m + 1)) (hx : x < 2 ^ m) (hy : y < 2 ^ m) :
    (∀ z j : Nat, (TuGf.toPoly z).coeff j = if z.testBit j then 1 else 0) ∧
    TuGf.toPoly (TuGf.multiply p m x y) =
      (TuGf.toPoly x * TuGf.toPoly y) %ₘ TuGf.toPoly p ∧
    TuGf.multiply p m x y < 2 ^ m ∧
    TuGf.multiply p m x y = TuGf.multiply p m y x :=
  ⟨TuGf.toPoly_coeff, (TuGf.multiply_spec p m x y hm hlo hhi hx hy).2,
    (TuGf.multiply_spec p m x y hm hlo hhi hx hy).1,
    TuGf.multiply_comm_deg p m x y hm hlo hhi hx hy⟩

theorem oracle_multiply_is_poly_product_witness :
    (∀ z j : Nat, (TuGf.toPoly z).coeff j = if z.testBit j then 1 else 0) ∧
    TuGf.toPoly (TuGf.multiply 0x25 5 7 12) =
      (TuGf.toPoly 7 * TuGf.toPoly 12) %ₘ TuGf.toPoly 0x25 ∧
    TuGf.multiply 0x25 5 7 12 < 2 ^ 5 ∧
    TuGf.multiply 0x25 5 7 12 = TuGf.multiply 0x25 5 12 7 :=
  oracle_multiply_is_poly_product 0x25 5 7 12 (by decide) (by decide) (by decide) (by decide)
    (by decide)

/-! ## The reference error-locator polynomial -/

namespace TuCorrect

section
variable {m : Nat} {ops : GfOps} {F : Type} [Field F] {toF : Nat → F} {α : F}

theorem GfField.one_lt (h : GfField m ops toF α) : 1 < 2 ^ m := by
  have h1 : 2 ^ 1 ≤ 2 ^ m := Nat.pow_le_pow_right (by norm_num) h.hm
  omega

theorem GfField.toF_zero (h : GfField m ops toF α) : toF 0 = 0 := by
  have h1 := h.toF_xor 0 (Nat.two_pow_pos m) 0 (Nat.two_pow_pos m)
  simp at h1
  exact h1

theorem GfField.two_eq_zero (h : GfField m ops toF α) : (1 : F) + 1 = 0 := by
  have h1 := h.toF_xor 1 h.one_lt 1 h.one_lt
  rw [Nat.xor_self, h.toF_zero, h.toF_one] at h1
  exact h1.symm

theorem GfField.ne_zero_of_toF (h : GfField m ops toF α) (a : Nat) (ha : toF a ≠ 0) : a ≠ 0 := by
  intro h0; apply ha; rw [h0, h.toF_zero]

theorem polyOf_replicate (h : GfField m ops toF α) (n : Nat) :
    polyOf toF (List.replicate n 0) = 0 := by
  induction n with
  | zero => rfl
  | succ n ih => simp [List.replicate_succ, polyOf, ih, h.toF_zero]

theorem allLt_set (c : List Nat) (k v : Nat) (hc : AllLt m c) (hv : v < 2 ^ m) :
    AllLt m (c.set k v) := by
  intro x hx
  rcases List.mem_or_eq_of_mem_set hx with h1 | h1
  · exact hc x h1
  · rw [h1]; exact hv

theorem allLt_getD (c : List Nat) (k : Nat) (hc : AllLt m c) : c.getD k 0 < 2 ^ m := by
  by_cases hk : k < c.length
  · rw [List.getD_eq_getElem _ _ hk]; exact hc _ (List.getElem_mem hk)
  · rw [List.getD_eq_default _ _ (by omega)]; exact Nat.two_pow_pos m

theorem polyOf_set_xor (h : GfField m ops toF α) : ∀ (c : List Nat) (k v : Nat), AllLt m c →
    k < c.length → v < 2 ^ m →
    polyOf toF (c.set k (c.getD k 0 ^^^ v)) =
      polyOf toF c + Polynomial.C (toF v) * Polynomial.X ^ k := by
  intro c
  induction c with
  | nil => intro k v _ hk _; simp at hk
  | cons a t ih =>
    intro k v hc hk hv
    have ha : a < 2 ^ m := hc a (List.mem_cons_self a t)
    have ht : AllLt m t := fun x hx => hc x (List.mem_cons_of_mem a hx)
    cases k with
    | zero =>
      simp only [List.set_cons_zero, List.getD_cons_zero, polyOf, pow_zero, mul_one]
      rw [h.toF_xor a ha v hv, Polynomial.C_add]
      ring
    | succ k =>
      simp only [List.set_cons_succ, List.getD_cons_succ, polyOf]
      rw [ih k v ht (by simpa using hk) hv]
      ring

theorem polyOf_eq_sum (c : List Nat) :
    polyOf toF c =
      ∑ j ∈ Finset.range c.length, Polynomial.C (toF (c.getD j 0)) * Polynomial.X ^ j := by
  induction c with
  | nil => simp [polyOf]
  | cons a t ih =>
    simp only [polyOf, List.length_cons]
    rw [Finset.sum_range_succ', ih, Finset.mul_sum]
    simp only [List.getD_cons_succ, List.getD_cons_zero, pow_zero, mul_one]
    rw [add_comm]
    congr 1
    apply Finset.sum_congr rfl
    intro j _
    ring


/-- The inner loop of `gf_poly_mul` adds `a_i * b_j * X^(i+j)` for `j < n`. -/
theorem mul_inner_spec (h : GfField m ops toF α) (ai : Nat) (hai : ai < 2 ^ m) (bc : List Nat)
    (hb : AllLt m bc) (i : Nat) : ∀ (n : Nat) (c : List Nat), AllLt m c → i + n ≤ c.length →
    AllLt m ((List.range n).foldl (fun c j =>
        c.set (i + j) (c.getD (i + j) 0 ^^^ ops.gf_mul ai (bc.getD j 0))) c) ∧
    ((List.range n).foldl (fun c j =>
        c.set (i + j) (c.getD (i + j) 0 ^^^ ops.gf_mul ai (bc.getD j 0))) c).length = c.length ∧
    polyOf toF ((List.range n).foldl (fun c j =>
        c.set (i + j) (c.getD (i + j) 0 ^^^ ops.gf_mul ai (bc.getD j 0))) c) =
      polyOf toF c + ∑ j ∈ Finset.range n,
        Polynomial.C (toF ai * toF (bc.getD j 0)) * Polynomial.X ^ (i + j) := by
  intro n
  induction n with
  | zero => intro c hc _; simp [hc]
  | succ n ih =>
    intro c hc hlen
    obtain ⟨h1, h2, h3⟩ := ih c hc (by omega)
    rw [List.range_succ, List.foldl_append]
    simp only [List.foldl_cons, List.foldl_nil]
    have hbj : bc.getD n 0 < 2 ^ m := allLt_getD bc n hb
    have hv := h.mul_lt ai hai _ hbj
    refine ⟨allLt_set _ _ _ h1 (Nat.xor_lt_two_pow (allLt_getD _ _ h1) hv),
      by rw [List.length_set]; exact h2, ?_⟩
    rw [polyOf_set_xor h _ _ _ h1 (by omega) hv, h3, Finset.sum_range_succ,
      h.toF_mul ai hai _ hbj]
    ring

/-- The two loops of `gf_poly_mul` add `a_i * b_j * X^(i+j)` for `i < na`, `j < nb`. -/
theorem mul_outer_spec (h : GfField m ops toF α) (ac bc : List Nat) (ha : AllLt m ac)
    (hb : AllLt m bc) (nb : Nat) : ∀ (na : Nat) (c : List Nat), AllLt m c →
    na + nb ≤ c.length + 1 →
    AllLt m ((List.range na).foldl (fun c i => (List.range nb).foldl (fun c j =>
        c.set (i + j) (c.getD (i + j) 0 ^^^ ops.gf_mul (ac.getD i 0) (bc.getD j 0))) c) c) ∧
    ((List.range na).foldl (fun c i => (List.range nb).foldl (fun c j =>
        c.set (i + j) (c.getD (i + j) 0 ^^^ ops.gf_mul (ac.getD i 0) (bc.getD j 0))) c) c).length
      = c.length ∧
    polyOf toF ((List.range na).foldl (fun c i => (List.range nb).foldl (fun c j =>
        c.set (i + j) (c.getD (i + j) 0 ^^^ ops.gf_mul (ac.getD i 0) (bc.getD j 0))) c) c) =
      polyOf toF c + ∑ i ∈ Finset.range na, ∑ j ∈ Finset.range nb,
        Polynomial.C (toF (ac.getD i 0) * toF (bc.getD j 0)) * Polynomial.X ^ (i + j) := by
  intro na
  induction na with
  | zero => intro c hc _; simp [hc]
  | succ na ih =>
    intro c hc hlen
    obtain ⟨h1, h2, h3⟩ := ih c hc (by omega)
    rw [List.range_succ, List.foldl_append]
    simp only [List.foldl_cons, List.foldl_nil]
    obtain ⟨k1, k2, k3⟩ := mul_inner_spec h (ac.getD na 0) (allLt_getD ac na ha) bc hb na nb _ h1
      (by omega)
    refine ⟨k1, by rw [k2, h2], ?_⟩
    rw [k3, h3, Finset.sum_range_succ]
    ring

theorem gf_poly_mul_spec (h : GfField m ops toF α) (a b : gf_poly)
    (ha : AllLt m a.c) (hal : a.c.length = a.deg + 1)
    (hb : AllLt m b.c) (hbl : b.c.length = b.deg + 1) :
    (gf_poly_mul ops a b).deg = a.deg + b.deg ∧
    (gf_poly_mul ops a b).c.length = a.deg + b.deg + 1 ∧
    AllLt m (gf_poly_mul ops a b).c ∧
    polyOf toF (gf_poly_mul ops a b).c = polyOf toF a.c * polyOf toF b.c := by
  have hz : AllLt m (List.replicate (a.deg + b.deg + 1) 0) := by
    intro x hx
    rw [List.eq_of_mem_replicate hx]
    exact Nat.two_pow_pos m
  obtain ⟨h1, h2, h3⟩ := mul_outer_spec h a.c b.c ha hb (b.deg + 1) (a.deg + 1)
    (List.replicate (a.deg + b.deg + 1) 0) hz (by simp; omega)
  refine ⟨rfl, ?_, h1, ?_⟩
  · simp only [gf_poly_mul]; rw [h2]; simp
  · simp only [gf_poly_mul]
    rw [h3, polyOf_replicate h, zero_add, polyOf_eq_sum a.c, polyOf_eq_sum b.c, hal, hbl,
      Finset.sum_mul_sum]
    apply Finset.sum_congr rfl
    intro i _
    apply Finset.sum_congr rfl
    intro j _
    rw [Polynomial.C_mul, pow_add]
    ring


theorem elp_factor_spec (h : GfField m ops toF α) (nbits v : Nat) (hN : nbits < 2147483648)
    (hv : rev8 v < nbits) :
    (elp_factor ops nbits v).deg = 1 ∧ (elp_factor ops nbits v).c.length = 1 + 1 ∧
    AllLt m (elp_factor ops nbits v).c ∧
    polyOf toF (elp_factor ops nbits v).c =
      Polynomial.X + Polynomial.C (elp_root α nbits v) := by
  have hbit : (nbits : Int) - 1 - to_int (rev8 v) = ((nbits - 1 - rev8 v : Nat) : Int) := by
    unfold to_int
    rw [if_pos (by omega)]
    omega
  have hne : ops.a_pow ((nbits - 1 - rev8 v : Nat) : Int) ≠ 0 := by
    apply h.ne_zero_of_toF
    rw [h.toF_pow]
    exact pow_ne_zero _ h.alpha_ne
  have hlt := h.pow_lt (nbits - 1 - rev8 v)
  refine ⟨rfl, rfl, ?_, ?_⟩
  · intro x hx
    simp only [elp_factor, hbit, List.mem_cons, List.mem_singleton, List.not_mem_nil,
      or_false] at hx
    rcases hx with hx | hx
    · rw [hx]; exact h.inv_lt _ hlt hne
    · rw [hx]; exact h.one_lt
  · simp only [elp_factor, hbit, polyOf]
    rw [h.toF_inv _ hlt hne, h.toF_pow, h.toF_one]
    simp [elp_root]
    ring

theorem elp_product_spec (h : GfField m ops toF α) (nbits : Nat) (vec : List Nat)
    (hN : nbits < 2147483648) : ∀ k : Nat, (∀ i, i < k → rev8 (vec.getD i 0) < nbits) →
    (elp_product ops nbits vec k).deg = k ∧ (elp_product ops nbits vec k).c.length = k + 1 ∧
    AllLt m (elp_product ops nbits vec k).c ∧
    polyOf toF (elp_product ops nbits vec k).c = elp_reference α nbits vec k := by
  intro k
  induction k with
  | zero =>
    intro _
    refine ⟨rfl, rfl, ?_, ?_⟩
    · intro x hx
      simp only [elp_product, List.range_zero, List.foldl_nil, List.mem_singleton] at hx
      rw [hx]; exact h.one_lt
    · simp [elp_product, elp_reference, polyOf, h.toF_one]
  | succ k ih =>
    intro hv
    obtain ⟨h1, h2, h3, h4⟩ := ih (fun i hi => hv i (by omega))
    obtain ⟨f1, f2, f3, f4⟩ := elp_factor_spec h nbits (vec.getD k 0) hN (hv k (by omega))
    have hstep : elp_product ops nbits vec (k + 1) =
        gf_poly_mul ops (elp_factor ops nbits (vec.getD k 0)) (elp_product ops nbits vec k) := by
      simp only [elp_product, List.range_succ, List.foldl_append, List.foldl_cons,
        List.foldl_nil, gf_poly_copy]
    obtain ⟨g1, g2, g3, g4⟩ := gf_poly_mul_spec h _ _ f3 (by rw [f2, f1]) h3 (by rw [h2, h1])
    rw [hstep]
    refine ⟨by rw [g1, f1, h1]; omega, by rw [g2, f1, h1]; omega, g3, ?_⟩
    rw [g4, f4, h4]
    simp only [elp_reference, List.range_succ, List.map_append, List.prod_append, List.map_cons,
      List.map_nil, List.prod_cons, List.prod_nil, mul_one]
    ring


theorem getD_set_eq (c : List Nat) (i j v : Nat) (hi : i < c.length) :
    (c.set i v).getD j 0 = if i = j then v else c.getD j 0 := by
  by_cases hij : i = j
  · subst hij; simp [List.getD_eq_getElem?_getD, List.getElem?_set, hi]
  · simp [List.getD_eq_getElem?_getD, List.getElem?_set, hij]

/-- The normalisation loop over a list of distinct non-zero indices divides exactly
these entries by `c[0]`. -/
theorem norm_fold_spec (ops : GfOps) : ∀ (is : List Nat) (c : List Nat), 0 ∉ is → is.Nodup →
    (∀ i ∈ is, i < c.length) →
    (is.foldl (fun c i => c.set i (ops.gf_div (c.getD i 0) (c.getD 0 0))) c).length = c.length ∧
    ∀ j, (is.foldl (fun c i => c.set i (ops.gf_div (c.getD i 0) (c.getD 0 0))) c).getD j 0 =
      if j ∈ is then ops.gf_div (c.getD j 0) (c.getD 0 0) else c.getD j 0 := by
  intro is
  induction is with
  | nil => intro c _ _ _; simp
  | cons i is ih =>
    intro c h0 hnd hlt
    have hi0 : i ≠ 0 := fun h => h0 (by simp [h])
    have h0' : 0 ∉ is := fun h => h0 (List.mem_cons_of_mem i h)
    have hil : i < c.length := hlt i (List.mem_cons_self i is)
    rw [List.nodup_cons] at hnd
    simp only [List.foldl_cons]
    obtain ⟨h1, h2⟩ := ih (c.set i (ops.gf_div (c.getD i 0) (c.getD 0 0))) h0' hnd.2
      (fun k hk => by rw [List.length_set]; exact hlt k (List.mem_cons_of_mem i hk))
    refine ⟨by rw [h1, List.length_set], ?_⟩
    intro j
    rw [h2 j, getD_set_eq c i j _ hil, getD_set_eq c i 0 _ hil, if_neg hi0]
    by_cases hj : j ∈ is
    · have hij : i ≠ j := fun h => hnd.1 (h ▸ hj)
      simp [hj, hij]
    · by_cases hij : i = j
      · subst hij; simp [hj]
      · have hji : ¬ (j = i) := fun h => hij h.symm
        simp [hj, hij, hji]

theorem elp_normalize_getD (ops : GfOps) (p : gf_poly) (hl : p.c.length = p.deg + 1) :
    (elp_normalize ops p).deg = p.deg ∧ (elp_normalize ops p).c.length = p.deg + 1 ∧
    ∀ j, j ≤ p.deg →
      (elp_normalize ops p).c.getD j 0 = ops.gf_div (p.c.getD j 0) (p.c.getD 0 0) := by
  have hrange : (List.range (p.deg + 1)).reverse = (List.range' 1 p.deg).reverse ++ [0] := by
    rw [List.range_eq_range', List.range'_succ]
    simp
  have h0 : 0 ∉ (List.range' 1 p.deg).reverse := by
    simp [List.mem_range'_1]
  have hnd : ((List.range' 1 p.deg).reverse).Nodup :=
    List.nodup_reverse.mpr (List.nodup_range' 1 p.deg)
  have hlt : ∀ i ∈ (List.range' 1 p.deg).reverse, i < p.c.length := by
    intro i hi
    rw [List.mem_reverse, List.mem_range'_1] at hi
    omega
  obtain ⟨h1, h2⟩ := norm_fold_spec ops _ p.c h0 hnd hlt
  have hc : (elp_normalize ops p).c =
      (((List.range' 1 p.deg).reverse).foldl
        (fun c i => c.set i (ops.gf_div (c.getD i 0) (c.getD 0 0))) p.c).set 0
        (ops.gf_div
          ((((List.range' 1 p.deg).reverse).foldl
            (fun c i => c.set i (ops.gf_div (c.getD i 0) (c.getD 0 0))) p.c).getD 0 0)
          ((((List.range' 1 p.deg).reverse).foldl
            (fun c i => c.set i (ops.gf_div (c.getD i 0) (c.getD 0 0))) p.c).getD 0 0)) := by
    simp only [elp_normalize, hrange, List.foldl_append, List.foldl_cons, List.foldl_nil]
  refine ⟨rfl, ?_, ?_⟩
  · rw [hc, List.length_set, h1, hl]
  · intro j hj
    rw [hc, getD_set_eq _ 0 j _ (by rw [h1, hl]; omega)]
    by_cases hj0 : 0 = j
    · subst hj0
      rw [if_pos rfl, h2 0, if_neg h0]
    · rw [if_neg hj0, h2 j]
      have hjm : j ∈ (List.range' 1 p.deg).reverse := by
        rw [List.mem_reverse, List.mem_range'_1]; omega
      rw [if_pos hjm]

theorem elp_normalize_spec (h : GfField m ops toF α) (p : gf_poly)
    (hl : p.c.length = p.deg + 1) (hc : AllLt m p.c) (h0 : p.c.getD 0 0 ≠ 0) :
    AllLt m (elp_normalize ops p).c ∧
    polyOf toF (elp_normalize ops p).c =
      Polynomial.C ((toF (p.c.getD 0 0))⁻¹) * polyOf toF p.c := by
  obtain ⟨_, h2, h3⟩ := elp_normalize_getD ops p hl
  refine ⟨?_, ?_⟩
  · intro x hx
    obtain ⟨j, hj, rfl⟩ := List.getElem_of_mem hx
    have hj2 : j ≤ p.deg := by omega
    have h4 := h3 j hj2
    rw [List.getD_eq_getElem _ _ hj] at h4
    rw [h4]
    exact h.div_lt _ (allLt_getD _ _ hc) _ (allLt_getD _ _ hc)
  · rw [polyOf_eq_sum, polyOf_eq_sum, h2, hl, Finset.mul_sum]
    apply Finset.sum_congr rfl
    intro j hj
    rw [Finset.mem_range] at hj
    rw [h3 j (by omega), h.toF_div _ (allLt_getD _ _ hc) _ (allLt_getD _ _ hc) h0,
      div_eq_mul_inv, Polynomial.C_mul]
    ring


theorem polyOf_coeff (c : List Nat) (j : Nat) :
    (polyOf toF c).coeff j = if j < c.length then toF (c.getD j 0) else 0 := by
  rw [polyOf_eq_sum, Polynomial.finset_sum_coeff]
  simp only [Polynomial.coeff_C_mul_X_pow]
  rw [Finset.sum_ite_eq]
  simp [Finset.mem_range]

theorem polyOf_eval (c : List Nat) (z : F) :
    (polyOf toF c).eval z = ∑ j ∈ Finset.range c.length, toF (c.getD j 0) * z ^ j := by
  rw [polyOf_eq_sum, Polynomial.eval_finset_sum]
  apply Finset.sum_congr rfl
  intro j _
  simp

theorem elp_reference_succ (α : F) (nbits : Nat) (vec : List Nat) (k : Nat) :
    elp_reference α nbits vec (k + 1) =
      elp_reference α nbits vec k *
        (Polynomial.X + Polynomial.C (elp_root α nbits (vec.getD k 0))) := by
  simp only [elp_reference, List.range_succ, List.map_append, List.prod_append, List.map_cons,
    List.map_nil, List.prod_cons, List.prod_nil, mul_one]

theorem elp_reference_monic (α : F) (nbits : Nat) (vec : List Nat) : ∀ k : Nat,
    (elp_reference α nbits vec k).Monic ∧ (elp_reference α nbits vec k).natDegree = k := by
  intro k
  induction k with
  | zero => simp [elp_reference]
  | succ k ih =>
    rw [elp_reference_succ]
    have h1 := Polynomial.monic_X_add_C (elp_root α nbits (vec.getD k 0))
    refine ⟨ih.1.mul h1, ?_⟩
    rw [ih.1.natDegree_mul h1, ih.2, Polynomial.natDegree_X_add_C]

theorem elp_reference_eval (α : F) (nbits : Nat) (vec : List Nat) (z : F) : ∀ k : Nat,
    ((elp_reference α nbits vec k).eval z = 0 ↔
      ∃ i, i < k ∧ z + elp_root α nbits (vec.getD i 0) = 0) := by
  intro k
  induction k with
  | zero => simp [elp_reference]
  | succ k ih =>
    rw [elp_reference_succ, Polynomial.eval_mul, mul_eq_zero, ih]
    simp only [Polynomial.eval_add, Polynomial.eval_X, Polynomial.eval_C]
    constructor
    · rintro (⟨i, hi, h1⟩ | h1)
      · exact ⟨i, by omega, h1⟩
      · exact ⟨k, by omega, h1⟩
    · rintro ⟨i, hi, h1⟩
      by_cases hik : i = k
      · subst hik; right; exact h1
      · left; exact ⟨i, by omega, h1⟩

theorem elp_root_ne_zero (h : GfField m ops toF α) (nbits v : Nat) : elp_root α nbits v ≠ 0 :=
  inv_ne_zero (pow_ne_zero _ h.alpha_ne)

theorem elp_reference_coeff_zero (h : GfField m ops toF α) (nbits : Nat) (vec : List Nat)
    (k : Nat) : (elp_reference α nbits vec k).coeff 0 ≠ 0 := by
  rw [Polynomial.coeff_zero_eq_eval_zero]
  intro h0
  obtain ⟨i, _, h1⟩ := (elp_reference_eval α nbits vec 0 k).mp h0
  rw [zero_add] at h1
  exact elp_root_ne_zero h nbits _ h1

/-- What `compute_elp` builds, as a polynomial over the field. -/
theorem compute_elp_poly (h : GfField m ops toF α) (nbits : Nat) (vec : List Nat) (k : Nat)
    (hN : nbits < 2147483648) (hv : ∀ i, i < k → rev8 (vec.getD i 0) < nbits) :
    (compute_elp ops nbits vec k).deg = k ∧ (compute_elp ops nbits vec k).c.length = k + 1 ∧
    AllLt m (compute_elp ops nbits vec k).c ∧
    polyOf toF (compute_elp ops nbits vec k).c =
      Polynomial.C (((elp_reference α nbits vec k).coeff 0)⁻¹) * elp_reference α nbits vec k := by
  obtain ⟨h1, h2, h3, h4⟩ := elp_product_spec h nbits vec hN k hv
  have hl : (elp_product ops nbits vec k).c.length = (elp_product ops nbits vec k).deg + 1 := by
    rw [h2, h1]
  have hc0 : toF ((elp_product ops nbits vec k).c.getD 0 0) =
      (elp_reference α nbits vec k).coeff 0 := by
    rw [← h4, polyOf_coeff, if_pos (by omega)]
  have hne : (elp_product ops nbits vec k).c.getD 0 0 ≠ 0 := by
    apply h.ne_zero_of_toF
    rw [hc0]
    exact elp_reference_coeff_zero h nbits vec k
  obtain ⟨n1, n2⟩ := elp_normalize_spec h _ hl h3 hne
  obtain ⟨g1, g2, _⟩ := elp_normalize_getD ops (elp_product ops nbits vec k) hl
  refine ⟨by simp only [compute_elp]; rw [g1, h1], by simp only [compute_elp]; rw [g2, h1],
    n1, ?_⟩
  simp only [compute_elp]
  rw [n2, hc0, h4]

theorem compute_elp_coeff (h : GfField m ops toF α) (nbits : Nat) (vec : List Nat) (k : Nat)
    (hN : nbits < 2147483648) (hv : ∀ i, i < k → rev8 (vec.getD i 0) < nbits) (j : Nat)
    (hj : j ≤ k) :
    toF ((compute_elp ops nbits vec k).c.getD j 0) =
      (elp_reference α nbits vec k).coeff j / (elp_reference α nbits vec k).coeff 0 := by
  obtain ⟨_, h2, _, h4⟩ := compute_elp_poly h nbits vec k hN hv
  have h5 := @polyOf_coeff F _ toF (compute_elp ops nbits vec k).c j
  rw [if_pos (by omega), h4, Polynomial.coeff_C_mul] at h5
  rw [← h5, div_eq_mul_inv, mul_comm]

end

theorem gf2_field : GfField 1 gf2_ops (fun n => (n : ZMod 2)) 1 where
  hm := Nat.le_refl 1
  toF_xor := by decide
  toF_one := by decide
  toF_inj := by decide
  mul_lt := by decide
  toF_mul := by decide
  div_lt := by decide
  toF_div := by
    intro a ha b hb hb0
    have hb1 : b = 1 := by omega
    subst hb1
    simp [gf2_ops]
  inv_lt := by decide
  toF_inv := by
    intro a ha ha0
    have ha1 : a = 1 := by omega
    subst ha1
    simp [gf2_ops]
  pow_lt := by intro i; simp [gf2_ops]
  toF_pow := by intro i; simp [gf2_ops]
  alpha_ne := by decide

section
variable {m : Nat} {ops : GfOps} {F : Type} [Field F] {toF : Nat → F} {α : F}

theorem elp_root_inj (nbits : Nat) (hα : nbits ≤ orderOf α) (u v : Nat)
    (hu : u < 4294967296) (hv : v < 4294967296) (hun : rev8 u < nbits) (hvn : rev8 v < nbits)
    (he : elp_root α nbits u = elp_root α nbits v) : u = v := by
  unfold elp_root at he
  have h1 : α ^ (nbits - 1 - rev8 u) = α ^ (nbits - 1 - rev8 v) := inv_injective he
  have h2 : nbits - 1 - rev8 u = nbits - 1 - rev8 v := by
    apply pow_injOn_Iio_orderOf _ _ h1
    · simp only [Set.mem_Iio]; omega
    · simp only [Set.mem_Iio]; omega
  have h3 : rev8 u = rev8 v := by omega
  rw [← rev8_rev8 u hu, ← rev8_rev8 v hv, h3]

end

end TuCorrect

/-- Claim C12: for every vector of `k` positions (each mapped to the non-zero field
element `r_i = (alpha^(N-1-rev8(vec_i)))^-1`), the polynomial `p` that
`compute_elp` builds is the product of the `k` factors `X + r_i` with every
coefficient divided by the constant term of the product: `p` has degree exactly
`k`, a non-zero leading coefficient and the constant coefficient 1. The
primitives of lib/bch.c are the field operations of GF(2^m). -/
theorem compute_elp_normalized_product {F : Type} [Field F] (m : Nat) (ops : TuCorrect.GfOps)
    (toF : Nat → F) (α : F) (nbits : Nat) (vec : List Nat) (k : Nat)
    (h : TuCorrect.GfField m ops toF α) (hN : nbits < 2147483648) (hk : k ≤ vec.length)
    (hv : ∀ i, i < k → TuCorrect.rev8 (vec.getD i 0) < nbits) :
    (TuCorrect.compute_elp ops nbits vec k).deg = k ∧
    (TuCorrect.compute_elp ops nbits vec k).c.length = k + 1 ∧
    (∀ j, j ≤ k → toF ((TuCorrect.compute_elp ops nbits vec k).c.getD j 0) =
      (TuCorrect.elp_reference α nbits vec k).coeff j /
        (TuCorrect.elp_reference α nbits vec k).coeff 0) ∧
    (TuCorrect.elp_reference α nbits vec k).natDegree = k ∧
    (∀ i, i < k → TuCorrect.elp_root α nbits (vec.getD i 0) ≠ 0) ∧
    (TuCorrect.compute_elp ops nbits vec k).c.getD k 0 ≠ 0 ∧
    (TuCorrect.compute_elp ops nbits vec k).c.getD 0 0 = 1 := by
  obtain ⟨h1, h2, h3, _⟩ := TuCorrect.compute_elp_poly h nbits vec k hN hv
  have hc := TuCorrect.compute_elp_coeff h nbits vec k hN hv
  have h0 := TuCorrect.elp_reference_coeff_zero h nbits vec k
  obtain ⟨hmon, hdeg⟩ := TuCorrect.elp_reference_monic α nbits vec k
  refine ⟨h1, h2, hc, hdeg, fun i _ => TuCorrect.elp_root_ne_zero h nbits _, ?_, ?_⟩
  · apply h.ne_zero_of_toF
    rw [hc k (Nat.le_refl k)]
    have hlead : (TuCorrect.elp_reference α nbits vec k).coeff k = 1 := by
      have h5 := hmon.coeff_natDegree
      rw [hdeg] at h5
      exact h5
    rw [hlead]
    exact div_ne_zero one_ne_zero h0
  · apply h.toF_inj _ (TuCorrect.allLt_getD _ _ h3) 1 h.one_lt
    rw [hc 0 (Nat.zero_le k), h.toF_one, div_self h0]

theorem compute_elp_normalized_product_witness :
    (TuCorrect.compute_elp TuCorrect.gf2_ops (1 : Nat) [7, 7] 2).deg = 2 ∧
    (TuCorrect.compute_elp TuCorrect.gf2_ops (1 : Nat) [7, 7] 2).c.length = 2 + 1 ∧
    (∀ j, j ≤ 2 →
      (fun n : Nat => (n : ZMod 2))
        ((TuCorrect.compute_elp TuCorrect.gf2_ops (1 : Nat) [7, 7] 2).c.getD j 0) =
      (TuCorrect.elp_reference (1 : ZMod 2) 1 [7, 7] 2).coeff j /
        (TuCorrect.elp_reference (1 : ZMod 2) 1 [7, 7] 2).coeff 0) ∧
    (TuCorrect.elp_reference (1 : ZMod 2) 1 [7, 7] 2).natDegree = 2 ∧
    (∀ i, i < 2 → TuCorrect.elp_root (1 : ZMod 2) 1 (([7, 7] : List Nat).getD i 0) ≠ 0) ∧
    (TuCorrect.compute_elp TuCorrect.gf2_ops (1 : Nat) [7, 7] 2).c.getD 2 0 ≠ 0 ∧
    (TuCorrect.compute_elp TuCorrect.gf2_ops (1 : Nat) [7, 7] 2).c.getD 0 0 = 1 :=
  compute_elp_normalized_product 1 TuCorrect.gf2_ops (fun n : Nat => (n : ZMod 2)) 1 1 [7, 7] 2
    TuCorrect.gf2_field (by decide) (by decide) (by decide)

namespace TuCorrect

theorem gf4_field : GfField 2 gf4_ops F4.of_bits F4.e2 where
  hm := by decide
  toF_xor := by
    intro a ha b hb
    have ha4 : a < 4 := ha
    have hb4 : b < 4 := hb
    interval_cases a <;> interval_cases b <;> decide
  toF_one := by decide
  toF_inj := by
    intro a ha b hb
    have ha4 : a < 4 := ha
    have hb4 : b < 4 := hb
    interval_cases a <;> interval_cases b <;> decide
  mul_lt := by
    intro a ha b hb
    have ha4 : a < 4 := ha
    have hb4 : b < 4 := hb
    interval_cases a <;> interval_cases b <;> decide
  toF_mul := by
    intro a ha b hb
    have ha4 : a < 4 := ha
    have hb4 : b < 4 := hb
    interval_cases a <;> interval_cases b <;> decide
  div_lt := by
    intro a ha b hb
    have ha4 : a < 4 := ha
    have hb4 : b < 4 := hb
    interval_cases a <;> interval_cases b <;> decide
  toF_div := by
    intro a ha b hb hb0
    have ha4 : a < 4 := ha
    have hb4 : b < 4 := hb
    interval_cases a <;> interval_cases b <;> decide
  inv_lt := by
    intro a ha ha0
    have ha4 : a < 4 := ha
    interval_cases a <;> decide
  toF_inv := by
    intro a ha ha0
    have ha4 : a < 4 := ha
    interval_cases a <;> decide
  pow_lt := by
    intro i
    have h : ((i : Int).toNat % 3) < 3 := Nat.mod_lt _ (by decide)
    show TuGf.multiply_ak 7 2 1 ((i : Int).toNat % 3) < 2 ^ 2
    interval_cases ((i : Int).toNat % 3) <;> decide
  toF_pow := by
    intro i
    show F4.of_bits (TuGf.multiply_ak 7 2 1 ((i : Int).toNat % 3)) = F4.e2 ^ i
    have h3 : (F4.e2 : F4) ^ 3 = 1 := by decide
    have hi : (F4.e2 : F4) ^ i = F4.e2 ^ (i % 3) := by
      conv_lhs => rw [← Nat.div_add_mod i 3, pow_add, pow_mul, h3, one_pow, one_mul]
    rw [hi, Int.toNat_ofNat]
    have h : i % 3 < 3 := Nat.mod_lt _ (by decide)
    interval_cases (i % 3) <;> decide
  alpha_ne := by decide

theorem gf4_order : orderOf (F4.e2 : F4) = 2 ^ 2 - 1 := by
  haveI : Fact (Nat.Prime 3) := ⟨by norm_num⟩
  exact orderOf_eq_prime (by decide) (by decide)

end TuCorrect

/-- Claim C13: for every injected vector of `k` pairwise distinct positions, the
reference error-locator polynomial built by `compute_elp` (with `gf_mul`,
`gf_inv`, `gf_div`, `a_pow` the field operations of GF(2^m), `alpha` of order
`2^m - 1` and `N ≤ 2^m - 1`) has degree `k`, and its value
`c[0] + c[1] z + ... + c[k] z^k` at a field element `z` is zero exactly when `z`
is one of the `k` elements `alpha^-(N-1-rev8(vec_i))`, which are pairwise
distinct. -/
theorem compute_elp_roots {F : Type} [Field F] (m : Nat) (ops : TuCorrect.GfOps)
    (toF : Nat → F) (α : F) (nbits : Nat) (vec : List Nat) (k : Nat)
    (h : TuCorrect.GfField m ops toF α) (horder : orderOf α = 2 ^ m - 1)
    (hNm : nbits ≤ 2 ^ m - 1) (hN : nbits < 2147483648) (hk : k ≤ vec.length)
    (hnd : (vec.take k).Nodup) (h32 : ∀ i, i < k → vec.getD i 0 < 4294967296)
    (hv : ∀ i, i < k → TuCorrect.rev8 (vec.getD i 0) < nbits) :
    (TuCorrect.compute_elp ops nbits vec k).deg = k ∧
    (TuCorrect.compute_elp ops nbits vec k).c.getD k 0 ≠ 0 ∧
    (∀ z : F, (∑ j ∈ Finset.range ((TuCorrect.compute_elp ops nbits vec k).deg + 1),
        toF ((TuCorrect.compute_elp ops nbits vec k).c.getD j 0) * z ^ j) = 0 ↔
      ∃ i, i < k ∧ z = (α ^ (nbits - 1 - TuCorrect.rev8 (vec.getD i 0)))⁻¹) ∧
    (∀ i j, i < k → j < k → i ≠ j →
      (α ^ (nbits - 1 - TuCorrect.rev8 (vec.getD i 0)))⁻¹ ≠
        (α ^ (nbits - 1 - TuCorrect.rev8 (vec.getD j 0)))⁻¹) := by
  obtain ⟨h1, h2, h3, h4⟩ := TuCorrect.compute_elp_poly h nbits vec k hN hv
  have hc := TuCorrect.compute_elp_coeff h nbits vec k hN hv
  have h0 := TuCorrect.elp_reference_coeff_zero h nbits vec k
  obtain ⟨hmon, hdeg⟩ := TuCorrect.elp_reference_monic α nbits vec k
  have hneg : ∀ x : F, -x = x := by
    intro x
    have h5 : x + x = 0 := by
      have h6 := h.two_eq_zero
      calc x + x = x * (1 + 1) := by ring
        _ = 0 := by rw [h6, mul_zero]
    exact neg_eq_of_add_eq_zero_left h5
  refine ⟨h1, ?_, ?_, ?_⟩
  · apply h.ne_zero_of_toF
    rw [hc k (Nat.le_refl k)]
    have hlead : (TuCorrect.elp_reference α nbits vec k).coeff k = 1 := by
      have h5 := hmon.coeff_natDegree
      rw [hdeg] at h5
      exact h5
    rw [hlead]
    exact div_ne_zero one_ne_zero h0
  · intro z
    have he := @TuCorrect.polyOf_eval F _ toF (TuCorrect.compute_elp ops nbits vec k).c z
    rw [h2] at he
    rw [h1, ← he, h4, Polynomial.eval_mul, Polynomial.eval_C, mul_eq_zero,
      TuCorrect.elp_reference_eval α nbits vec z k]
    constructor
    · rintro (h5 | ⟨i, hi, h5⟩)
      · exact absurd h5 (inv_ne_zero h0)
      · refine ⟨i, hi, ?_⟩
        have h6 := eq_neg_of_add_eq_zero_left h5
        rw [hneg] at h6
        exact h6
    · rintro ⟨i, hi, h5⟩
      right
      refine ⟨i, hi, ?_⟩
      rw [h5]
      have h6 := hneg (TuCorrect.elp_root α nbits (vec.getD i 0))
      unfold TuCorrect.elp_root at h6
      calc (α ^ (nbits - 1 - TuCorrect.rev8 (vec.getD i 0)))⁻¹ +
            TuCorrect.elp_root α nbits (vec.getD i 0)
          = (α ^ (nbits - 1 - TuCorrect.rev8 (vec.getD i 0)))⁻¹ +
            -(α ^ (nbits - 1 - TuCorrect.rev8 (vec.getD i 0)))⁻¹ := by
            rw [h6]; rfl
        _ = 0 := add_neg_cancel _
  · intro i j hi hj hij he
    have huv := @TuCorrect.elp_root_inj F _ α nbits (by rw [horder]; exact hNm) _ _
      (h32 i hi) (h32 j hj) (hv i hi) (hv j hj) he
    apply hij
    have hi2 : i < (vec.take k).length := by simp; omega
    have hj2 : j < (vec.take k).length := by simp; omega
    have e1 : (vec.take k)[i] = vec.getD i 0 := by
      rw [List.getElem_take, List.getD_eq_getElem _ _ (by omega)]
    have e2 : (vec.take k)[j] = vec.getD j 0 := by
      rw [List.getElem_take, List.getD_eq_getElem _ _ (by omega)]
    exact (List.Nodup.getElem_inj_iff hnd).mp (by rw [e1, e2, huv])

theorem compute_elp_roots_witness :
    ((TuCorrect.compute_elp TuCorrect.gf4_ops (3 : Nat) [7, 6] 2).deg = 2 ∧
    (TuCorrect.compute_elp TuCorrect.gf4_ops (3 : Nat) [7, 6] 2).c.getD 2 0 ≠ 0 ∧
    (∀ z : TuCorrect.F4,
      (∑ j ∈ Finset.range ((TuCorrect.compute_elp TuCorrect.gf4_ops (3 : Nat) [7, 6] 2).deg + 1),
        TuCorrect.F4.of_bits
          ((TuCorrect.compute_elp TuCorrect.gf4_ops (3 : Nat) [7, 6] 2).c.getD j 0) * z ^ j) = 0 ↔
      ∃ i, i < 2 ∧
        z = (TuCorrect.F4.e2 ^ (3 - 1 - TuCorrect.rev8 (([7, 6] : List Nat).getD i 0)))⁻¹) ∧
    (∀ i j, i < 2 → j < 2 → i ≠ j →
      (TuCorrect.F4.e2 ^ (3 - 1 - TuCorrect.rev8 (([7, 6] : List Nat).getD i 0)))⁻¹ ≠
        (TuCorrect.F4.e2 ^ (3 - 1 - TuCorrect.rev8 (([7, 6] : List Nat).getD j 0)))⁻¹)) ∧
    (TuCorrect.compute_elp TuCorrect.gf4_ops (3 : Nat) [7, 6] 2).c = [1, 1, 1] :=
  ⟨compute_elp_roots 2 TuCorrect.gf4_ops TuCorrect.F4.of_bits TuCorrect.F4.e2 3 [7, 6] 2
    TuCorrect.gf4_field TuCorrect.gf4_order (by decide) (by decide) (by decide) (by decide)
    (by decide) (by decide), by decide⟩

/-! ## Calibration sample, flipped bytes and random tool parameters -/

namespace TuCorrect

theorem shift_mask (r : Nat) (hr : r < 8) : 1 <<< (7 - r) = 128 >>> r := by
  interval_cases r <;> rfl

end TuCorrect

/-- Claim C25: for an address `a` inside the buffer, `corrupt_data` applied to the
single position `rev8 a` replaces byte `a / 8` by its XOR with `0x80 >> (a mod 8)` and
leaves every other byte as it was. -/
theorem linearizer_flips_msb_first (data : List Nat) (a : Nat) (ha32 : a < 4294967296)
    (ha : a / 8 < data.length) (hb : TuCorrect.IsBytes data) :
    TuCorrect.corrupt_data data [TuCorrect.rev8 a] 1 =
      data.set (a / 8) (data.getD (a / 8) 0 ^^^ (128 >>> (a % 8))) := by
  have h1 : TuCorrect.rev8 a / 8 = a / 8 := by rw [TuCorrect.rev8_eq a ha32]; omega
  have h2 : TuCorrect.rev8 a &&& 7 = 7 - a % 8 := by
    rw [TuCorrect.and_seven, TuCorrect.rev8_eq a ha32]; omega
  have hx : data.getD (a / 8) 0 < 256 := by
    rw [List.getD_eq_getElem _ _ ha]; exact hb _ (List.getElem_mem ha)
  have h3 := TuCorrect.xor_mask_lt _ (TuCorrect.rev8 a) hx
  simp only [TuCorrect.corrupt_data, TuCorrect.flip_bit, Int.toNat_one, List.take_succ_cons,
    List.take_zero, List.foldl_cons, List.foldl_nil, h1]
  rw [Nat.mod_eq_of_lt h3, h2, TuCorrect.shift_mask _ (Nat.mod_lt _ (by norm_num))]

theorem linearizer_flips_msb_first_witness :
    TuCorrect.corrupt_data [0, 255] [TuCorrect.rev8 9] 1 =
      [0, 255].set (9 / 8) ([0, 255].getD (9 / 8) 0 ^^^ (128 >>> (9 % 8))) :=
  linearizer_flips_msb_first [0, 255] 9 (by decide) (by decide)
    (by unfold TuCorrect.IsBytes; decide)

/-- Claim C28: for a position `x < N = 8*len + ecc_bits` and a parity area of
`ecc_bytes ≥ ceil(ecc_bits/8)` bytes, the byte index `rev8 x / 8` that `corrupt_data`
touches is below `len + ecc_bytes`, although `rev8 x` itself may reach `N` or more. -/
theorem flipped_byte_in_buffer (len ecc_bits ecc_bytes x : Nat)
    (hN : 8 * len + ecc_bits ≤ 4294967296) (hx : x < 8 * len + ecc_bits)
    (hb : (ecc_bits + 7) / 8 ≤ ecc_bytes) :
    TuCorrect.rev8 x / 8 < len + ecc_bytes := by
  rw [TuCorrect.rev8_eq x (by omega)]
  omega

theorem flipped_byte_in_buffer_witness :
    TuCorrect.rev8 16 / 8 < 2 + 1 ∧ 8 * 2 + 1 ≤ TuCorrect.rev8 16 :=
  ⟨flipped_byte_in_buffer 2 1 1 16 (by decide) (by decide) (by decide), by decide⟩

namespace TuTool

theorem tmod_natCast (a : Nat) (b : Int) (hb : 0 < b) :
    0 ≤ Int.tmod a b ∧ Int.tmod a b < b := by
  have h0 : (0 : Int) ≤ a := Int.ofNat_nonneg a
  rw [Int.tmod_eq_emod h0 (le_of_lt hb)]
  exact ⟨Int.emod_nonneg _ (ne_of_gt hb), Int.emod_lt_of_pos _ hb⟩

theorem tdiv_pos_bound (a b : Int) (ha : 0 ≤ a) (hb : 0 < b) :
    b * Int.tdiv a b ≤ a ∧ a < b * Int.tdiv a b + b := by
  rw [Int.tdiv_eq_ediv ha (le_of_lt hb)]
  have h1 := Int.emod_add_ediv a b
  have h2 := Int.emod_nonneg a (ne_of_gt hb)
  have h3 := Int.emod_lt_of_pos a hb
  constructor <;> linarith

theorem random_params_range (m t : Int) (hm7 : 7 ≤ m) (hm15 : m ≤ 15) (ht1 : 1 ≤ t)
    (htm : t ≤ Int.tdiv (shl_one (m - 1) - 1) m) :
    t ≤ 2048 ∧ 0 < Int.tdiv (shl_one m - 1) 8 - Int.tdiv (m * t + 7) 8 ∧
      8 * (Int.tdiv (shl_one m - 1) 8 - Int.tdiv (m * t + 7) 8) + m * t ≤ shl_one m - 1 := by
  have a7 : shl_one (7 - 1) = 64 := by decide
  have b7 : shl_one 7 = 128 := by decide
  have a8 : shl_one (8 - 1) = 128 := by decide
  have b8 : shl_one 8 = 256 := by decide
  have a9 : shl_one (9 - 1) = 256 := by decide
  have b9 : shl_one 9 = 512 := by decide
  have a10 : shl_one (10 - 1) = 512 := by decide
  have b10 : shl_one 10 = 1024 := by decide
  have a11 : shl_one (11 - 1) = 1024 := by decide
  have b11 : shl_one 11 = 2048 := by decide
  have a12 : shl_one (12 - 1) = 2048 := by decide
  have b12 : shl_one 12 = 4096 := by decide
  have a13 : shl_one (13 - 1) = 4096 := by decide
  have b13 : shl_one 13 = 8192 := by decide
  have a14 : shl_one (14 - 1) = 8192 := by decide
  have b14 : shl_one 14 = 16384 := by decide
  have a15 : shl_one (15 - 1) = 16384 := by decide
  have b15 : shl_one 15 = 32768 := by decide
  have hcases : m = 7 ∨ m = 8 ∨ m = 9 ∨ m = 10 ∨ m = 11 ∨ m = 12 ∨ m = 13 ∨ m = 14 ∨ m = 15 := by
    omega
  rcases hcases with h | h | h | h | h | h | h | h | h <;> subst h <;>
    simp only [a7, b7, a8, b8, a9, b9, a10, b10, a11, b11, a12, b12, a13, b13, a14, b14, a15, b15] at htm ⊢ <;>
    (have k1 := tdiv_pos_bound _ _ (show (0 : Int) ≤ _ - 1 by norm_num) (by norm_num) |>.1 |> le_trans (Int.mul_le_mul_of_nonneg_left htm (by norm_num))
     rw [Int.tdiv_eq_ediv (by omega) (by omega), Int.tdiv_eq_ediv (by omega) (by omega)]
     omega)

end TuTool

/-- Claim C27: whatever the three `lrand48()` draws of tu_tool's `-r` option are, the
derived parameters satisfy `7 ≤ m ≤ 15`, `1 ≤ ncorrupt ≤ t ≤ 2048`, `len > 0` and
`8*len + m*t ≤ 2^m - 1`, and the configuration assertions of `main` pass. -/
theorem random_params_valid (r1 r2 r3 : Nat) :
    (7 ≤ (TuTool.random_params r1 r2 r3).1 ∧ (TuTool.random_params r1 r2 r3).1 ≤ 15) ∧
    (1 ≤ (TuTool.random_params r1 r2 r3).2.2.1 ∧
      (TuTool.random_params r1 r2 r3).2.2.1 ≤ (TuTool.random_params r1 r2 r3).2.1 ∧
      (TuTool.random_params r1 r2 r3).2.1 ≤ 2048) ∧
    0 < (TuTool.random_params r1 r2 r3).2.2.2 ∧
    8 * (TuTool.random_params r1 r2 r3).2.2.2 +
        (TuTool.random_params r1 r2 r3).1 * (TuTool.random_params r1 r2 r3).2.1 ≤
      2 ^ (TuTool.random_params r1 r2 r3).1.toNat - 1 ∧
    TuTool.main_asserts (TuTool.random_params r1 r2 r3).1 (TuTool.random_params r1 r2 r3).2.1
      (TuTool.random_params r1 r2 r3).2.2.2 = true := by
  obtain ⟨hm0, hm9⟩ := TuTool.tmod_natCast r1 9 (by norm_num)
  have hm7 : (7 : Int) ≤ 7 + Int.tmod r1 9 := by omega
  have hm15 : 7 + Int.tmod r1 9 ≤ (15 : Int) := by omega
  have htmax : 0 < Int.tdiv (TuTool.shl_one (7 + Int.tmod r1 9 - 1) - 1) (7 + Int.tmod r1 9) := by
    have hc : Int.tmod r1 9 = 0 ∨ Int.tmod r1 9 = 1 ∨ Int.tmod r1 9 = 2 ∨ Int.tmod r1 9 = 3 ∨
        Int.tmod r1 9 = 4 ∨ Int.tmod r1 9 = 5 ∨ Int.tmod r1 9 = 6 ∨ Int.tmod r1 9 = 7 ∨
        Int.tmod r1 9 = 8 := by omega
    rcases hc with h | h | h | h | h | h | h | h | h <;> rw [h] <;> decide
  obtain ⟨ht0, htm⟩ := TuTool.tmod_natCast r2 _ htmax
  have ht1 : (1 : Int) ≤ 1 + Int.tmod r2
      (Int.tdiv (TuTool.shl_one (7 + Int.tmod r1 9 - 1) - 1) (7 + Int.tmod r1 9)) := by omega
  obtain ⟨hc0, hct⟩ := TuTool.tmod_natCast r3 _ (lt_of_lt_of_le Int.zero_lt_one ht1)
  obtain ⟨h1, h2, h3⟩ := TuTool.random_params_range _ _ hm7 hm15 ht1 (by omega)
  have hpow : TuTool.shl_one (7 + Int.tmod r1 9) = 2 ^ (7 + Int.tmod r1 9).toNat := by
    simp [TuTool.shl_one, Nat.one_shiftLeft]
  simp only [TuTool.random_params, TuTool.main_asserts, TuTool.MAX_ERRORS]
  refine ⟨⟨hm7, hm15⟩, ⟨by omega, by omega, h1⟩, h2, by rw [← hpow]; exact h3, ?_⟩
  rw [if_neg (ne_of_gt h2)]
  simp only [decide_eq_true_eq]
  exact ⟨⟨by omega, hm15⟩, ⟨by omega, h1⟩, h2, h3⟩

namespace TuBench

theorem spread_step (a b i : Nat) (hb : 0 < b) (hab : b ≤ a) :
    i * a / b + 1 ≤ (i + 1) * a / b := by
  have h1 : i * a + b ≤ (i + 1) * a := by rw [Nat.add_mul, Nat.one_mul]; omega
  calc i * a / b + 1 = (i * a + b) / b := (Nat.add_div_right _ hb).symm
    _ ≤ (i + 1) * a / b := Nat.div_le_div_right h1

theorem spread_lt (a b : Nat) (hb : 0 < b) (hab : b ≤ a) (i j : Nat) (hij : i < j) :
    i * a / b < j * a / b := by
  have h1 := spread_step a b i hb hab
  have h2 : (i + 1) * a / b ≤ j * a / b :=
    Nat.div_le_div_right (Nat.mul_le_mul_right _ hij)
  omega

theorem calibrate_pre_eq (len ecc_bits t : Nat) (ht : 2 ≤ t) (hN : t ≤ 8 * len + ecc_bits)
    (hov : (t - 1) * (8 * len + ecc_bits - 1) < 4294967296) :
    calibrate_pre len ecc_bits t =
      (List.range t).map (fun i => i * (8 * len + ecc_bits - 1) / (t - 1)) := by
  have h0 : 8 * len + ecc_bits - 1 < 4294967296 := by
    have : 1 * (8 * len + ecc_bits - 1) ≤ (t - 1) * (8 * len + ecc_bits - 1) :=
      Nat.mul_le_mul_right _ (by omega)
    omega
  have h1 : (8 * len + ecc_bits + 4294967296 - 1) % 4294967296 = 8 * len + ecc_bits - 1 := by
    omega
  unfold calibrate_pre
  simp only [h1, ge_iff_le, ht, if_true]
  apply List.map_congr_left
  intro i hi
  have hi2 : i < t := List.mem_range.1 hi
  have h2 : i * (8 * len + ecc_bits - 1) ≤ (t - 1) * (8 * len + ecc_bits - 1) :=
    Nat.mul_le_mul_right _ (by omega)
  rw [Nat.mod_eq_of_lt (by omega)]

theorem calibrate_pre_lt (len ecc_bits t : Nat) (ht : 2 ≤ t) (hN : t ≤ 8 * len + ecc_bits)
    (hov : (t - 1) * (8 * len + ecc_bits - 1) < 4294967296) :
    ∀ x ∈ calibrate_pre len ecc_bits t, x < 8 * len + ecc_bits := by
  intro x hx
  rw [calibrate_pre_eq len ecc_bits t ht hN hov] at hx
  obtain ⟨i, hi, rfl⟩ := List.mem_map.1 hx
  have hi2 : i < t := List.mem_range.1 hi
  have h2 : i * (8 * len + ecc_bits - 1) ≤ (t - 1) * (8 * len + ecc_bits - 1) :=
    Nat.mul_le_mul_right _ (by omega)
  have h3 : i * (8 * len + ecc_bits - 1) / (t - 1) ≤ 8 * len + ecc_bits - 1 := by
    calc i * (8 * len + ecc_bits - 1) / (t - 1)
        ≤ (t - 1) * (8 * len + ecc_bits - 1) / (t - 1) := Nat.div_le_div_right h2
      _ = 8 * len + ecc_bits - 1 := Nat.mul_div_cancel_left _ (by omega)
  omega

theorem calibrate_pre_sorted (len ecc_bits t : Nat) (ht : 2 ≤ t) (hN : t ≤ 8 * len + ecc_bits)
    (hov : (t - 1) * (8 * len + ecc_bits - 1) < 4294967296) :
    (calibrate_pre len ecc_bits t).Sorted (· < ·) := by
  rw [calibrate_pre_eq len ecc_bits t ht hN hov]
  unfold List.Sorted
  rw [List.pairwise_map]
  exact (List.pairwise_lt_range t).imp
    (fun {i j} hij => spread_lt _ _ (by omega) (by omega) i j hij)

theorem calibrate_vec_pre (len ecc_bits t : Nat) (ht : 2 ≤ t) (hN : t ≤ 8 * len + ecc_bits)
    (hov : (t - 1) * (8 * len + ecc_bits - 1) < 4294967296) :
    (calibrate_vec len ecc_bits t).map TuCorrect.rev8 = calibrate_pre len ecc_bits t := by
  have hlt := calibrate_pre_lt len ecc_bits t ht hN hov
  have h0 : 8 * len + ecc_bits - 1 < 4294967296 := by
    have : 1 * (8 * len + ecc_bits - 1) ≤ (t - 1) * (8 * len + ecc_bits - 1) :=
      Nat.mul_le_mul_right _ (by omega)
    omega
  unfold calibrate_vec
  rw [List.map_map]
  conv_rhs => rw [← List.map_id (calibrate_pre len ecc_bits t)]
  apply List.map_congr_left
  intro x hx
  have := hlt x hx
  simp only [Function.comp, id]
  exact TuCorrect.rev8_rev8 x (by omega)

end TuBench

/-- Claim C23: the sample test case of `calibrate` spreads `t` positions over the
codeword. For `t ≥ 2` and `N = 8*len + ecc_bits ≥ t` (products fitting 32 bits),
`vec[i] = rev8 (i*(N-1)/(t-1))`, the entries are pairwise distinct, and their `rev8`
pre-images increase strictly from 0 to `N-1`, staying below `N`; for `t = 1` the single
position is `rev8 0`. -/
theorem calibration_spread (len ecc_bits t : Nat) (hN : t ≤ 8 * len + ecc_bits)
    (hov : (t - 1) * (8 * len + ecc_bits - 1) < 4294967296) :
    (2 ≤ t →
      (TuBench.calibrate_vec len ecc_bits t).length = t ∧
      (∀ i, i < t → (TuBench.calibrate_vec len ecc_bits t).getD i 0 =
        TuCorrect.rev8 (i * (8 * len + ecc_bits - 1) / (t - 1))) ∧
      (TuBench.calibrate_vec len ecc_bits t).Nodup ∧
      ((TuBench.calibrate_vec len ecc_bits t).map TuCorrect.rev8).Sorted (· < ·) ∧
      ((TuBench.calibrate_vec len ecc_bits t).map TuCorrect.rev8).head? = some 0 ∧
      ((TuBench.calibrate_vec len ecc_bits t).map TuCorrect.rev8).getLast? =
        some (8 * len + ecc_bits - 1) ∧
      ∀ x ∈ (TuBench.calibrate_vec len ecc_bits t).map TuCorrect.rev8,
        x < 8 * len + ecc_bits) ∧
    (t = 1 → TuBench.calibrate_vec len ecc_bits t = [TuCorrect.rev8 0]) := by
  constructor
  · intro ht
    have hpre := TuBench.calibrate_vec_pre len ecc_bits t ht hN hov
    have hsorted := TuBench.calibrate_pre_sorted len ecc_bits t ht hN hov
    have heq := TuBench.calibrate_pre_eq len ecc_bits t ht hN hov
    have hlen : (TuBench.calibrate_vec len ecc_bits t).length = t := by
      simp [TuBench.calibrate_vec, TuBench.calibrate_pre]
    refine ⟨hlen, ?_, ?_, ?_, ?_, ?_, ?_⟩
    · intro i hi
      rw [List.getD_eq_getElem _ _ (by rw [hlen]; exact hi)]
      simp only [TuBench.calibrate_vec, heq, List.getElem_map, List.getElem_range]
    · have hnd : ((TuBench.calibrate_vec len ecc_bits t).map TuCorrect.rev8).Nodup := by
        rw [hpre]; exact hsorted.nodup
      exact List.Nodup.of_map _ hnd
    · rw [hpre]; exact hsorted
    · rw [hpre, heq]
      obtain ⟨k, rfl⟩ : ∃ k, t = k + 1 := ⟨t - 1, by omega⟩
      simp [List.range_succ_eq_map]
    · rw [hpre, heq]
      obtain ⟨k, rfl⟩ : ∃ k, t = k + 1 := ⟨t - 1, by omega⟩
      rw [List.range_succ, List.map_append]
      simp only [List.map_cons, List.map_nil, Nat.add_sub_cancel]
      rw [List.getLast?_append_cons, List.getLast?_singleton]
      rw [Nat.mul_div_cancel_left _ (by omega)]
    · rw [hpre]; exact TuBench.calibrate_pre_lt len ecc_bits t ht hN hov
  · intro ht
    subst ht
    simp [TuBench.calibrate_vec, TuBench.calibrate_pre, List.range_succ]

theorem calibration_spread_witness :
    (2 ≤ 4 →
      (TuBench.calibrate_vec 8 21 4).length = 4 ∧
      (∀ i, i < 4 → (TuBench.calibrate_vec 8 21 4).getD i 0 =
        TuCorrect.rev8 (i * (8 * 8 + 21 - 1) / (4 - 1))) ∧
      (TuBench.calibrate_vec 8 21 4).Nodup ∧
      ((TuBench.calibrate_vec 8 21 4).map TuCorrect.rev8).Sorted (· < ·) ∧
      ((TuBench.calibrate_vec 8 21 4).map TuCorrect.rev8).head? = some 0 ∧
      ((TuBench.calibrate_vec 8 21 4).map TuCorrect.rev8).getLast? = some (8 * 8 + 21 - 1) ∧
      ∀ x ∈ (TuBench.calibrate_vec 8 21 4).map TuCorrect.rev8, x < 8 * 8 + 21) ∧
    (4 = 1 → TuBench.calibrate_vec 8 21 4 = [TuCorrect.rev8 0]) :=
  calibration_spread 8 21 4 (by decide) (by decide)

/-! ## Calibration of the iteration count -/

namespace TuBench

theorem calibrate_niter_zero : calibrate_niter 0 = some 1 := by
  simp [calibrate_niter]

theorem calibrate_niter_pos (d : ℚ) (hd : 0 < d) (hfit : 1000000 < 2147483648 * d) :
    calibrate_niter d =
      some (if ⌊(1000000 : ℚ) / d⌋ = 0 ∨ ⌊(1000000 : ℚ) / d⌋ > 100000 then 1
        else ⌊(1000000 : ℚ) / d⌋) ∧ 0 ≤ ⌊(1000000 : ℚ) / d⌋ := by
  have hq0 : (0 : ℚ) ≤ 1000000 / d := by positivity
  have hq1 : (1000000 : ℚ) / d < 2147483648 := by
    rw [div_lt_iff₀ hd]; exact hfit
  have hf0 : 0 ≤ ⌊(1000000 : ℚ) / d⌋ := Int.floor_nonneg.2 hq0
  have hf1 : ⌊(1000000 : ℚ) / d⌋ < 2147483648 := by
    have : ((⌊(1000000 : ℚ) / d⌋ : Int) : ℚ) < ((2147483648 : Int) : ℚ) :=
      lt_of_le_of_lt (Int.floor_le _) (by simpa using hq1)
    exact_mod_cast this
  refine ⟨?_, hf0⟩
  have hne : d ≠ 0 := ne_of_gt hd
  have hcast : (((MIN_ITER_US * 100 : Int) : ℚ)) = 1000000 := by norm_num [MIN_ITER_US]
  unfold calibrate_niter
  simp only [hcast, hne, ne_eq, not_false_eq_true, if_true]
  rw [if_neg (by omega)]

theorem calibrate_niter_neg (d : ℚ) (hd : d < 0) (hfit : 1000000 < 2147483648 * -d) :
    calibrate_niter d = some ⌊(1000000 : ℚ) / d⌋ ∧ ⌊(1000000 : ℚ) / d⌋ < 0 := by
  have hq0 : (1000000 : ℚ) / d < 0 := div_neg_of_pos_of_neg (by norm_num) hd
  have hq1 : (-2147483648 : ℚ) ≤ 1000000 / d := by
    rw [le_div_iff_of_neg hd]; linarith
  have hf0 : ⌊(1000000 : ℚ) / d⌋ < 0 := by
    have : ((⌊(1000000 : ℚ) / d⌋ : Int) : ℚ) < ((0 : Int) : ℚ) :=
      lt_of_le_of_lt (Int.floor_le _) (by simpa using hq0)
    exact_mod_cast this
  have hf1 : -2147483648 ≤ ⌊(1000000 : ℚ) / d⌋ := by
    rw [Int.le_floor]; simpa using hq1
  refine ⟨?_, hf0⟩
  have hne : d ≠ 0 := ne_of_lt hd
  have hcast : (((MIN_ITER_US * 100 : Int) : ℚ)) = 1000000 := by norm_num [MIN_ITER_US]
  unfold calibrate_niter
  simp only [hcast, hne, ne_eq, not_false_eq_true, if_true]
  rw [if_neg (by omega), if_neg (by omega)]

end TuBench

/-- Claim C21, the part that fails: a negative measured cost is not replaced by 1; the
cost `d = -1` gives the iteration count `-1000000`. -/
theorem negative_cost_negative_niter :
    TuBench.calibrate_niter (-1) = some (-1000000) ∧ ¬ ((1 : Int) ≤ -1000000) := by
  decide!

/-- Claim C21, amended: for every measured cost `d` whose quotient `10^6 / d` fits an
`int`, `calibrate` yields `1 ≤ niter ≤ 100000` when `d ≥ 0`, with `niter = 1` when
`d = 0`; a negative `d` yields the negative count `floor (10^6 / d)`. -/
theorem calibrate_niter_range (d : ℚ) (hfit : d = 0 ∨ 1000000 < 2147483648 * |d|) :
    ∃ n : Int, TuBench.calibrate_niter d = some n ∧ (0 ≤ d → 1 ≤ n ∧ n ≤ 100000) ∧
      (d = 0 → n = 1) ∧ (d < 0 → n = ⌊(1000000 : ℚ) / d⌋ ∧ n < 0) := by
  rcases lt_trichotomy d 0 with hneg | h0 | hpos
  · have hfit2 : 1000000 < 2147483648 * -d := by
      rcases hfit with h | h
      · exact absurd h (ne_of_lt hneg)
      · rwa [abs_of_neg hneg] at h
    obtain ⟨h1, h2⟩ := TuBench.calibrate_niter_neg d hneg hfit2
    exact ⟨_, h1, fun h => absurd hneg (not_lt.2 h), fun h => absurd h (ne_of_lt hneg),
      fun _ => ⟨rfl, h2⟩⟩
  · subst h0
    exact ⟨1, TuBench.calibrate_niter_zero, fun _ => ⟨by decide, by decide⟩, fun _ => rfl,
      fun h => absurd h (lt_irrefl _)⟩
  · have hfit2 : 1000000 < 2147483648 * d := by
      rcases hfit with h | h
      · exact absurd h (ne_of_gt hpos)
      · rwa [abs_of_pos hpos] at h
    obtain ⟨h1, h2⟩ := TuBench.calibrate_niter_pos d hpos hfit2
    refine ⟨_, h1, fun _ => ⟨?_, ?_⟩, fun h => absurd h (ne_of_gt hpos),
      fun h => absurd hpos (not_lt.2 (le_of_lt h))⟩
    · split_ifs with hc
      · decide
      · omega
    · split_ifs with hc
      · decide
      · omega

theorem calibrate_niter_range_witness :
    ∃ n : Int, TuBench.calibrate_niter 300 = some n ∧ ((0 : ℚ) ≤ 300 → 1 ≤ n ∧ n ≤ 100000) ∧
      ((300 : ℚ) = 0 → n = 1) ∧ ((300 : ℚ) < 0 → n = ⌊(1000000 : ℚ) / 300⌋ ∧ n < 0) :=
  calibrate_niter_range 300 (Or.inr (by norm_num [abs_of_pos]))

/-- Claim C22, the part that fails: the floor makes the block shorter than the
threshold (`d = 300` gives 3333 iterations of 3 microseconds, 9999 in all), and the cap
makes it much shorter for a fast operation (`d = 5` gives one iteration of 0.05). -/
theorem block_below_threshold :
    (TuBench.calibrate_niter 300 = some 3333 ∧
      ((3333 : Int) : ℚ) * (300 / 100) < (TuBench.MIN_ITER_US : ℚ)) ∧
    (TuBench.calibrate_niter 5 = some 1 ∧
      ((1 : Int) : ℚ) * (5 / 100) < (TuBench.MIN_ITER_US : ℚ)) := by
  refine ⟨⟨by decide!, ?_⟩, ⟨by decide!, ?_⟩⟩ <;> norm_num [TuBench.MIN_ITER_US]

/-- Claim C22, amended: for every measured cost `d ≥ 10` (at least 0.1 microsecond per
iteration) the block of `niter` iterations lasts more than `MIN_ITER_US` minus the cost
`d / 100` of one iteration, and at least `MIN_ITER_US` when `d` divides `10^6` exactly
or exceeds it. -/
theorem block_near_threshold (d : ℚ) (hd : 10 ≤ d) :
    ∃ n : Int, TuBench.calibrate_niter d = some n ∧
      (TuBench.MIN_ITER_US : ℚ) - d / 100 < (n : ℚ) * (d / 100) ∧
      ((1000000 ≤ d ∨ ∃ k : Int, (k : ℚ) * d = 1000000) →
        (TuBench.MIN_ITER_US : ℚ) ≤ (n : ℚ) * (d / 100)) := by
  have hpos : (0 : ℚ) < d := by linarith
  obtain ⟨h1, h2⟩ := TuBench.calibrate_niter_pos d hpos (by linarith)
  have hq : (1000000 : ℚ) / d ≤ 100000 := by
    rw [div_le_iff₀ hpos]; linarith
  have hf : ⌊(1000000 : ℚ) / d⌋ ≤ 100000 := by
    have : ((⌊(1000000 : ℚ) / d⌋ : Int) : ℚ) ≤ ((100000 : Int) : ℚ) :=
      le_trans (Int.floor_le _) (by simpa using hq)
    exact_mod_cast this
  have hfl : (1000000 : ℚ) / d < (⌊(1000000 : ℚ) / d⌋ : ℚ) + 1 := Int.lt_floor_add_one _
  have hfl2 : ((⌊(1000000 : ℚ) / d⌋ : Int) : ℚ) ≤ 1000000 / d := Int.floor_le _
  have hM : (TuBench.MIN_ITER_US : ℚ) = 10000 := by norm_num [TuBench.MIN_ITER_US]
  have hmul : (1000000 : ℚ) / d * (d / 100) = 10000 := by
    field_simp; norm_num
  have hd100 : (0 : ℚ) < d / 100 := by positivity
  by_cases hz : ⌊(1000000 : ℚ) / d⌋ = 0
  · rw [if_pos (Or.inl hz)] at h1
    rw [hz] at hfl
    have hbig : (1000000 : ℚ) < d := by
      have := (div_lt_iff₀ hpos).1 (by simpa using hfl)
      linarith
    refine ⟨1, h1, ?_, fun _ => ?_⟩
    · rw [hM]; push_cast; linarith
    · rw [hM]; push_cast; linarith
  · rw [if_neg (by omega)] at h1
    refine ⟨_, h1, ?_, ?_⟩
    · rw [hM]
      have : ((1000000 : ℚ) / d - 1) * (d / 100) < (⌊(1000000 : ℚ) / d⌋ : ℚ) * (d / 100) :=
        mul_lt_mul_of_pos_right (by linarith) hd100
      linarith
    · intro hor
      have hkq : ((⌊(1000000 : ℚ) / d⌋ : Int) : ℚ) = 1000000 / d := by
        rcases hor with hbig | ⟨k, hk⟩
        · have hq1 : (1000000 : ℚ) / d ≤ 1 := by rw [div_le_iff₀ hpos]; linarith
          have hge : (1 : ℚ) ≤ ((⌊(1000000 : ℚ) / d⌋ : Int) : ℚ) := by
            have : (1 : Int) ≤ ⌊(1000000 : ℚ) / d⌋ := by omega
            exact_mod_cast this
          linarith
        · have hkq : (1000000 : ℚ) / d = k := by
            rw [div_eq_iff (ne_of_gt hpos)]; exact hk.symm
          rw [hkq, Int.floor_intCast]
      rw [hM, hkq, hmul]

theorem block_near_threshold_witness :
    ∃ n : Int, TuBench.calibrate_niter 300 = some n ∧
      (TuBench.MIN_ITER_US : ℚ) - 300 / 100 < (n : ℚ) * (300 / 100) ∧
      ((1000000 ≤ (300 : ℚ) ∨ ∃ k : Int, (k : ℚ) * 300 = 1000000) →
        (TuBench.MIN_ITER_US : ℚ) ≤ (n : ℚ) * (300 / 100)) :=
  block_near_threshold 300 (by norm_num)

/-! ## Command line of the correction test -/

namespace TuCorrect

theorem main_calls_order_given (mode : Mode) (tmax a3 a4 : Nat) :
    ∀ c ∈ main_calls 4 mode tmax a3 a4, c.order = a3 := by
  intro c hc
  cases mode <;>
    simp [main_calls, loop_range, List.mem_flatMap] at hc
  · obtain ⟨m, _, _, k, _, rfl⟩ := hc
    rfl
  · obtain ⟨_, rfl⟩ := hc
    rfl
  · obtain ⟨m, _, _, k, _, rfl⟩ := hc
    rfl

theorem main_calls_order_absent (mode : Mode) (tmax a3 a4 : Nat) :
    ∀ c ∈ main_calls 3 mode tmax a3 a4, 7 ≤ c.order ∧ c.order ≤ 15 := by
  intro c hc
  cases mode <;>
    simp [main_calls, loop_range, List.mem_flatMap] at hc
  · obtain ⟨m, hm, t, _, _, k, _, rfl⟩ := hc
    simp only [TestCall.order]; omega
  · obtain ⟨m, hm, _, rfl⟩ := hc
    simp only [TestCall.order]; omega
  · obtain ⟨m, hm, t, _, _, k, _, rfl⟩ := hc
    simp only [TestCall.order]; omega

end TuCorrect

/-- Claim C24, where the code departs from its usage text: with the command line
`rand tmax m niter` (`argc = 5`) the argument `m` is never read, and every field order
of `7 .. 15` that passes the length guard is tested with `niter` iterations; for
`rand 4 9 1000` these are all nine orders instead of `m = 9` alone. -/
theorem rand_niter_ignores_order :
    (∀ tmax a3 a4 : Nat, TuCorrect.main_calls 5 TuCorrect.Mode.rand tmax a3 a4 =
      TuCorrect.main_calls 5 TuCorrect.Mode.rand tmax 0 a4) ∧
    TuCorrect.main_calls 5 TuCorrect.Mode.rand 4 9 1000 =
      [TuCorrect.TestCall.errors_random 7 4 1000, TuCorrect.TestCall.errors_random 8 4 1000,
       TuCorrect.TestCall.errors_random 9 4 1000, TuCorrect.TestCall.errors_random 10 4 1000,
       TuCorrect.TestCall.errors_random 11 4 1000, TuCorrect.TestCall.errors_random 12 4 1000,
       TuCorrect.TestCall.errors_random 13 4 1000, TuCorrect.TestCall.errors_random 14 4 1000,
       TuCorrect.TestCall.errors_random 15 4 1000] ∧
    TuCorrect.main_calls 4 TuCorrect.Mode.rand 4 9 1000 =
      [TuCorrect.TestCall.errors_random 9 4 TuCorrect.RAND_ITER] := by
  refine ⟨fun tmax a3 a4 => ?_, by decide, by decide⟩
  simp [TuCorrect.main_calls]

/-! ## The primitive polynomial search -/

namespace Prim

open Polynomial

theorem loop_spec (poly : Nat) : ∀ (n i x : Nat),
    is_primitive_loop poly (1 <<< 13) n i x = 1 ↔
      (∀ j, j < n → i + j ≠ 0 → TuGf.multiply_ak poly 13 x j ≠ 1) ∧
        TuGf.multiply_ak poly 13 x n = 1 := by
  intro n
  induction n with
  | zero =>
    intro i x
    simp only [is_primitive_loop, TuGf.multiply_ak]
    constructor
    · intro h
      refine ⟨fun j hj => absurd hj (Nat.not_lt_zero j), ?_⟩
      by_contra hx
      rw [if_neg hx] at h
      exact absurd h (by decide)
    · rintro ⟨_, h⟩
      rw [if_pos h]
  | succ n ih =>
    intro i x
    rw [is_primitive_loop]
    by_cases hc : i ≠ 0 ∧ x = 1
    · rw [if_pos hc]
      constructor
      · intro h; exact absurd h (by decide)
      · rintro ⟨h, _⟩
        exact absurd hc.2 (h 0 (Nat.succ_pos n) (by omega))
    · rw [if_neg hc]
      have hstep : (if (x <<< 1) % 4294967296 &&& 1 <<< 13 ≠ 0
          then (x <<< 1) % 4294967296 ^^^ poly else (x <<< 1) % 4294967296) =
          TuGf.multiply_ak_step poly 13 x := rfl
      simp only [hstep]
      rw [ih (i + 1) (TuGf.multiply_ak_step poly 13 x)]
      constructor
      · rintro ⟨h1, h2⟩
        refine ⟨fun j hj hij => ?_, h2⟩
        cases j with
        | zero =>
          intro hx
          exact hc ⟨by omega, hx⟩
        | succ j => exact h1 j (by omega) (by omega)
      · rintro ⟨h1, h2⟩
        exact ⟨fun j hj _ => h1 (j + 1) (by omega) (by omega), h2⟩

theorem is_primitive_iff (poly : Nat) :
    is_primitive poly = 1 ↔
      (∀ j, 0 < j → j < 8191 → TuGf.multiply_ak poly 13 1 j ≠ 1) ∧
        TuGf.multiply_ak poly 13 1 8191 = 1 := by
  have hN : N = 8191 := by decide
  unfold is_primitive
  rw [hN, show M = 13 from rfl, loop_spec poly 8191 0 1]
  constructor
  · rintro ⟨h1, h2⟩
    exact ⟨fun j hj0 hj => h1 j hj (by omega), h2⟩
  · rintro ⟨h1, h2⟩
    exact ⟨fun j hj hj0 => h1 j (by omega) hj, h2⟩

theorem toPoly_one : TuGf.toPoly 1 = 1 := by
  have h := TuGf.toPoly_two_pow 0
  simpa using h

theorem toPoly_orbit (poly : Nat) (hlo : 2 ^ 13 ≤ poly) (hhi : poly < 2 ^ 14) (j : Nat) :
    TuGf.toPoly (TuGf.multiply_ak poly 13 1 j) = X ^ j %ₘ TuGf.toPoly poly := by
  obtain ⟨hmon, hdeg⟩ := TuGf.toPoly_monic poly 13 hlo hhi
  have hlt := TuGf.ak_lt_deg poly 13 (by decide) (by decide) hlo hhi j 1 (by decide)
  have hd := TuGf.toPoly_ak_dvd poly 13 (by decide) (by decide) hlo hhi j 1 (by decide)
  rw [toPoly_one, mul_one] at hd
  symm
  apply TuGf.modByMonic_eq_of_dvd _ _ _ hmon hd
  rw [Polynomial.degree_eq_natDegree hmon.ne_zero, hdeg]
  exact TuGf.toPoly_degree_lt _ 13 hlt

theorem toPoly_eq_one (a : Nat) : TuGf.toPoly a = 1 ↔ a = 1 := by
  constructor
  · intro h
    rw [← toPoly_one] at h
    exact TuGf.toPoly_inj a 1 h
  · intro h
    rw [h, toPoly_one]

end Prim

/-- Claim C29: for `2^13 ≤ poly < 2^14`, `is_primitive poly` returns 1 exactly when `X`
has multiplicative order `8191` modulo the polynomial of `poly` over GF(2): the
remainder of `X^8191` is 1 and the remainder of `X^i` differs from 1 for `0 < i < 8191`. -/
theorem is_primitive_iff_order (poly : Nat) (hlo : 2 ^ 13 ≤ poly) (hhi : poly < 2 ^ 14) :
    Prim.is_primitive poly = 1 ↔
      ((Polynomial.X : Polynomial (ZMod 2)) ^ 8191 %ₘ TuGf.toPoly poly = 1 ∧
        ∀ i, 0 < i → i < 8191 →
          (Polynomial.X : Polynomial (ZMod 2)) ^ i %ₘ TuGf.toPoly poly ≠ 1) := by
  rw [Prim.is_primitive_iff]
  constructor
  · rintro ⟨h1, h2⟩
    refine ⟨?_, fun i hi0 hi => ?_⟩
    · rw [← Prim.toPoly_orbit poly hlo hhi, h2, Prim.toPoly_one]
    · rw [← Prim.toPoly_orbit poly hlo hhi]
      intro h
      exact h1 i hi0 hi ((Prim.toPoly_eq_one _).1 h)
  · rintro ⟨h1, h2⟩
    refine ⟨fun j hj0 hj h => ?_, ?_⟩
    · apply h2 j hj0 hj
      rw [← Prim.toPoly_orbit poly hlo hhi, h, Prim.toPoly_one]
    · rw [← Prim.toPoly_orbit poly hlo hhi] at h1
      exact (Prim.toPoly_eq_one _).1 h1

theorem is_primitive_iff_order_witness :
    Prim.is_primitive 0x201b = 1 ↔
      ((Polynomial.X : Polynomial (ZMod 2)) ^ 8191 %ₘ TuGf.toPoly 0x201b = 1 ∧
        ∀ i, 0 < i → i < 8191 →
          (Polynomial.X : Polynomial (ZMod 2)) ^ i %ₘ TuGf.toPoly 0x201b ≠ 1) :=
  is_primitive_iff_order 0x201b (by decide) (by decide)

namespace Prim

open Polynomial

theorem sum_map_range {R : Type} [AddCommMonoid R] (f : Nat → R) (n : Nat) :
    ((List.range n).map f).sum = ∑ j ∈ Finset.range n, f j := by
  induction n with
  | zero => simp
  | succ n ih => rw [List.range_succ, List.map_append, List.sum_append, ih,
      Finset.sum_range_succ]; simp

theorem sum_bits_extend (x K : Nat) (f : Nat → ZMod 2) (hK : x < 2 ^ K) (L : Nat) (hL : K ≤ L) :
    ∑ j ∈ Finset.range L, (if x.testBit j then f j else 0) =
      ∑ j ∈ Finset.range K, (if x.testBit j then f j else 0) := by
  symm
  apply Finset.sum_subset
  · intro j hj
    rw [Finset.mem_range] at hj ⊢
    omega
  · intro j _ hj
    rw [Finset.mem_range] at hj
    rw [TuGf.testBit_ge x K j hK (by omega)]
    simp

theorem eval_one_toPoly (x : Nat) (hx : x < 4294967296) :
    (TuGf.toPoly x).eval 1 = (popcount x : ZMod 2) := by
  have h1 : (TuGf.toPoly x).eval 1 =
      ∑ j ∈ Finset.range (x + 1), (if x.testBit j then (1 : ZMod 2) else 0) := by
    unfold TuGf.toPoly
    rw [Polynomial.eval_finset_sum]
    apply Finset.sum_congr rfl
    intro j _
    split_ifs <;> simp
  have h2 : (popcount x : ZMod 2) =
      ∑ j ∈ Finset.range 32, (if x.testBit j then (1 : ZMod 2) else 0) := by
    unfold popcount
    rw [sum_map_range]
    push_cast
    apply Finset.sum_congr rfl
    intro j _
    split_ifs <;> simp
  have hx1 : x < 2 ^ (x + 1) := Nat.lt_of_lt_of_le (Nat.lt_two_pow x) (Nat.pow_le_pow_right (by norm_num) (Nat.le_succ x))
  rw [h1, h2]
  rw [← sum_bits_extend x (x + 1) (fun _ => 1) hx1 (max (x + 1) 32) (le_max_left _ _),
    ← sum_bits_extend x 32 (fun _ => 1) (by norm_num; exact hx) (max (x + 1) 32) (le_max_right _ _)]

theorem X_dvd_toPoly (x : Nat) : (X : Polynomial (ZMod 2)) ∣ TuGf.toPoly x ↔ x % 2 = 0 := by
  rw [Polynomial.X_dvd_iff, TuGf.toPoly_coeff, Nat.testBit_zero]
  by_cases h : x % 2 = 1
  · simp [h]
  · have : x % 2 = 0 := by omega
    simp [this]

theorem X_add_one_dvd (f : Polynomial (ZMod 2)) :
    (X + 1 : Polynomial (ZMod 2)) ∣ f ↔ f.eval 1 = 0 := by
  have h : (X + 1 : Polynomial (ZMod 2)) = X - C 1 := by
    rw [sub_eq_add_neg, ← Polynomial.C_neg]
    have : (-1 : ZMod 2) = 1 := by decide
    rw [this, Polynomial.C_1]
  rw [h, Polynomial.dvd_iff_isRoot]
  rfl

theorem candidate_eq (i : Nat) (hi : i < 2 ^ 13) : candidate i = i ^^^ 2 ^ 13 := by
  unfold candidate
  rw [show (1 <<< M) = 2 ^ 13 from by decide]
  apply Nat.eq_of_testBit_eq
  intro j
  rw [Nat.testBit_or, Nat.testBit_xor, Nat.testBit_two_pow]
  by_cases hj : 13 = j
  · subst hj
    rw [Nat.testBit_lt_two_pow hi]; simp
  · simp [hj]

theorem candidate_range (i : Nat) (hi : i < 2 ^ 13) :
    2 ^ 13 ≤ candidate i ∧ candidate i < 2 ^ 14 ∧ candidate i % 2 = i % 2 := by
  have h1 : candidate i = 2 ^ 13 + i := by
    unfold candidate
    rw [show (1 <<< M) = 2 ^ 13 * 1 from by decide, Nat.lor_comm]
    exact (Nat.mul_add_lt_is_or hi 1).symm
  rw [h1]
  omega

theorem eval_one_candidate (i : Nat) (hi : i < 2 ^ 13) :
    (TuGf.toPoly (candidate i)).eval 1 = (popcount i : ZMod 2) + 1 := by
  rw [candidate_eq i hi, TuGf.toPoly_xor, TuGf.toPoly_two_pow, Polynomial.eval_add,
    eval_one_toPoly i (by omega), Polynomial.eval_pow, Polynomial.eval_X, one_pow]

theorem main_skips_iff (i : Nat) :
    main_skips i = true ↔ popcount i % 2 = 1 ∨ i % 2 = 0 := by
  unfold main_skips
  rw [Nat.and_one_is_mod, Nat.and_one_is_mod]
  simp only [Bool.or_eq_true, bne_iff_ne, ne_eq, beq_iff_eq]
  omega

theorem natCast_zmod_two (n : Nat) : ((n : ZMod 2) + 1 = 0) ↔ n % 2 = 1 := by
  have h : ((n : ZMod 2) + 1) = ((n + 1 : Nat) : ZMod 2) := by push_cast; rfl
  rw [h, ZMod.natCast_zmod_eq_zero_iff_dvd]
  omega

end Prim

namespace Prim

open Polynomial

theorem even_not_primitive (poly : Nat) (hlo : 2 ^ 13 ≤ poly) (hhi : poly < 2 ^ 14)
    (heven : poly % 2 = 0) : is_primitive poly ≠ 1 := by
  intro h
  obtain ⟨_, h1⟩ := (is_primitive_iff poly).1 h
  have hlt := TuGf.ak_lt_deg poly 13 (by decide) (by decide) hlo hhi 8190 1 (by decide)
  have h2 : TuGf.multiply_ak poly 13 1 8191 =
      TuGf.multiply_ak_step poly 13 (TuGf.multiply_ak poly 13 1 8190) := by
    rw [show (8191 : Nat) = 8190 + 1 from rfl, TuGf.ak_add]
    rfl
  have h3 := TuGf.step_testBit poly 13 (TuGf.multiply_ak poly 13 1 8190) 0 (by decide)
    (by omega)
  rw [← h2, h1] at h3
  have hp : poly.testBit 0 = false := by
    rw [Nat.testBit_zero]; simp [heven]
  rw [hp] at h3
  simp at h3

theorem parity_not_primitive (poly : Nat) (hlo : 2 ^ 13 ≤ poly) (hhi : poly < 2 ^ 14)
    (hodd : poly % 2 = 1) (hroot : (TuGf.toPoly poly).eval 1 = 0) : is_primitive poly ≠ 1 := by
  intro h
  obtain ⟨h0, h1⟩ := (is_primitive_iff poly).1 h
  have hprim : TuGf.Primitive poly 13 :=
    ⟨⟨by decide, by decide, hlo, hhi, hodd⟩, h1, fun k hk1 hk2 => h0 k hk1 hk2⟩
  obtain ⟨a, _, ha⟩ := TuGf.orbit_surj hprim 3 (by decide) (by decide)
  have h2 := toPoly_orbit poly hlo hhi a
  rw [ha] at h2
  have h3 := Polynomial.modByMonic_add_div ((X : Polynomial (ZMod 2)) ^ a)
    (TuGf.toPoly_monic poly 13 hlo hhi).1
  rw [← h2] at h3
  have h4 := congrArg (Polynomial.eval 1) h3
  rw [Polynomial.eval_add, Polynomial.eval_mul, hroot, zero_mul, add_zero,
    eval_one_toPoly 3 (by decide), Polynomial.eval_pow, Polynomial.eval_X, one_pow,
    show popcount 3 = 2 from by decide] at h4
  exact absurd h4 (by decide)

end Prim

/-- Claim C30: for every `i < 2^13` the pre-filter of `main` skips `i` exactly when the
polynomial of the candidate `i | 2^13` over GF(2) is divisible by `X` or by `X + 1`, and
no candidate for which `is_primitive` returns 1 is skipped. -/
theorem prefilter_exact (i : Nat) (hi : i < 2 ^ 13) :
    (Prim.main_skips i = true ↔
      ((Polynomial.X : Polynomial (ZMod 2)) ∣ TuGf.toPoly (Prim.candidate i) ∨
        (Polynomial.X + 1 : Polynomial (ZMod 2)) ∣ TuGf.toPoly (Prim.candidate i))) ∧
    (Prim.is_primitive (Prim.candidate i) = 1 → Prim.main_skips i = false) := by
  obtain ⟨hlo, hhi, hpar⟩ := Prim.candidate_range i hi
  have hiff : Prim.main_skips i = true ↔
      ((Polynomial.X : Polynomial (ZMod 2)) ∣ TuGf.toPoly (Prim.candidate i) ∨
        (Polynomial.X + 1 : Polynomial (ZMod 2)) ∣ TuGf.toPoly (Prim.candidate i)) := by
    rw [Prim.main_skips_iff, Prim.X_dvd_toPoly, Prim.X_add_one_dvd,
      Prim.eval_one_candidate i hi, Prim.natCast_zmod_two, hpar]
    exact Or.comm
  refine ⟨hiff, fun hprim => ?_⟩
  by_contra hs
  have hs2 : Prim.main_skips i = true := by simpa using hs
  rcases hiff.1 hs2 with hX | hX1
  · exact Prim.even_not_primitive _ hlo hhi ((Prim.X_dvd_toPoly _).1 hX) hprim
  · by_cases hodd : Prim.candidate i % 2 = 1
    · exact Prim.parity_not_primitive _ hlo hhi hodd ((Prim.X_add_one_dvd _).1 hX1) hprim
    · exact Prim.even_not_primitive _ hlo hhi (by omega) hprim

theorem prefilter_exact_witness :
    (Prim.main_skips 27 = true ↔
      ((Polynomial.X : Polynomial (ZMod 2)) ∣ TuGf.toPoly (Prim.candidate 27) ∨
        (Polynomial.X + 1 : Polynomial (ZMod 2)) ∣ TuGf.toPoly (Prim.candidate 27))) ∧
    (Prim.is_primitive (Prim.candidate 27) = 1 → Prim.main_skips 27 = false) :=
  prefilter_exact 27 (by decide)

/-! ## The error vector of the command line tool -/

namespace TuTool

theorem getD_set_int (l : List Int) (k j : Nat) (v : Int) (hk : k < l.length) :
    (l.set k v).getD j 0 = if k = j then v else l.getD j 0 := by
  by_cases hkj : k = j
  · subst hkj; simp [List.getD_eq_getElem?_getD, List.getElem?_set, hk]
  · simp [List.getD_eq_getElem?_getD, List.getElem?_set, hkj]

theorem scanInv_dec (size : Nat) (len : Int) (i : Nat) (bit : List Int)
    (h : ScanInv size len i bit) (hi : i + 1 < size) (hi0 : 0 < i)
    (heq : bit.getD i 0 = bit.getD (i + 1) 0)
    (hgap : bit.getD (i - 1) 0 + 1 < bit.getD i 0) :
    ScanInv size len (i + 1) (bit.set i (bit.getD i 0 - 1)) := by
  obtain ⟨hl, hr, hs, hm⟩ := h
  have hil : i < bit.length := by omega
  refine ⟨by simp [hl], ?_, ?_, ?_⟩
  · intro j hj
    rw [getD_set_int _ _ _ _ hil]
    have h1 := hr j hj
    have h2 := hr (i - 1) (by omega)
    have h3 := hr i (by omega)
    split_ifs <;> omega
  · intro j hj hj2
    rw [getD_set_int _ _ _ _ hil, getD_set_int _ _ _ _ hil]
    by_cases h1 : i = j
    · subst h1
      rw [if_pos rfl, if_neg (by omega)]
      omega
    · by_cases h2 : i = j + 1
      · rw [if_neg h1, if_pos h2]
        have : j = i - 1 := by omega
        subst this
        omega
      · rw [if_neg h1, if_neg h2]
        exact hs j (by omega) hj2
  · intro j hj hj2
    rw [getD_set_int _ _ _ _ hil, getD_set_int _ _ _ _ hil, if_neg (by omega),
      if_neg (by omega)]
    exact hm j (by omega) hj2

theorem scanInv_inc (size : Nat) (len : Int) (i : Nat) (bit : List Int)
    (h : ScanInv size len i bit) (hi : i + 1 < size - 1)
    (heq : bit.getD i 0 = bit.getD (i + 1) 0)
    (hgap : bit.getD (i + 1) 0 + 1 < bit.getD (i + 2) 0) :
    ScanInv size len (i + 1) (bit.set (i + 1) (bit.getD (i + 1) 0 + 1)) := by
  obtain ⟨hl, hr, hs, hm⟩ := h
  have hil : i + 1 < bit.length := by omega
  refine ⟨by simp [hl], ?_, ?_, ?_⟩
  · intro j hj
    rw [getD_set_int _ _ _ _ hil]
    have h1 := hr j hj
    have h2 := hr (i + 1) (by omega)
    have h3 := hr (i + 2) (by omega)
    split_ifs <;> omega
  · intro j hj hj2
    rw [getD_set_int _ _ _ _ hil, getD_set_int _ _ _ _ hil]
    by_cases h1 : i = j
    · subst h1
      rw [if_neg (by omega), if_pos rfl]
      omega
    · rw [if_neg (by omega), if_neg (by omega)]
      exact hs j (by omega) hj2
  · intro j hj hj2
    rw [getD_set_int _ _ _ _ hil, getD_set_int _ _ _ _ hil]
    by_cases h1 : i + 1 = j
    · subst h1
      rw [if_pos rfl, if_neg (by omega)]
      have e : i + 1 + 1 = i + 2 := rfl
      rw [e]
      omega
    · rw [if_neg h1, if_neg (by omega)]
      exact hm j (by omega) hj2

theorem scanInv_skip (size : Nat) (len : Int) (i : Nat) (bit : List Int)
    (h : ScanInv size len i bit) (hi : i + 1 < size)
    (hne : bit.getD i 0 ≠ bit.getD (i + 1) 0) :
    ScanInv size len (i + 1) bit := by
  obtain ⟨hl, hr, hs, hm⟩ := h
  refine ⟨hl, hr, ?_, fun j hj hj2 => hm j (by omega) hj2⟩
  intro j hj hj2
  by_cases h1 : j = i
  · subst h1
    have := hm j (le_refl j) hj2
    omega
  · exact hs j (by omega) hj2

theorem repair_scan_inv (size : Nat) (len : Int) : ∀ (n i : Nat) (bit b : List Int),
    i + n = size - 1 → ScanInv size len i bit → repair_scan size n i bit = (b, true) →
    ScanInv size len (size - 1) b := by
  intro n
  induction n with
  | zero =>
    intro i bit b hin h hres
    simp only [repair_scan, Prod.mk.injEq, and_true] at hres
    subst hres
    have : i = size - 1 := by omega
    subst this
    exact h
  | succ n ih =>
    intro i bit b hin h hres
    rw [repair_scan] at hres
    by_cases heq : bit.getD i 0 = bit.getD (i + 1) 0
    · rw [if_pos heq] at hres
      by_cases h1 : 0 < i ∧ bit.getD (i - 1) 0 + 1 < bit.getD i 0
      · rw [if_pos h1] at hres
        exact ih (i + 1) _ b (by omega)
          (scanInv_dec size len i bit h (by omega) h1.1 heq h1.2) hres
      · rw [if_neg h1] at hres
        by_cases h2 : i + 1 < size - 1 ∧ bit.getD (i + 1) 0 + 1 < bit.getD (i + 2) 0
        · rw [if_pos h2] at hres
          exact ih (i + 1) _ b (by omega)
            (scanInv_inc size len i bit h h2.1 heq h2.2) hres
        · rw [if_neg h2] at hres
          simp at hres
    · rw [if_neg heq] at hres
      exact ih (i + 1) _ b (by omega) (scanInv_skip size len i bit h (by omega) heq) hres

theorem draw_round_range (rand : Nat → Nat) (len : Int) (size pos : Nat) (hlen : 0 < len) :
    ∀ x ∈ draw_round rand len size pos, 0 ≤ x ∧ x < len := by
  intro x hx
  obtain ⟨i, _, rfl⟩ := List.mem_map.1 hx
  exact tmod_natCast _ len hlen

theorem qsort_inv (rand : Nat → Nat) (len : Int) (size pos : Nat) (hlen : 0 < len) :
    ScanInv size len 0 (qsort (draw_round rand len size pos)) := by
  have hl : (qsort (draw_round rand len size pos)).length = size := by
    simp [qsort, draw_round, List.length_insertionSort]
  have hsorted : (qsort (draw_round rand len size pos)).Sorted (· ≤ ·) :=
    List.sorted_insertionSort _ _
  refine ⟨hl, ?_, fun j hj => absurd hj (by omega), ?_⟩
  · intro j hj
    rw [List.getD_eq_getElem _ _ (by omega)]
    apply draw_round_range rand len size pos hlen
    exact (List.perm_insertionSort _ _).subset (List.getElem_mem _)
  · intro j _ hj
    rw [List.getD_eq_getElem _ _ (by omega), List.getD_eq_getElem _ _ (by omega)]
    exact List.pairwise_iff_getElem.1 hsorted j (j + 1) (by omega) (by omega) (by omega)

theorem generate_loop_inv (rand : Nat → Nat) (len : Int) (size : Nat) (hlen : 0 < len) :
    ∀ (fuel pos : Nat) (bit : List Int), generate_loop rand len size fuel pos = some bit →
    ScanInv size len (size - 1) bit := by
  intro fuel
  induction fuel with
  | zero => intro pos bit h; simp [generate_loop] at h
  | succ fuel ih =>
    intro pos bit h
    rw [generate_loop] at h
    by_cases hd : (repair_scan size (size - 1) 0 (qsort (draw_round rand len size pos))).2 = true
    · rw [if_pos hd] at h
      have hb : (repair_scan size (size - 1) 0 (qsort (draw_round rand len size pos))) =
          (bit, true) := by
        rw [← hd]
        exact Prod.ext (Option.some.inj h) rfl
      exact repair_scan_inv size len (size - 1) 0 _ bit (by omega)
        (qsort_inv rand len size pos hlen) hb
    · rw [if_neg hd] at h
      exact ih _ _ h

theorem strict_of_steps (g : Nat → Int) (size : Nat)
    (h : ∀ j, j + 1 < size → g j < g (j + 1)) :
    ∀ j i, i < j → j < size → g i < g j := by
  intro j
  induction j with
  | zero => intro i hi; omega
  | succ j ih =>
    intro i hi hj
    have h1 := h j hj
    by_cases hij : i = j
    · subst hij; exact h1
    · exact lt_trans (ih i (by omega) (by omega)) h1

theorem scanInv_sorted (size : Nat) (len : Int) (bit : List Int)
    (h : ScanInv size len (size - 1) bit) :
    bit.Sorted (· < ·) ∧ ∀ x ∈ bit, 0 ≤ x ∧ x < len := by
  obtain ⟨hl, hr, hs, _⟩ := h
  constructor
  · unfold List.Sorted
    rw [List.pairwise_iff_getElem]
    intro i j hi hj hij
    have := strict_of_steps (fun k => bit.getD k 0) size
      (fun k hk => hs k (by omega) hk) j i hij (by omega)
    simp only at this
    rw [List.getD_eq_getElem _ _ hi, List.getD_eq_getElem _ _ hj] at this
    exact this
  · intro x hx
    obtain ⟨k, hk, rfl⟩ := List.getElem_of_mem hx
    have := hr k (by omega)
    rw [List.getD_eq_getElem _ _ hk] at this
    exact this

theorem rev8_inj_nonneg (x y : Int) (hx : 0 ≤ x) (hy : 0 ≤ y) (h : rev8 x = rev8 y) :
    x = y := by
  obtain ⟨a, rfl⟩ := Int.eq_ofNat_of_zero_le hx
  obtain ⟨b, rfl⟩ := Int.eq_ofNat_of_zero_le hy
  have := congrArg rev8 h
  rw [rev8_rev8_ofNat, rev8_rev8_ofNat] at this
  exact this

end TuTool

/-- Claim C26: whenever the loop of `generate_error_vector` ends (for a stream of
`lrand48()` values, a length `len > 0` and a size), the array just before the final
`rev8` pass has `size` entries, strictly increasing and all in `[0, len)`; the positions
returned are their `rev8` images and are pairwise distinct. -/
theorem error_vector_strictly_increasing (rand : Nat → Nat) (len : Int) (size fuel : Nat)
    (bit : List Int) (hlen : 0 < len)
    (h : TuTool.generate_loop rand len size fuel 0 = some bit) :
    bit.length = size ∧ bit.Sorted (· < ·) ∧ (∀ x ∈ bit, 0 ≤ x ∧ x < len) ∧
    TuTool.generate_error_vector rand len size fuel = some (bit.map TuTool.rev8) ∧
    (bit.map TuTool.rev8).Nodup := by
  have hinv := TuTool.generate_loop_inv rand len size hlen fuel 0 bit h
  obtain ⟨hs, hr⟩ := TuTool.scanInv_sorted size len bit hinv
  refine ⟨hinv.1, hs, hr, by simp [TuTool.generate_error_vector, h], ?_⟩
  apply List.Nodup.map_on
  · intro x hx y hy hxy
    exact TuTool.rev8_inj_nonneg x y (hr x hx).1 (hr y hy).1 hxy
  · exact hs.nodup

theorem error_vector_strictly_increasing_witness :
    ([5, 6, 9] : List Int).length = 3 ∧ ([5, 6, 9] : List Int).Sorted (· < ·) ∧
    (∀ x ∈ ([5, 6, 9] : List Int), 0 ≤ x ∧ x < (16 : Int)) ∧
    TuTool.generate_error_vector (fun n => [9, 5, 5].getD n 0) 16 3 1 =
      some ([5, 6, 9].map TuTool.rev8) ∧
    ([5, 6, 9].map TuTool.rev8).Nodup :=
  error_vector_strictly_increasing (fun n => [9, 5, 5].getD n 0) 16 3 1 [5, 6, 9]
    (by decide) (by decide)

/-! ## The default table of primitive polynomials -/

namespace Prim

theorem is_primitive_of_primitive (poly : Nat) (h : TuGf.Primitive poly 13) :
    is_primitive poly = 1 := by
  rw [is_primitive_iff]
  exact ⟨fun j hj0 hj => h.ne_one j hj0 (by norm_num; omega), by
    have := h.one
    norm_num at this
    exact this⟩

end Prim

/-- Claim C31: every entry of the default table of the oracle is a primitive polynomial
of the right degree. For every `m` in `5 .. 15` the entry `p = prim_poly_tab[m-5]`
satisfies `2^m ≤ p < 2^(m+1)`, `multiply_ak 1 (2^m - 1) = 1` and `multiply_ak 1 k ≠ 1`
for every `0 < k < 2^m - 1` (with `primpoly = p`); the entry for `m = 13` is `0x201b`
and `is_primitive` of prim.c returns 1 on it. -/
theorem table_entries_primitive (m : Nat) (h5 : 5 ≤ m) (h15 : m ≤ 15) :
    (2 ^ m ≤ TuGf.prim_poly_tab.getD (m - 5) 0 ∧
      TuGf.prim_poly_tab.getD (m - 5) 0 < 2 ^ (m + 1)) ∧
    TuGf.multiply_ak (TuGf.prim_poly_tab.getD (m - 5) 0) m 1 (2 ^ m - 1) = 1 ∧
    (∀ k, 0 < k → k < 2 ^ m - 1 →
      TuGf.multiply_ak (TuGf.prim_poly_tab.getD (m - 5) 0) m 1 k ≠ 1) ∧
    TuGf.prim_poly_tab.getD (13 - 5) 0 = 0x201b ∧
    Prim.is_primitive 0x201b = 1 := by
  have hp := TuGf.table_primitive m h5 h15
  refine ⟨⟨hp.good.hlo, hp.good.hhi⟩, hp.one, fun k hk0 hk => hp.ne_one k hk0 hk, rfl, ?_⟩
  exact Prim.is_primitive_of_primitive 0x201b (TuGf.table_primitive 13 (by decide) (by decide))

theorem table_entries_primitive_witness :
    (2 ^ 13 ≤ TuGf.prim_poly_tab.getD (13 - 5) 0 ∧
      TuGf.prim_poly_tab.getD (13 - 5) 0 < 2 ^ (13 + 1)) ∧
    TuGf.multiply_ak (TuGf.prim_poly_tab.getD (13 - 5) 0) 13 1 (2 ^ 13 - 1) = 1 ∧
    (∀ k, 0 < k → k < 2 ^ 13 - 1 →
      TuGf.multiply_ak (TuGf.prim_poly_tab.getD (13 - 5) 0) 13 1 k ≠ 1) ∧
    TuGf.prim_poly_tab.getD (13 - 5) 0 = 0x201b ∧
    Prim.is_primitive 0x201b = 1 :=
  table_entries_primitive 13 (by decide) (by decide)
